import Mathlib

/-!
# A verification development for `queue.c`

`queue.c` implements one process-wide FIFO queue protected by a single mutex.
Items live in a singly linked list of `QueueNode`s (`front`/`rear`); consumers
that find the list empty park on a private condition variable that is linked
into a second list of `ConditionVariables` nodes (`cv_front`/`cv_rear`).

The embedding keeps the pointer structure of the C code:

* pointers are natural numbers, `NULL` is `0`;
* `malloc`/`free` act on two typed heaps (association lists from addresses to
  node contents); `malloc` always succeeds (the source never checks its result)
  and returns an address that is live in neither heap; reading or writing a
  dead address is undefined behaviour and makes the embedded function return
  `none`;
* `size_t` counters are natural numbers reduced modulo `2 ^ 64`;
* the mutex is modelled by atomicity: every stretch of code that runs with the
  lock held is one function on the memory, and a thread blocked in `cnd_wait`
  is recorded in a per-thread program counter.
-/

namespace PQueue

/-! ## Machine-level basics -/

/-- The null pointer. -/
def NULL : Nat := 0

/-- The number of values of a `size_t` (64-bit target). -/
def SIZE_MOD : Nat := 2 ^ 64

/-- The C statement `x++` on a `size_t`. -/
def incr (x : Nat) : Nat := (x + 1) % SIZE_MOD

/-- The C statement `x--` on a `size_t` (wraps from `0` to `SIZE_MAX`). -/
def decr (x : Nat) : Nat := (x + (SIZE_MOD - 1)) % SIZE_MOD

/-- A typed heap: the live objects of one C type, newest binding first. -/
abbrev Heap (α : Type) := List (Nat × α)

/-- Read the object stored at address `a` (`none` when `a` is not live). -/
def Heap.read {α : Type} : Heap α → Nat → Option α
  | [], _ => none
  | (k, v) :: h, a => if a = k then some v else Heap.read h a

/-- Overwrite (or create) the object stored at address `a`. -/
def Heap.store {α : Type} (h : Heap α) (a : Nat) (v : α) : Heap α := (a, v) :: h

/-- The C call `free(a)`: address `a` is no longer live. -/
def Heap.free {α : Type} (h : Heap α) (a : Nat) : Heap α :=
  h.filter (fun e => decide (e.1 ≠ a))

/-- The largest address bound in a heap. -/
def Heap.top {α : Type} : Heap α → Nat
  | [] => 0
  | (k, _) :: h => max k (Heap.top h)

/-! ## The data model of `queue.c` -/

/-- The C struct `QueueNode`: a payload pointer and the successor link. -/
structure QueueNode where
  data : Nat
  next : Nat
  deriving DecidableEq, Repr

/-- The C struct `ConditionVariables`. The `cnd_t` is represented by the one
bit that matters to its single waiter: whether `cnd_signal` has been called on
it since `cnd_init`. -/
structure ConditionVariables where
  cv : Bool
  next : Nat
  deriving DecidableEq, Repr

/-- The C struct `Queue` without the mutex (which is modelled by atomicity). -/
structure Queue where
  front : Nat
  rear : Nat
  cv_front : Nat
  cv_rear : Nat
  size : Nat
  visitedCount : Nat
  waitingCount : Nat
  deriving DecidableEq, Repr

/-- The memory the queue code works on: the static `queue` object and the
heap objects of the two node types. -/
structure Mem where
  queue : Queue
  nodes : Heap QueueNode
  cvs : Heap ConditionVariables
  deriving DecidableEq, Repr

/-- The address returned by the next `malloc`: non-null and not live in either
heap. -/
def Mem.fresh (m : Mem) : Nat := max (Heap.top m.nodes) (Heap.top m.cvs) + 1

/-! ## The operations of `queue.c` -/

/-- The function `initQueue` (lines 34-43): every field of the static queue is
reset; the heap is not touched. -/
def initQueue (m : Mem) : Mem :=
  { m with queue :=
      { front := NULL, rear := NULL, cv_front := NULL, cv_rear := NULL,
        size := 0, visitedCount := 0, waitingCount := 0 } }

/-- Lines 74-88 of `enqueue`: allocate the node and link it at the rear.
Undefined (`none`) when `rear` is non-null but not a live node (a dangling
`rear` is looked up in the heap as it was before the `malloc`, so that it
stays undefined even if the allocator hands the same address out again). -/
def enqueue_link (item : Nat) (m : Mem) : Option Mem :=
  let newNode := m.fresh
  let nodes1 := Heap.store m.nodes newNode { data := item, next := NULL }
  if m.queue.rear = NULL then
    some { m with nodes := nodes1,
                  queue := { m.queue with front := newNode, rear := newNode } }
  else
    match Heap.read m.nodes m.queue.rear with
    | none => none
    | some r =>
      some { m with nodes := Heap.store nodes1 m.queue.rear { r with next := newNode },
                    queue := { m.queue with rear := newNode } }

/-- Lines 92-100 of `enqueue`: detach the front waiter, if any, and signal its
condition variable. The second component is the address of the signalled node
(`NULL` when nobody was signalled). -/
def enqueue_wake (m : Mem) : Option (Mem × Nat) :=
  let cv := m.queue.cv_front
  if cv ≠ NULL then
    match Heap.read m.cvs cv with
    | none => none
    | some c =>
      some ({ m with
                queue := { m.queue with
                             cv_front := c.next,
                             cv_rear := if c.next = NULL then NULL else m.queue.cv_rear },
                cvs := Heap.store m.cvs cv { c with cv := true } }, cv)
  else
    some (m, NULL)

/-- The function `enqueue` (lines 73-103), one critical section. Returns the
new memory and the address of the waiter node that was signalled (`NULL` for
none). -/
def enqueue (item : Nat) (m : Mem) : Option (Mem × Nat) :=
  match enqueue_link item m with
  | none => none
  | some m1 =>
    enqueue_wake { m1 with queue := { m1.queue with size := incr m1.queue.size } }

/-- Lines 129-142 of `dequeue`, identical to lines 155-165 of `tryDequeue`:
unlink and free the front node, update the counters, yield the payload. -/
def remove_front (m : Mem) : Option (Mem × Nat) :=
  match Heap.read m.nodes m.queue.front with
  | none => none
  | some dequeuedNode =>
    some ({ m with
              nodes := Heap.free m.nodes m.queue.front,
              queue := { m.queue with
                           front := dequeuedNode.next,
                           rear := if dequeuedNode.next = NULL then NULL else m.queue.rear,
                           size := decr m.queue.size,
                           visitedCount := incr m.queue.visitedCount } },
          dequeuedNode.data)

/-- Lines 111-121 of `dequeue`: count the waiter, create its node and link it
at the rear of the condition-variable list. Returns the address of the node
the caller then waits on. -/
def dequeue_register (m : Mem) : Option (Mem × Nat) :=
  let cv := m.fresh
  let cvs1 := Heap.store m.cvs cv { cv := false, next := NULL }
  let q1 := { m.queue with waitingCount := incr m.queue.waitingCount }
  if m.queue.cv_front = NULL then
    some ({ m with cvs := cvs1, queue := { q1 with cv_front := cv, cv_rear := cv } }, cv)
  else
    match Heap.read m.cvs m.queue.cv_rear with
    | none => none
    | some r =>
      some ({ m with cvs := Heap.store cvs1 m.queue.cv_rear { r with next := cv },
                     queue := { q1 with cv_rear := cv } }, cv)

/-- Lines 123-125 of `dequeue`: the code that runs when `cnd_wait` returns. -/
def dequeue_wakeup (cv : Nat) (m : Mem) : Option Mem :=
  match Heap.read m.cvs cv with
  | none => none
  | some _ =>
    some { m with cvs := Heap.free m.cvs cv,
                  queue := { m.queue with waitingCount := decr m.queue.waitingCount } }

/-- How a stretch of `dequeue` that holds the lock ends: the caller blocks in
`cnd_wait` on the node at `cv`, or the call returns `item`. -/
inductive DequeueStep where
  | parked (cv : Nat)
  | returned (item : Nat)
  deriving DecidableEq, Repr

/-- The function `dequeue` from the loop test at line 109 up to the next
`cnd_wait` (line 122) or the `return` (line 142). -/
def dequeue_loop (m : Mem) : Option (Mem × DequeueStep) :=
  if m.queue.front = NULL then
    match dequeue_register m with
    | none => none
    | some (m1, cv) => some (m1, DequeueStep.parked cv)
  else
    match remove_front m with
    | none => none
    | some (m1, item) => some (m1, DequeueStep.returned item)

/-- A call of `dequeue` (lines 105-143) up to its first `cnd_wait` or its
return. -/
def dequeue (m : Mem) : Option (Mem × DequeueStep) := dequeue_loop m

/-- The continuation of a `dequeue` call whose `cnd_wait` on `cv` returns:
lines 123-125 followed by the loop from line 109. -/
def dequeue_resume (cv : Nat) (m : Mem) : Option (Mem × DequeueStep) :=
  match dequeue_wakeup cv m with
  | none => none
  | some m1 => dequeue_loop m1

/-- The function `tryDequeue` (lines 145-171). The argument `out` is the value
of `*item` before the call; the result is the return value, the value of
`*item` after the call and the new memory. -/
def tryDequeue (out : Nat) (m : Mem) : Option (Bool × Nat × Mem) :=
  if m.queue.front = NULL then
    some (false, out, m)
  else
    match remove_front m with
    | none => none
    | some (m1, dequeuedItem) => some (true, dequeuedItem, m1)

/-- The accessor `size` (lines 173-176). -/
def size (m : Mem) : Nat := m.queue.size

/-- The accessor `waiting` (lines 178-181). -/
def waiting (m : Mem) : Nat := m.queue.waitingCount

/-- The accessor `visited` (lines 183-186). -/
def visited (m : Mem) : Nat := m.queue.visitedCount

/-- The two loops of `destroyQueue` (lines 50-54 and 62-66): follow the links
from `current` and free every node on the way; dereferencing a dead node is
undefined (`none`). The first argument bounds the number of iterations. Every
iteration frees a live node, so the number of bindings of the heap is always
enough: with that bound, the case `0` is only reached with an empty heap, where
the dereference is undefined anyway. -/
def free_all {α : Type} (next : α → Nat) : Nat → Heap α → Nat → Option (Heap α)
  | 0, h, current => if current = NULL then some h else none
  | fuel + 1, h, current =>
    if current = NULL then some h
    else
      match Heap.read h current with
      | none => none
      | some node => free_all next fuel (Heap.free h current) (next node)

/-- The function `destroyQueue` (lines 45-71), run while no other thread uses
the queue: free the item nodes and reset `front`, `rear`, `size`; then free the
waiter nodes and reset `cv_front`, `cv_rear`. The two other counters are not
touched. This is the effect on the memory; the final `mtx_destroy` is recorded
by `stepCall`. -/
def destroyQueue (m : Mem) : Option Mem :=
  match free_all (fun n : QueueNode => n.next) m.nodes.length m.nodes m.queue.front with
  | none => none
  | some nodes2 =>
    match free_all (fun c : ConditionVariables => c.next) m.cvs.length m.cvs
        m.queue.cv_front with
    | none => none
    | some cvs2 =>
      some { queue := { m.queue with front := NULL, rear := NULL, size := 0,
                                     cv_front := NULL, cv_rear := NULL },
             nodes := nodes2, cvs := cvs2 }

/-! ## Threads and atomic steps -/

/-- Where a thread stands with respect to the queue: outside every queue
function, or blocked in the `cnd_wait` of line 122 on its own node `cv`. -/
inductive Pc where
  | idle
  | waiting (cv : Nat)
  deriving DecidableEq, Repr

/-- What an atomic step makes observable (thread ids first). -/
inductive Event where
  | enqueued (t item woke : Nat)
  | parked (t cv : Nat)
  | resumed (t cv : Nat)
  | returned (t item : Nat)
  | tryOk (t item : Nat)
  | tryEmpty (t : Nat)
  deriving DecidableEq, Repr

/-- The whole system: the shared memory, the program counter of every thread
and the history of events so far (a ghost variable). -/
structure Sys where
  mem : Mem
  pc : Nat → Pc
  log : List Event

/-- The atomic steps a scheduler can pick: thread `t` runs `enqueue(item)`,
runs `tryDequeue(&x)` with `x = out`, calls `dequeue`, or returns from its
`cnd_wait`. -/
inductive Action where
  | enqueue (t item : Nat)
  | tryDequeue (t out : Nat)
  | dequeue (t : Nat)
  | resume (t : Nat)
  deriving DecidableEq, Repr

/-- Update the program counter of thread `t`. -/
def setPc (pc : Nat → Pc) (t : Nat) (v : Pc) : Nat → Pc :=
  fun u => if u = t then v else pc u

/-- Whether `cnd_signal` has been called on the live node at `cv`. -/
def signalled (m : Mem) (cv : Nat) : Bool :=
  match Heap.read m.cvs cv with
  | some c => c.cv
  | none => false

/-- Record how a locked stretch of `dequeue` run by thread `t` ended. -/
def afterDequeue (s : Sys) (t : Nat) (pre : List Event) : Mem × DequeueStep → Sys
  | (m, DequeueStep.parked cv) =>
    { mem := m, pc := setPc s.pc t (Pc.waiting cv),
      log := s.log ++ (pre ++ [Event.parked t cv]) }
  | (m, DequeueStep.returned item) =>
    { mem := m, pc := setPc s.pc t Pc.idle,
      log := s.log ++ (pre ++ [Event.returned t item]) }

/-- One atomic step. The result is `none` when the step is not enabled (the
thread is not at the right place, or it waits on a node that has not been
signalled and `spurious` wake-ups are not allowed) or when the code runs into
undefined behaviour. -/
def step (spurious : Bool) (s : Sys) : Action → Option Sys
  | Action.enqueue t item =>
    match s.pc t with
    | Pc.idle =>
      match enqueue item s.mem with
      | none => none
      | some (m, woke) =>
        some { s with mem := m, log := s.log ++ [Event.enqueued t item woke] }
    | Pc.waiting _ => none
  | Action.tryDequeue t out =>
    match s.pc t with
    | Pc.idle =>
      match tryDequeue out s.mem with
      | none => none
      | some (true, item, m) =>
        some { s with mem := m, log := s.log ++ [Event.tryOk t item] }
      | some (false, _, m) =>
        some { s with mem := m, log := s.log ++ [Event.tryEmpty t] }
    | Pc.waiting _ => none
  | Action.dequeue t =>
    match s.pc t with
    | Pc.idle =>
      match dequeue s.mem with
      | none => none
      | some r => some (afterDequeue s t [] r)
    | Pc.waiting _ => none
  | Action.resume t =>
    match s.pc t with
    | Pc.idle => none
    | Pc.waiting cv =>
      if spurious || signalled s.mem cv then
        match dequeue_resume cv s.mem with
        | none => none
        | some r => some (afterDequeue s t [Event.resumed t cv] r)
      else none

/-- Run a schedule, one atomic step after the other. -/
def run (spurious : Bool) : Sys → List Action → Option Sys
  | s, [] => some s
  | s, a :: rest =>
    match step spurious s a with
    | none => none
    | some s1 => run spurious s1 rest

/-- The system right after `initQueue`: no thread is inside a queue function
and nothing has happened yet. -/
def start (m : Mem) : Sys :=
  { mem := initQueue m, pc := fun _ => Pc.idle, log := [] }

/-- The payloads enqueued so far, in enqueue order. -/
def enqueuedItems : List Event → List Nat
  | [] => []
  | Event.enqueued _ item _ :: rest => item :: enqueuedItems rest
  | _ :: rest => enqueuedItems rest

/-- The payloads handed out so far by `dequeue` returns and successful
`tryDequeue` calls, in the order of the removals. -/
def removedItems : List Event → List Nat
  | [] => []
  | Event.returned _ item :: rest => item :: removedItems rest
  | Event.tryOk _ item :: rest => item :: removedItems rest
  | _ :: rest => removedItems rest

/-- The payloads that the `dequeue` calls of thread `t` returned, in order. -/
def returnedTo (t : Nat) : List Event → List Nat
  | [] => []
  | Event.returned u item :: rest =>
    if u = t then item :: returnedTo t rest else returnedTo t rest
  | _ :: rest => returnedTo t rest

/-! ## Representation predicates -/

/-- Following `nx` from `p` visits exactly the non-null addresses `as` and then
reaches `NULL`. -/
def Chain (nx : Nat → Option Nat) : Nat → List Nat → Prop
  | p, [] => p = NULL
  | p, a :: rest =>
    p = a ∧ a ≠ NULL ∧ (nx a).isSome = true ∧ Chain nx ((nx a).getD NULL) rest

/-- Decide `Chain` by walking the list. -/
instance Chain.dec (nx : Nat → Option Nat) :
    (p : Nat) → (as : List Nat) → Decidable (Chain nx p as)
  | p, [] => inferInstanceAs (Decidable (p = NULL))
  | p, a :: rest =>
    have := Chain.dec nx ((nx a).getD NULL) rest
    inferInstanceAs
      (Decidable (p = a ∧ a ≠ NULL ∧ (nx a).isSome = true ∧ Chain nx ((nx a).getD NULL) rest))

/-- The value a rear pointer must have for the list of addresses `as`: the
last address, or `NULL` for the empty list. -/
def rearOf (as : List Nat) : Nat := as.getLast?.getD NULL

/-- The `next` field of the live `QueueNode` at `a`. -/
def itemNext (h : Heap QueueNode) (a : Nat) : Option Nat :=
  (Heap.read h a).map (fun n => n.next)

/-- The `data` field of the live `QueueNode` at `a`. -/
def itemData (h : Heap QueueNode) (a : Nat) : Option Nat :=
  (Heap.read h a).map (fun n => n.data)

/-- The `next` field of the live `ConditionVariables` node at `a`. -/
def cvNext (h : Heap ConditionVariables) (a : Nat) : Option Nat :=
  (Heap.read h a).map (fun n => n.next)

/-- The Item Store of `m` is the list `cells` of (address, payload) pairs,
front to rear: the nodes are linked from `front` in this order, the last
one is `rear`, and each holds its payload. -/
def ItemStore (m : Mem) (cells : List (Nat × Nat)) : Prop :=
  Chain (itemNext m.nodes) m.queue.front (cells.map Prod.fst) ∧
  m.queue.rear = rearOf (cells.map Prod.fst) ∧
  ∀ c ∈ cells, itemData m.nodes c.1 = some c.2

/-- The Waiter Registry of `m` is the list `ws` of node addresses, front to
rear. -/
def Registry (m : Mem) (ws : List Nat) : Prop :=
  Chain (cvNext m.cvs) m.queue.cv_front ws ∧ m.queue.cv_rear = rearOf ws

/-- Decide `ItemStore`. -/
instance ItemStore.dec (m : Mem) (cells : List (Nat × Nat)) : Decidable (ItemStore m cells) :=
  inferInstanceAs (Decidable (_ ∧ _ ∧ _))

/-- Decide `Registry`. -/
instance Registry.dec (m : Mem) (ws : List Nat) : Decidable (Registry m ws) :=
  inferInstanceAs (Decidable (_ ∧ _))

/-- A memory with nothing in it: the zero-initialised static queue and an
empty heap. -/
def Mem.boot : Mem :=
  { queue := { front := 0, rear := 0, cv_front := 0, cv_rear := 0,
               size := 0, visitedCount := 0, waitingCount := 0 },
    nodes := [], cvs := [] }

/-- The state reached from `start Mem.boot` by a schedule (the start state
itself if the schedule cannot be run). -/
def after (acts : List Action) : Sys :=
  (run false (start Mem.boot) acts).getD (start Mem.boot)

/-- A sample memory: payloads `7` and `8` stored at addresses `1` and `2`, and
one waiter node at address `3`. -/
def Mem.sample : Mem :=
  { queue := { front := 1, rear := 2, cv_front := 3, cv_rear := 3,
               size := 2, visitedCount := 5, waitingCount := 1 },
    nodes := [(2, { data := 8, next := 0 }), (1, { data := 7, next := 2 })],
    cvs := [(3, { cv := false, next := 0 })] }

/-- A sample system over `Mem.sample`: thread `4` is parked on the node at
address `3`, every other thread is idle. -/
def Sys.sample : Sys :=
  { mem := Mem.sample, pc := fun t => if t = 4 then Pc.waiting 3 else Pc.idle, log := [] }

/-- The item-side invariant of the system: the Item Store holds exactly the
payloads enqueued and not yet handed out, in enqueue order, and the counters
`size` and `visitedCount` agree (as `size_t` values) with the history. -/
def ItemInv (s : Sys) : Prop :=
  ∃ cells, ItemStore s.mem cells ∧
    removedItems s.log ++ cells.map Prod.snd = enqueuedItems s.log ∧
    s.mem.queue.size = cells.length % SIZE_MOD ∧
    s.mem.queue.visitedCount = (removedItems s.log).length % SIZE_MOD

/-- The waiter-side invariant of the system without spurious wake-ups: the
registry is a well-formed list and none of its nodes has been signalled. -/
def RegInv (s : Sys) : Prop :=
  ∃ ws, Registry s.mem ws ∧ ∀ w ∈ ws, signalled s.mem w = false

/-- The representation invariant of the Item Store: the nodes linked from
`front` form a list that ends in the node `rear`, and `size` is the length of
that list (as a `size_t`). -/
def RepInv (m : Mem) : Prop :=
  ∃ cells, ItemStore m cells ∧ m.queue.size = cells.length % SIZE_MOD

/-- The system together with the state of the mutex `queue.lock`: `lockLive`
holds from the `mtx_init` of `initQueue` (line 42) up to the `mtx_destroy` at
the end of `destroyQueue` (line 70). -/
structure Guarded where
  sys : Sys
  lockLive : Bool

/-- What a thread can do to the queue: one of the atomic steps of `Action`, or
a call of `destroyQueue` (which records no event). -/
inductive Call where
  | op (a : Action)
  | destroy (t : Nat)
  deriving DecidableEq, Repr

/-- One atomic step or one call of `destroyQueue` by an idle thread. Every
queue function starts by locking `queue.lock` (and a thread leaving `cnd_wait`
locks it again), which is undefined on a destroyed mutex: once `destroyQueue`
has run its `mtx_destroy`, no further call is defined. -/
def stepCall (spurious : Bool) (g : Guarded) : Call → Option Guarded
  | Call.op a =>
    if g.lockLive = true then
      match step spurious g.sys a with
      | none => none
      | some s => some { sys := s, lockLive := true }
    else none
  | Call.destroy t =>
    if g.lockLive = true then
      match g.sys.pc t with
      | Pc.idle =>
        match destroyQueue g.sys.mem with
        | none => none
        | some m => some { sys := { g.sys with mem := m }, lockLive := false }
      | Pc.waiting _ => none
    else none

/-- Run a list of calls, one after the other. -/
def runCalls (spurious : Bool) : Guarded → List Call → Option Guarded
  | g, [] => some g
  | g, c :: rest =>
    match stepCall spurious g c with
    | none => none
    | some g1 => runCalls spurious g1 rest

/-- The system right after `initQueue`, with its mutex initialised. -/
def startCalls (m : Mem) : Guarded :=
  { sys := start m, lockLive := true }

/-- The state reached from `startCalls Mem.boot` by a list of calls (the start
state itself if the list cannot be run). -/
def afterCalls (calls : List Call) : Guarded :=
  (runCalls false (startCalls Mem.boot) calls).getD (startCalls Mem.boot)

/-- The nodes of those consumers of `B` (pairs of a thread and the node it
waits on) whose node has not been signalled, in the order of `B`. -/
def unsignalled (m : Mem) (B : List (Nat × Nat)) : List Nat :=
  (B.filter (fun b => !signalled m b.2)).map Prod.snd

/-- The memory side of the waiter invariant for the list `B` of blocked
consumers: no thread and no node occurs twice in `B`, the Waiter Registry is
the list of the unsignalled nodes of `B`, and `waitingCount` is the length of
`B` (as a `size_t`). -/
def MemWait (m : Mem) (B : List (Nat × Nat)) : Prop :=
  (B.map Prod.fst).Nodup ∧ (B.map Prod.snd).Nodup ∧ Registry m (unsignalled m B) ∧
  m.queue.waitingCount = B.length % SIZE_MOD

/-- The waiter invariant of the system without spurious wake-ups: `B` lists
exactly the threads blocked in `cnd_wait`, each with the node it waits on, in
the order in which they parked, and the memory agrees with it. -/
def WaitInv (s : Sys) (B : List (Nat × Nat)) : Prop :=
  (∀ t cv, s.pc t = Pc.waiting cv ↔ (t, cv) ∈ B) ∧ MemWait s.mem B

/-- The state reached from `start Mem.boot` by a schedule in the step model
that allows spurious wake-ups (the start state itself if the schedule cannot be
run). -/
def afterSpurious (acts : List Action) : Sys :=
  (run true (start Mem.boot) acts).getD (start Mem.boot)

/-- The state in which threads `1` and `2` have parked, `10` has been enqueued
(which signalled the node of thread `1`), and thread `2` has then left
`cnd_wait` without having been signalled. -/
def Sys.dangling : Sys :=
  afterSpurious [Action.dequeue 1, Action.dequeue 2, Action.enqueue 0 10, Action.resume 2]

/-! ## Heap and arithmetic lemmas -/

theorem SIZE_MOD_pos : 0 < SIZE_MOD := by decide

theorem incr_zero : incr 0 = 1 := by decide

theorem decr_incr (x : Nat) : decr (incr x) = x % SIZE_MOD := by
  unfold decr incr
  have h := SIZE_MOD_pos
  rw [Nat.add_mod, Nat.mod_mod, ← Nat.add_mod]
  have : x + 1 + (SIZE_MOD - 1) = x + SIZE_MOD := by omega
  rw [this, Nat.add_mod_right]

theorem incr_mod (n : Nat) : incr (n % SIZE_MOD) = (n + 1) % SIZE_MOD := by
  unfold incr
  rw [Nat.add_mod, Nat.mod_mod, ← Nat.add_mod]

theorem decr_succ_mod (n : Nat) : decr ((n + 1) % SIZE_MOD) = n % SIZE_MOD := by
  rw [← incr_mod, decr_incr, Nat.mod_mod]

theorem Heap.read_store {α : Type} (h : Heap α) (a b : Nat) (v : α) :
    Heap.read (Heap.store h a v) b = if b = a then some v else Heap.read h b := rfl

theorem Heap.read_free {α : Type} (h : Heap α) (a b : Nat) :
    Heap.read (Heap.free h a) b = if b = a then none else Heap.read h b := by
  induction h with
  | nil => simp [Heap.free, Heap.read]
  | cons e h ih =>
    obtain ⟨k, v⟩ := e
    unfold Heap.free at ih ⊢
    by_cases hk : k = a
    · subst hk
      simp only [List.filter, ne_eq, not_true_eq_false, decide_False]
      rw [ih]
      by_cases hb : b = k
      · simp [hb]
      · simp [hb, Heap.read]
    · simp only [List.filter, ne_eq, hk, not_false_eq_true, decide_True]
      simp only [Heap.read]
      rw [ih]
      by_cases hb : b = a
      · subst hb
        have : ¬ b = k := fun h => hk h.symm
        simp [this]
      · simp [hb]

theorem Heap.read_above_top {α : Type} (h : Heap α) (a : Nat) (ha : Heap.top h < a) :
    Heap.read h a = none := by
  induction h with
  | nil => rfl
  | cons e h ih =>
    obtain ⟨k, v⟩ := e
    simp only [Heap.top] at ha
    have h1 : k < a := lt_of_le_of_lt (le_max_left _ _) ha
    have h2 : Heap.top h < a := lt_of_le_of_lt (le_max_right _ _) ha
    simp only [Heap.read]
    rw [if_neg (by omega), ih h2]

theorem Mem.fresh_ne_null (m : Mem) : m.fresh ≠ NULL := by
  unfold Mem.fresh NULL
  omega

theorem Mem.nodes_fresh (m : Mem) : Heap.read m.nodes m.fresh = none := by
  apply Heap.read_above_top
  unfold Mem.fresh
  have := le_max_left (Heap.top m.nodes) (Heap.top m.cvs)
  omega

theorem Mem.cvs_fresh (m : Mem) : Heap.read m.cvs m.fresh = none := by
  apply Heap.read_above_top
  unfold Mem.fresh
  have := le_max_right (Heap.top m.nodes) (Heap.top m.cvs)
  omega

/-! ## Lemmas on chains -/

theorem Chain.nil_iff (nx : Nat → Option Nat) (p : Nat) : Chain nx p [] ↔ p = NULL := Iff.rfl

theorem Chain.cons_iff (nx : Nat → Option Nat) (p a : Nat) (rest : List Nat) :
    Chain nx p (a :: rest) ↔
      p = a ∧ a ≠ NULL ∧ (nx a).isSome = true ∧ Chain nx ((nx a).getD NULL) rest := Iff.rfl

theorem Chain.agree {nx nx2 : Nat → Option Nat} {as : List Nat} {p : Nat}
    (hnx : ∀ a ∈ as, nx2 a = nx a) (h : Chain nx p as) : Chain nx2 p as := by
  induction as generalizing p with
  | nil => exact h
  | cons a rest ih =>
    rw [Chain.cons_iff] at h ⊢
    obtain ⟨h1, h2, h3, h4⟩ := h
    have ha := hnx a (List.mem_cons_self _ _)
    rw [ha]
    exact ⟨h1, h2, h3, ih (fun b hb => hnx b (List.mem_cons_of_mem _ hb)) h4⟩

theorem Chain.det {nx : Nat → Option Nat} {as bs : List Nat} {p : Nat}
    (ha : Chain nx p as) (hb : Chain nx p bs) : as = bs := by
  induction as generalizing p bs with
  | nil =>
    cases bs with
    | nil => rfl
    | cons b bs =>
      rw [Chain.nil_iff] at ha
      rw [Chain.cons_iff] at hb
      exact absurd (hb.1.symm.trans ha) hb.2.1
  | cons a rest ih =>
    cases bs with
    | nil =>
      rw [Chain.nil_iff] at hb
      rw [Chain.cons_iff] at ha
      exact absurd (ha.1.symm.trans hb) ha.2.1
    | cons b bs =>
      rw [Chain.cons_iff] at ha hb
      have hab : a = b := ha.1.symm.trans hb.1
      subst hab
      rw [ih ha.2.2.2 hb.2.2.2]

theorem Chain.of_mem {nx : Nat → Option Nat} {as : List Nat} {p a : Nat}
    (h : Chain nx p as) (ha : a ∈ as) :
    ∃ pre post, as = pre ++ a :: post ∧ Chain nx a (a :: post) := by
  induction as generalizing p with
  | nil => cases ha
  | cons b rest ih =>
    rcases List.mem_cons.mp ha with hab | hmem
    · subst hab
      refine ⟨[], rest, rfl, ?_⟩
      rw [Chain.cons_iff] at h ⊢
      exact ⟨rfl, h.2⟩
    · rw [Chain.cons_iff] at h
      obtain ⟨pre, post, he, hc⟩ := ih h.2.2.2 hmem
      exact ⟨b :: pre, post, by rw [he]; rfl, hc⟩

theorem Chain.nodup {nx : Nat → Option Nat} {as : List Nat} {p : Nat}
    (h : Chain nx p as) : as.Nodup := by
  induction as generalizing p with
  | nil => exact List.nodup_nil
  | cons a rest ih =>
    have h0 := h
    rw [Chain.cons_iff] at h
    refine List.nodup_cons.mpr ⟨?_, ih h.2.2.2⟩
    intro hmem
    obtain ⟨pre, post, he, hc⟩ := Chain.of_mem h.2.2.2 hmem
    rw [Chain.cons_iff] at hc
    have := Chain.det hc.2.2.2 h.2.2.2
    have hl : rest.length = (pre ++ a :: post).length := by rw [← he]
    rw [this] at hl
    simp at hl
    omega

theorem Chain.ne_null {nx : Nat → Option Nat} {as : List Nat} {p : Nat}
    (h : Chain nx p as) : ∀ a ∈ as, a ≠ NULL := by
  induction as generalizing p with
  | nil => intro a ha; cases ha
  | cons b rest ih =>
    rw [Chain.cons_iff] at h
    intro a ha
    rcases List.mem_cons.mp ha with hab | hmem
    · rw [hab]; exact h.2.1
    · exact ih h.2.2.2 a hmem

theorem Chain.live {nx : Nat → Option Nat} {as : List Nat} {p : Nat}
    (h : Chain nx p as) : ∀ a ∈ as, (nx a).isSome = true := by
  induction as generalizing p with
  | nil => intro a ha; cases ha
  | cons b rest ih =>
    rw [Chain.cons_iff] at h
    intro a ha
    rcases List.mem_cons.mp ha with hab | hmem
    · rw [hab]; exact h.2.2.1
    · exact ih h.2.2.2 a hmem

theorem rearOf_nil : rearOf [] = NULL := rfl

theorem rearOf_cons_cons (a b : Nat) (rest : List Nat) :
    rearOf (a :: b :: rest) = rearOf (b :: rest) := by
  simp [rearOf, List.getLast?_cons_cons]

theorem rearOf_singleton (a : Nat) : rearOf [a] = a := rfl

theorem rearOf_mem : ∀ (as : List Nat), as ≠ [] → rearOf as ∈ as
  | [], h => absurd rfl h
  | [a], _ => by simp [rearOf]
  | a :: b :: rest, _ => by
    rw [rearOf_cons_cons]
    exact List.mem_cons_of_mem _ (rearOf_mem (b :: rest) (by simp))

theorem rearOf_append_singleton (as : List Nat) (b : Nat) : rearOf (as ++ [b]) = b := by
  simp [rearOf]

theorem rearOf_eq_null_iff {nx : Nat → Option Nat} {as : List Nat} {p : Nat}
    (h : Chain nx p as) : rearOf as = NULL ↔ as = [] := by
  constructor
  · intro hr
    by_contra hne
    exact Chain.ne_null h _ (rearOf_mem as hne) hr
  · intro he
    rw [he]
    rfl

/-- Appending a node: if the old rear (when there is one) now points to the
new address `b`, node `b` points to `NULL`, and no other link changed, the
chain grows by `b` at its end. -/
theorem Chain.snoc {nx nx2 : Nat → Option Nat} {as : List Nat} {p b : Nat}
    (h : Chain nx p as) (hb0 : b ≠ NULL) (hb : b ∉ as) (hbn : nx2 b = some NULL)
    (hrear : as ≠ [] → nx2 (rearOf as) = some b)
    (hsame : ∀ a ∈ as, a ≠ rearOf as → nx2 a = nx a) :
    Chain nx2 (if as = [] then b else p) (as ++ [b]) := by
  induction as generalizing p with
  | nil =>
    simp only [if_true, List.nil_append]
    rw [Chain.cons_iff, hbn]
    exact ⟨rfl, hb0, rfl, rfl⟩
  | cons a rest ih =>
    have hnd := Chain.nodup h
    rw [Chain.cons_iff] at h
    obtain ⟨h1, h2, h3, h4⟩ := h
    simp only [reduceCtorEq, if_false, List.cons_append]
    cases rest with
    | nil =>
      have hr := hrear (by simp)
      rw [rearOf_singleton] at hr
      rw [Chain.cons_iff, hr]
      refine ⟨h1, h2, rfl, ?_⟩
      simp only [Option.getD_some, List.nil_append]
      rw [Chain.cons_iff, hbn]
      exact ⟨rfl, hb0, rfl, rfl⟩
    | cons a2 rest2 =>
      have hne : a ≠ rearOf (a :: a2 :: rest2) := by
        rw [rearOf_cons_cons]
        intro he
        have hm := rearOf_mem (a2 :: rest2) (by simp)
        rw [← he] at hm
        exact (List.nodup_cons.mp hnd).1 hm
      have hsa := hsame a (List.mem_cons_self _ _) hne
      rw [Chain.cons_iff, hsa]
      refine ⟨h1, h2, h3, ?_⟩
      have hb2 : b ∉ a2 :: rest2 := fun hm => hb (List.mem_cons_of_mem _ hm)
      have := ih h4 hb2 (fun _ => by
          have := hrear (by simp)
          rwa [rearOf_cons_cons] at this)
        (fun c hc hcr => hsame c (List.mem_cons_of_mem _ hc) (by rwa [rearOf_cons_cons]))
      simpa using this

/-! ## Field access through heap updates -/

theorem itemNext_store (h : Heap QueueNode) (a b : Nat) (v : QueueNode) :
    itemNext (Heap.store h a v) b = if b = a then some v.next else itemNext h b := by
  unfold itemNext
  rw [Heap.read_store]
  split <;> rfl

theorem itemData_store (h : Heap QueueNode) (a b : Nat) (v : QueueNode) :
    itemData (Heap.store h a v) b = if b = a then some v.data else itemData h b := by
  unfold itemData
  rw [Heap.read_store]
  split <;> rfl

theorem itemNext_free (h : Heap QueueNode) (a b : Nat) :
    itemNext (Heap.free h a) b = if b = a then none else itemNext h b := by
  unfold itemNext
  rw [Heap.read_free]
  split <;> rfl

theorem itemData_free (h : Heap QueueNode) (a b : Nat) :
    itemData (Heap.free h a) b = if b = a then none else itemData h b := by
  unfold itemData
  rw [Heap.read_free]
  split <;> rfl

theorem cvNext_store (h : Heap ConditionVariables) (a b : Nat) (v : ConditionVariables) :
    cvNext (Heap.store h a v) b = if b = a then some v.next else cvNext h b := by
  unfold cvNext
  rw [Heap.read_store]
  split <;> rfl

theorem cvNext_free (h : Heap ConditionVariables) (a b : Nat) :
    cvNext (Heap.free h a) b = if b = a then none else cvNext h b := by
  unfold cvNext
  rw [Heap.read_free]
  split <;> rfl

theorem itemNext_isSome (h : Heap QueueNode) (a : Nat) :
    (itemNext h a).isSome = (Heap.read h a).isSome := by
  unfold itemNext
  cases Heap.read h a <;> rfl

theorem cvNext_isSome (h : Heap ConditionVariables) (a : Nat) :
    (cvNext h a).isSome = (Heap.read h a).isSome := by
  unfold cvNext
  cases Heap.read h a <;> rfl

/-! ## What each locked stretch of code does to the two lists -/

/-- Linking a new node (lines 74-88) appends one cell at the rear of the Item
Store and touches nothing but `front`, `rear` and the node heap. -/
theorem enqueue_link_spec (item : Nat) (m : Mem) (cells : List (Nat × Nat))
    (h : ItemStore m cells) :
    ∃ m1, enqueue_link item m = some m1 ∧
      ItemStore m1 (cells ++ [(m.fresh, item)]) ∧
      m1.cvs = m.cvs ∧
      m1.queue = { m.queue with front := m1.queue.front, rear := m1.queue.rear } := by
  obtain ⟨hch, hrear, hdata⟩ := h
  have hlive := Chain.live hch
  have hfresh_notin : m.fresh ∉ cells.map Prod.fst := by
    intro hm
    have := hlive _ hm
    rw [itemNext_isSome, Mem.nodes_fresh] at this
    cases this
  by_cases hc : cells = []
  · subst hc
    have hr0 : m.queue.rear = NULL := hrear
    have hf0 : m.queue.front = NULL := hch
    unfold enqueue_link
    rw [if_pos hr0]
    refine ⟨_, rfl, ?_, rfl, rfl⟩
    refine ⟨?_, rfl, ?_⟩
    · show Chain _ m.fresh [m.fresh]
      rw [Chain.cons_iff, itemNext_store, if_pos rfl]
      exact ⟨rfl, Mem.fresh_ne_null m, rfl, rfl⟩
    · intro c hc
      simp only [List.nil_append, List.mem_singleton] at hc
      subst hc
      show itemData (Heap.store m.nodes m.fresh _) m.fresh = _
      rw [itemData_store, if_pos rfl]
  · have hne : cells.map Prod.fst ≠ [] := by simpa using hc
    have hrmem := rearOf_mem _ hne
    rw [← hrear] at hrmem
    have hr0 : m.queue.rear ≠ NULL := Chain.ne_null hch _ hrmem
    have hrl := hlive _ hrmem
    rw [itemNext_isSome] at hrl
    obtain ⟨r, hr⟩ := Option.isSome_iff_exists.mp hrl
    have hfr : m.fresh ≠ m.queue.rear := fun he => hfresh_notin (he ▸ hrmem)
    unfold enqueue_link
    rw [if_neg hr0, hr]
    refine ⟨_, rfl, ?_, rfl, rfl⟩
    refine ⟨?_, ?_, ?_⟩
    · have := @Chain.snoc _ (itemNext (Heap.store (Heap.store m.nodes m.fresh
          { data := item, next := NULL }) m.queue.rear { r with next := m.fresh })) _ _ _
        hch (Mem.fresh_ne_null m) hfresh_notin
        (by rw [itemNext_store, if_neg hfr, itemNext_store, if_pos rfl])
        (fun _ => by rw [← hrear, itemNext_store, if_pos rfl])
        (fun a ha har => by
          rw [← hrear] at har
          have haf : a ≠ m.fresh := fun he => hfresh_notin (he ▸ ha)
          rw [itemNext_store, if_neg har, itemNext_store, if_neg haf])
      rw [if_neg hne] at this
      simpa using this
    · show m.fresh = rearOf (List.map Prod.fst (cells ++ [(m.fresh, item)]))
      rw [List.map_append]
      exact (rearOf_append_singleton _ _).symm
    · intro c hcm
      show itemData (Heap.store (Heap.store m.nodes m.fresh _) m.queue.rear _) c.1 = _
      rcases List.mem_append.mp hcm with hold | hnew
      · have hcf : c.1 ≠ m.fresh := fun he =>
          hfresh_notin (he ▸ List.mem_map_of_mem Prod.fst hold)
        have hd := hdata c hold
        rw [itemData_store]
        by_cases hcr : c.1 = m.queue.rear
        · rw [if_pos hcr]
          rw [hcr] at hd
          unfold itemData at hd
          rw [hr] at hd
          exact hd
        · rw [if_neg hcr, itemData_store, if_neg hcf]
          exact hd
      · simp only [List.mem_singleton] at hnew
        subst hnew
        rw [itemData_store, if_neg hfr, itemData_store, if_pos rfl]

/-- Removing the front node (lines 129-139 and 155-165) drops the first cell
of a non-empty Item Store and yields its payload. -/
theorem remove_front_spec (m : Mem) (a x : Nat) (cells : List (Nat × Nat))
    (h : ItemStore m ((a, x) :: cells)) :
    ∃ m1, remove_front m = some (m1, x) ∧
      ItemStore m1 cells ∧
      m1.cvs = m.cvs ∧
      m1.queue = { m.queue with front := m1.queue.front, rear := m1.queue.rear,
                                size := decr m.queue.size,
                                visitedCount := incr m.queue.visitedCount } := by
  obtain ⟨hch, hrear, hdata⟩ := h
  have hnd : (a :: cells.map Prod.fst).Nodup := Chain.nodup hch
  have hch0 := hch
  simp only [List.map_cons] at hch
  rw [Chain.cons_iff] at hch
  obtain ⟨hfa, ha0, hal, hrest⟩ := hch
  have hda := hdata (a, x) (List.mem_cons_self _ _)
  simp only at hda
  rw [itemNext_isSome] at hal
  obtain ⟨nd, hnd0⟩ := Option.isSome_iff_exists.mp hal
  have hx : nd.data = x := by
    unfold itemData at hda
    rw [hnd0] at hda
    simpa using hda
  have hnx : (itemNext m.nodes a).getD NULL = nd.next := by
    unfold itemNext
    rw [hnd0]
    rfl
  rw [hnx] at hrest
  have hanot : a ∉ cells.map Prod.fst := (List.nodup_cons.mp hnd).1
  unfold remove_front
  rw [hfa, hnd0]
  subst hx
  refine ⟨_, rfl, ?_, rfl, rfl⟩
  refine ⟨?_, ?_, ?_⟩
  · show Chain (itemNext (Heap.free m.nodes a)) nd.next _
    refine Chain.agree (fun b hb => ?_) hrest
    have hba : b ≠ a := fun he => hanot (he ▸ hb)
    rw [itemNext_free, if_neg hba]
  · show (if nd.next = NULL then NULL else m.queue.rear) = rearOf (cells.map Prod.fst)
    cases hcl : cells.map Prod.fst with
    | nil =>
      rw [hcl] at hrest
      have hn : nd.next = NULL := hrest
      rw [if_pos hn]
      rfl
    | cons b rest =>
      rw [hcl] at hrest
      have hb : nd.next ≠ NULL := by
        rw [Chain.cons_iff] at hrest
        rw [hrest.1]
        exact hrest.2.1
      rw [if_neg hb, hrear]
      simp only [List.map_cons, hcl]
      exact rearOf_cons_cons _ _ _
  · intro c hc
    show itemData (Heap.free m.nodes a) c.1 = _
    have hca : c.1 ≠ a := fun he => hanot (he ▸ List.mem_map_of_mem Prod.fst hc)
    rw [itemData_free, if_neg hca]
    exact hdata c (List.mem_cons_of_mem _ hc)

/-- The Item Store only depends on `front`, `rear` and the node heap. -/
theorem ItemStore.transfer {m m2 : Mem} {cells : List (Nat × Nat)} (h : ItemStore m cells)
    (hn : m2.nodes = m.nodes) (hf : m2.queue.front = m.queue.front)
    (hr : m2.queue.rear = m.queue.rear) : ItemStore m2 cells := by
  unfold ItemStore at h ⊢
  rw [hn, hf, hr]
  exact h

/-- The Waiter Registry only depends on `cv_front`, `cv_rear` and the heap of
waiter nodes. -/
theorem Registry.carry {m m2 : Mem} {ws : List Nat} (h : Registry m ws)
    (hn : m2.cvs = m.cvs) (hf : m2.queue.cv_front = m.queue.cv_front)
    (hr : m2.queue.cv_rear = m.queue.cv_rear) : Registry m2 ws := by
  unfold Registry at h ⊢
  rw [hn, hf, hr]
  exact h

/-- The Item Store of a state is unique. -/
theorem ItemStore.unique {m : Mem} {c1 c2 : List (Nat × Nat)} (h1 : ItemStore m c1)
    (h2 : ItemStore m c2) : c1 = c2 := by
  have hfst : c1.map Prod.fst = c2.map Prod.fst := Chain.det h1.1 h2.1
  have hsnd : c1.map Prod.snd = c2.map Prod.snd := by
    have key : ∀ (l1 l2 : List (Nat × Nat)), l1.map Prod.fst = l2.map Prod.fst →
        (∀ c ∈ l1, itemData m.nodes c.1 = some c.2) →
        (∀ c ∈ l2, itemData m.nodes c.1 = some c.2) → l1.map Prod.snd = l2.map Prod.snd := by
      intro l1
      induction l1 with
      | nil =>
        intro l2 hl _ _
        cases l2 with
        | nil => rfl
        | cons b l2 => simp at hl
      | cons a l1 ih =>
        intro l2 hl hd1 hd2
        cases l2 with
        | nil => simp at hl
        | cons b l2 =>
          simp only [List.map_cons, List.cons.injEq] at hl ⊢
          have e1 := hd1 a (List.mem_cons_self _ _)
          have e2 := hd2 b (List.mem_cons_self _ _)
          rw [← hl.1, e1] at e2
          refine ⟨Option.some.inj e2, ih l2 hl.2 ?_ ?_⟩
          · exact fun c hc => hd1 c (List.mem_cons_of_mem _ hc)
          · exact fun c hc => hd2 c (List.mem_cons_of_mem _ hc)
    exact key c1 c2 hfst h1.2.2 h2.2.2
  have key2 : ∀ (l1 l2 : List (Nat × Nat)), l1.map Prod.fst = l2.map Prod.fst →
      l1.map Prod.snd = l2.map Prod.snd → l1 = l2 := by
    intro l1
    induction l1 with
    | nil =>
      intro l2 hl _
      cases l2 with
      | nil => rfl
      | cons b l2 => simp at hl
    | cons a l1 ih =>
      intro l2 hl hr
      cases l2 with
      | nil => simp at hl
      | cons b l2 =>
        simp only [List.map_cons, List.cons.injEq] at hl hr ⊢
        exact ⟨Prod.ext hl.1 hr.1, ih l2 hl.2 hr.2⟩
  exact key2 c1 c2 hfst hsnd

/-- The wake-up part of `enqueue` (lines 92-100) leaves everything but the
waiter list alone. -/
theorem enqueue_wake_frame {m m2 : Mem} {w : Nat} (h : enqueue_wake m = some (m2, w)) :
    m2.nodes = m.nodes ∧
    m2.queue = { m.queue with cv_front := m2.queue.cv_front, cv_rear := m2.queue.cv_rear } := by
  unfold enqueue_wake at h
  dsimp only at h
  split at h
  · split at h
    · cases h
    · simp only [Option.some.injEq, Prod.mk.injEq] at h
      obtain ⟨h1, _⟩ := h
      subst h1
      exact ⟨rfl, rfl⟩
  · simp only [Option.some.injEq, Prod.mk.injEq] at h
    obtain ⟨h1, _⟩ := h
    subst h1
    exact ⟨rfl, rfl⟩

/-- Registering a waiter (lines 111-121) leaves the Item Store alone and
counts the waiter. -/
theorem dequeue_register_frame {m m2 : Mem} {cv : Nat}
    (h : dequeue_register m = some (m2, cv)) :
    cv = m.fresh ∧ m2.nodes = m.nodes ∧
    m2.queue = { m.queue with cv_front := m2.queue.cv_front, cv_rear := m2.queue.cv_rear,
                              waitingCount := incr m.queue.waitingCount } := by
  unfold dequeue_register at h
  dsimp only at h
  split at h
  · simp only [Option.some.injEq, Prod.mk.injEq] at h
    obtain ⟨h1, h2⟩ := h
    subst h1
    exact ⟨h2.symm, rfl, rfl⟩
  · split at h
    · cases h
    · simp only [Option.some.injEq, Prod.mk.injEq] at h
      obtain ⟨h1, h2⟩ := h
      subst h1
      exact ⟨h2.symm, rfl, rfl⟩

/-- The code after `cnd_wait` (lines 123-125) frees the caller's node and
decrements `waitingCount`, nothing else. -/
theorem dequeue_wakeup_frame {m m2 : Mem} {cv : Nat} (h : dequeue_wakeup cv m = some m2) :
    m2.nodes = m.nodes ∧ m2.cvs = Heap.free m.cvs cv ∧
    (Heap.read m.cvs cv).isSome = true ∧
    m2.queue = { m.queue with waitingCount := decr m.queue.waitingCount } := by
  unfold dequeue_wakeup at h
  split at h
  · cases h
  · rename_i c hc
    simp only [Option.some.injEq] at h
    subst h
    exact ⟨rfl, rfl, by rw [hc]; rfl, rfl⟩

/-- Waking the front waiter (lines 92-100): with registry `ws`, the node
signalled is the head of `ws` (nobody for the empty registry), the registry
becomes the tail of `ws`, and only the signalled node is written. -/
theorem enqueue_wake_spec (m : Mem) (ws : List Nat) (h : Registry m ws) :
    ∃ m2, enqueue_wake m = some (m2, ws.headD NULL) ∧ Registry m2 ws.tail ∧
      (∀ a, signalled m2 a = (signalled m a || (decide (a ∈ ws.head?)))) ∧
      (∀ a, (Heap.read m2.cvs a).isSome = (Heap.read m.cvs a).isSome) := by
  obtain ⟨hch, hrear⟩ := h
  cases ws with
  | nil =>
    have hf : m.queue.cv_front = NULL := hch
    unfold enqueue_wake
    simp only [hf, ne_eq, not_true_eq_false, if_false]
    refine ⟨_, rfl, ⟨hch, hrear⟩, ?_, fun _ => rfl⟩
    intro a
    simp
  | cons w rest =>
    have hnd := Chain.nodup hch
    rw [Chain.cons_iff] at hch
    obtain ⟨hf, hw0, hlive, hrest⟩ := hch
    rw [cvNext_isSome] at hlive
    obtain ⟨c, hc⟩ := Option.isSome_iff_exists.mp hlive
    have hnx : (cvNext m.cvs w).getD NULL = c.next := by
      unfold cvNext
      rw [hc]
      rfl
    rw [hnx] at hrest
    have hwn : w ∉ rest := (List.nodup_cons.mp hnd).1
    unfold enqueue_wake
    simp only [hf, ne_eq, hw0, not_false_eq_true, if_true, hc]
    refine ⟨_, rfl, ⟨?_, ?_⟩, ?_, ?_⟩
    · show Chain (cvNext (Heap.store m.cvs w _)) c.next rest
      refine Chain.agree (fun b hb => ?_) hrest
      have hbw : b ≠ w := fun he => hwn (he ▸ hb)
      rw [cvNext_store, if_neg hbw]
    · show (if c.next = NULL then NULL else m.queue.cv_rear) = rearOf rest
      cases rest with
      | nil =>
        have hn : c.next = NULL := hrest
        rw [if_pos hn]
        rfl
      | cons b rest2 =>
        have hb : c.next ≠ NULL := by
          rw [Chain.cons_iff] at hrest
          rw [hrest.1]
          exact hrest.2.1
        rw [if_neg hb, hrear]
        exact rearOf_cons_cons _ _ _
    · intro a
      show signalled { m with queue := _, cvs := Heap.store m.cvs w _ } a = _
      unfold signalled
      simp only [Heap.read_store]
      by_cases haw : a = w
      · simp [haw]
      · have : w ≠ a := fun he => haw he.symm
        simp [haw, this]
    · intro a
      show (Heap.read (Heap.store m.cvs w _) a).isSome = _
      rw [Heap.read_store]
      by_cases haw : a = w
      · rw [if_pos haw, haw, hc]
        rfl
      · rw [if_neg haw]

/-- Registering a waiter (lines 111-121): with registry `ws`, the new node is
appended at the rear, it is not signalled, and no other node changes its
signalled bit. -/
theorem dequeue_register_spec (m : Mem) (ws : List Nat) (h : Registry m ws) :
    ∃ m2, dequeue_register m = some (m2, m.fresh) ∧ Registry m2 (ws ++ [m.fresh]) ∧
      m.fresh ∉ ws ∧
      signalled m2 m.fresh = false ∧ (Heap.read m2.cvs m.fresh).isSome = true ∧
      (∀ a, a ≠ m.fresh → signalled m2 a = signalled m a ∧
        (Heap.read m2.cvs a).isSome = (Heap.read m.cvs a).isSome) := by
  obtain ⟨hch, hrear⟩ := h
  have hlive := Chain.live hch
  have hfresh_notin : m.fresh ∉ ws := by
    intro hm
    have := hlive _ hm
    rw [cvNext_isSome, Mem.cvs_fresh] at this
    cases this
  by_cases hc : ws = []
  · subst hc
    have hf0 : m.queue.cv_front = NULL := hch
    unfold dequeue_register
    rw [if_pos hf0]
    refine ⟨_, rfl, ⟨?_, rfl⟩, hfresh_notin, ?_, ?_, ?_⟩
    · show Chain (cvNext (Heap.store m.cvs m.fresh _)) m.fresh [m.fresh]
      rw [Chain.cons_iff, cvNext_store, if_pos rfl]
      exact ⟨rfl, Mem.fresh_ne_null m, rfl, rfl⟩
    · show signalled { m with cvs := Heap.store m.cvs m.fresh _, queue := _ } m.fresh = false
      unfold signalled
      simp [Heap.read_store]
    · show (Heap.read (Heap.store m.cvs m.fresh _) m.fresh).isSome = true
      simp [Heap.read_store]
    · intro a ha
      constructor
      · show signalled { m with cvs := Heap.store m.cvs m.fresh _, queue := _ } a = _
        unfold signalled
        simp [Heap.read_store, ha]
      · show (Heap.read (Heap.store m.cvs m.fresh _) a).isSome = _
        simp [Heap.read_store, ha]
  · have hrmem := rearOf_mem _ hc
    rw [← hrear] at hrmem
    have hf0 : m.queue.cv_front ≠ NULL := by
      cases ws with
      | nil => exact absurd rfl hc
      | cons w rest =>
        rw [Chain.cons_iff] at hch
        rw [hch.1]
        exact hch.2.1
    have hrl := hlive _ hrmem
    rw [cvNext_isSome] at hrl
    obtain ⟨r, hr⟩ := Option.isSome_iff_exists.mp hrl
    have hfr : m.fresh ≠ m.queue.cv_rear := fun he => hfresh_notin (he ▸ hrmem)
    unfold dequeue_register
    rw [if_neg hf0, hr]
    refine ⟨_, rfl, ⟨?_, ?_⟩, hfresh_notin, ?_, ?_, ?_⟩
    · have := @Chain.snoc _ (cvNext (Heap.store (Heap.store m.cvs m.fresh
          { cv := false, next := NULL }) m.queue.cv_rear { r with next := m.fresh })) _ _ _
        hch (Mem.fresh_ne_null m) hfresh_notin
        (by rw [cvNext_store, if_neg hfr, cvNext_store, if_pos rfl])
        (fun _ => by rw [← hrear, cvNext_store, if_pos rfl])
        (fun a ha har => by
          rw [← hrear] at har
          have haf : a ≠ m.fresh := fun he => hfresh_notin (he ▸ ha)
          rw [cvNext_store, if_neg har, cvNext_store, if_neg haf])
      rw [if_neg hc] at this
      exact this
    · exact (rearOf_append_singleton _ _).symm
    · show signalled { m with cvs := Heap.store (Heap.store m.cvs m.fresh _) _ _, queue := _ }
        m.fresh = false
      unfold signalled
      simp [Heap.read_store, hfr]
    · show (Heap.read (Heap.store (Heap.store m.cvs m.fresh _) _ _) m.fresh).isSome = true
      simp [Heap.read_store, hfr]
    · intro a ha
      constructor
      · show signalled { m with cvs := Heap.store (Heap.store m.cvs m.fresh _) _ _, queue := _ }
          a = _
        unfold signalled
        simp only [Heap.read_store, ha, if_false]
        by_cases har : a = m.queue.cv_rear
        · simp [har, hr]
        · simp [har]
      · show (Heap.read (Heap.store (Heap.store m.cvs m.fresh _) _ _) a).isSome = _
        simp only [Heap.read_store, ha, if_false]
        by_cases har : a = m.queue.cv_rear
        · simp [har, hr]
        · simp [har]

/-- Freeing a node that is not linked keeps the registry. -/
theorem dequeue_wakeup_spec {m m2 : Mem} {cv : Nat} {ws : List Nat}
    (h : dequeue_wakeup cv m = some m2) (hr : Registry m ws) (hcv : cv ∉ ws) :
    Registry m2 ws := by
  obtain ⟨_, hcvs, _, hq⟩ := dequeue_wakeup_frame h
  obtain ⟨hch, hrear⟩ := hr
  refine ⟨?_, ?_⟩
  · rw [hcvs, hq]
    refine Chain.agree (fun b hb => ?_) hch
    have hbc : b ≠ cv := fun he => hcv (he ▸ hb)
    rw [cvNext_free, if_neg hbc]
  · rw [hq]
    exact hrear

/-! ## The operations on well-formed memories -/

theorem signalled_fresh (m : Mem) : signalled m m.fresh = false := by
  unfold signalled
  rw [Mem.cvs_fresh]

theorem signalled_live {m : Mem} {a : Nat} (h : signalled m a = true) :
    (Heap.read m.cvs a).isSome = true := by
  unfold signalled at h
  cases hr : Heap.read m.cvs a with
  | none => rw [hr] at h; cases h
  | some c => rfl

/-- Whatever the state of the waiter list, an `enqueue` that does not run into
undefined behaviour appends one cell to the Item Store, increments `size` and
keeps the other two counters. -/
theorem enqueue_items {m m2 : Mem} {item w : Nat} {cells : List (Nat × Nat)}
    (hs : ItemStore m cells) (h : enqueue item m = some (m2, w)) :
    ItemStore m2 (cells ++ [(m.fresh, item)]) ∧
    m2.queue.size = incr m.queue.size ∧
    m2.queue.visitedCount = m.queue.visitedCount ∧
    m2.queue.waitingCount = m.queue.waitingCount := by
  obtain ⟨m1, h1, hs1, _, hq1⟩ := enqueue_link_spec item m cells hs
  unfold enqueue at h
  rw [h1] at h
  obtain ⟨hn, hq⟩ := enqueue_wake_frame h
  refine ⟨ItemStore.transfer hs1 hn ?_ ?_, ?_, ?_, ?_⟩
  · rw [hq]
  · rw [hq]
  · rw [hq]
    show incr m1.queue.size = _
    rw [hq1]
  · rw [hq]
    show m1.queue.visitedCount = _
    rw [hq1]
  · rw [hq]
    show m1.queue.waitingCount = _
    rw [hq1]

/-- The function `enqueue` on a memory whose two lists are well formed: it is
defined, appends the payload, takes the head off the registry and signals
exactly that node. -/
theorem enqueue_spec (item : Nat) (m : Mem) (cells : List (Nat × Nat)) (ws : List Nat)
    (hs : ItemStore m cells) (hr : Registry m ws) :
    ∃ m2, enqueue item m = some (m2, ws.headD NULL) ∧
      ItemStore m2 (cells ++ [(m.fresh, item)]) ∧
      Registry m2 ws.tail ∧
      m2.queue.size = incr m.queue.size ∧
      m2.queue.visitedCount = m.queue.visitedCount ∧
      m2.queue.waitingCount = m.queue.waitingCount ∧
      (∀ a, signalled m2 a = (signalled m a || decide (a ∈ ws.head?))) ∧
      (∀ a, (Heap.read m2.cvs a).isSome = (Heap.read m.cvs a).isSome) := by
  obtain ⟨m1, h1, _, hc1, hq1⟩ := enqueue_link_spec item m cells hs
  have hr1 : Registry { m1 with queue := { m1.queue with size := incr m1.queue.size } } ws := by
    refine Registry.carry hr hc1 ?_ ?_
    · show m1.queue.cv_front = _
      rw [hq1]
    · show m1.queue.cv_rear = _
      rw [hq1]
  obtain ⟨m2, h2, hr2, hsig, hlive⟩ := enqueue_wake_spec _ ws hr1
  have he : enqueue item m = some (m2, ws.headD NULL) := by
    unfold enqueue
    rw [h1]
    exact h2
  obtain ⟨hi, hsz, hv, hw⟩ := enqueue_items hs he
  refine ⟨m2, he, hi, hr2, hsz, hv, hw, ?_, ?_⟩
  · intro a
    rw [hsig a]
    unfold signalled
    dsimp only
    rw [hc1]
  · intro a
    rw [hlive a]
    show (Heap.read m1.cvs a).isSome = _
    rw [hc1]

/-- A non-empty Item Store has a non-null `front`; an empty one has
`front == NULL`. -/
theorem ItemStore.front_null_iff {m : Mem} {cells : List (Nat × Nat)} (h : ItemStore m cells) :
    m.queue.front = NULL ↔ cells = [] := by
  obtain ⟨hch, _, _⟩ := h
  cases cells with
  | nil => exact ⟨fun _ => rfl, fun _ => hch⟩
  | cons c rest =>
    simp only [List.map_cons] at hch
    rw [Chain.cons_iff] at hch
    constructor
    · intro h0
      exact absurd (hch.1.symm.trans h0) hch.2.1
    · intro hc
      cases hc

/-- The locked stretch of `dequeue` on an empty Item Store: the caller
registers and parks, whatever the state of the waiter list (as long as the
code is defined). -/
theorem dequeue_loop_empty {m m2 : Mem} {r : DequeueStep} (hs : ItemStore m [])
    (h : dequeue_loop m = some (m2, r)) :
    r = DequeueStep.parked m.fresh ∧ ItemStore m2 [] ∧
    m2.queue.size = m.queue.size ∧ m2.queue.visitedCount = m.queue.visitedCount ∧
    m2.queue.waitingCount = incr m.queue.waitingCount := by
  have hf : m.queue.front = NULL := (ItemStore.front_null_iff hs).mpr rfl
  unfold dequeue_loop at h
  rw [if_pos hf] at h
  cases hreg : dequeue_register m with
  | none => rw [hreg] at h; cases h
  | some res =>
    obtain ⟨m1, cv⟩ := res
    rw [hreg] at h
    simp only [Option.some.injEq, Prod.mk.injEq] at h
    obtain ⟨hm, hres⟩ := h
    subst hm
    obtain ⟨hcv, hn, hq⟩ := dequeue_register_frame hreg
    refine ⟨by rw [← hres, hcv], ItemStore.transfer hs hn ?_ ?_, ?_, ?_, ?_⟩ <;> rw [hq]

/-- The locked stretch of `dequeue` on a non-empty Item Store: the front cell
is removed and its payload returned. -/
theorem dequeue_loop_take (m : Mem) (a x : Nat) (cells : List (Nat × Nat))
    (hs : ItemStore m ((a, x) :: cells)) :
    ∃ m2, dequeue_loop m = some (m2, DequeueStep.returned x) ∧ ItemStore m2 cells ∧
      m2.cvs = m.cvs ∧
      m2.queue = { m.queue with front := m2.queue.front, rear := m2.queue.rear,
                                size := decr m.queue.size,
                                visitedCount := incr m.queue.visitedCount } := by
  have hf : m.queue.front ≠ NULL := fun h0 => by
    have := (ItemStore.front_null_iff hs).mp h0
    cases this
  obtain ⟨m2, h2, hs2, hc2, hq2⟩ := remove_front_spec m a x cells hs
  refine ⟨m2, ?_, hs2, hc2, hq2⟩
  unfold dequeue_loop
  rw [if_neg hf, h2]

/-- The function `tryDequeue` on a non-empty Item Store. -/
theorem tryDequeue_take (out : Nat) (m : Mem) (a x : Nat) (cells : List (Nat × Nat))
    (hs : ItemStore m ((a, x) :: cells)) :
    ∃ m2, tryDequeue out m = some (true, x, m2) ∧ ItemStore m2 cells ∧
      m2.cvs = m.cvs ∧
      m2.queue = { m.queue with front := m2.queue.front, rear := m2.queue.rear,
                                size := decr m.queue.size,
                                visitedCount := incr m.queue.visitedCount } := by
  have hf : m.queue.front ≠ NULL := fun h0 => by
    have := (ItemStore.front_null_iff hs).mp h0
    cases this
  obtain ⟨m2, h2, hs2, hc2, hq2⟩ := remove_front_spec m a x cells hs
  refine ⟨m2, ?_, hs2, hc2, hq2⟩
  unfold tryDequeue
  rw [if_neg hf, h2]

/-- The function `tryDequeue` when `front == NULL`. -/
theorem tryDequeue_null (out : Nat) (m : Mem) (h : m.queue.front = NULL) :
    tryDequeue out m = some (false, out, m) := by
  unfold tryDequeue
  rw [if_pos h]

/-- The locked stretch of `dequeue` with both lists well formed and no item:
the caller's fresh node goes to the rear of the registry. -/
theorem dequeue_loop_park (m : Mem) (ws : List Nat) (hs : ItemStore m [])
    (hr : Registry m ws) :
    ∃ m2, dequeue_loop m = some (m2, DequeueStep.parked m.fresh) ∧ ItemStore m2 [] ∧
      Registry m2 (ws ++ [m.fresh]) ∧ m.fresh ∉ ws ∧
      m2.queue.size = m.queue.size ∧ m2.queue.visitedCount = m.queue.visitedCount ∧
      m2.queue.waitingCount = incr m.queue.waitingCount ∧
      (∀ a, signalled m2 a = signalled m a) ∧
      (∀ a, (Heap.read m2.cvs a).isSome = (decide (a = m.fresh) || (Heap.read m.cvs a).isSome)) := by
  obtain ⟨m2, h2, hr2, hnot, hsf, hlf, hrest⟩ := dequeue_register_spec m ws hr
  have hf : m.queue.front = NULL := (ItemStore.front_null_iff hs).mpr rfl
  have hl : dequeue_loop m = some (m2, DequeueStep.parked m.fresh) := by
    unfold dequeue_loop
    rw [if_pos hf, h2]
  obtain ⟨_, hs2, hsz, hv, hw⟩ := dequeue_loop_empty hs hl
  refine ⟨m2, hl, hs2, hr2, hnot, hsz, hv, hw, ?_, ?_⟩
  · intro a
    by_cases ha : a = m.fresh
    · rw [ha, hsf, signalled_fresh]
    · exact (hrest a ha).1
  · intro a
    by_cases ha : a = m.fresh
    · rw [ha, hlf]
      simp
    · rw [(hrest a ha).2]
      simp [ha]

/-! ## Single operations -/

theorem incr_exact {x : Nat} (h : x + 1 < SIZE_MOD) : incr x = x + 1 :=
  Nat.mod_eq_of_lt h

theorem decr_exact {x : Nat} (h0 : 0 < x) (h : x < SIZE_MOD) : decr x + 1 = x := by
  unfold decr
  have : x + (SIZE_MOD - 1) = (x - 1) + SIZE_MOD := by omega
  rw [this, Nat.add_mod_right, Nat.mod_eq_of_lt (by omega)]
  omega

/-- C3 (non-blocking emptiness). When `front == NULL`, `tryDequeue` returns
`false`, does not write `*item`, and hands back the very same memory, so the
Item Store, the Waiter Registry and the values of `size()`, `waiting()` and
`visited()` are what they were; as an atomic step of thread `t` it leaves every
program counter as it was (nobody parks) and only records the failed attempt in
the history. -/
theorem tryDequeue_empty_unchanged (spurious : Bool) (s : Sys) (t out : Nat)
    (hpc : s.pc t = Pc.idle) (hf : s.mem.queue.front = NULL) :
    tryDequeue out s.mem = some (false, out, s.mem) ∧
    step spurious s (Action.tryDequeue t out) =
      some { mem := s.mem, pc := s.pc, log := s.log ++ [Event.tryEmpty t] } := by
  have h := tryDequeue_null out s.mem hf
  refine ⟨h, ?_⟩
  simp only [step, hpc, h]

/-- Scenario 3 as an instance of C3: right after `initQueue`, `tryDequeue`
returns `false` and `size()` is still `0`. -/
theorem tryDequeue_empty_unchanged_witness :
    (start Mem.boot).pc 0 = Pc.idle ∧ (start Mem.boot).mem.queue.front = NULL ∧
    size (start Mem.boot).mem = 0 ∧
    (tryDequeue 5 (start Mem.boot).mem = some (false, 5, (start Mem.boot).mem) ∧
     step false (start Mem.boot) (Action.tryDequeue 0 5) =
      some { mem := (start Mem.boot).mem, pc := (start Mem.boot).pc,
             log := (start Mem.boot).log ++ [Event.tryEmpty 0] }) :=
  ⟨rfl, rfl, rfl, tryDequeue_empty_unchanged false (start Mem.boot) 0 5 rfl rfl⟩

/-- C7 (tryDequeue on a non-empty queue). If the Item Store is the non-empty
list `(a, x) :: cells`, `tryDequeue` returns `true`, writes the front payload
`x` to `*item`, leaves the Item Store equal to `cells`, applies `--` to `size`
and `++` to `visitedCount` (a decrease and an increase by exactly one unless
the `size_t` wraps), and leaves the waiter heap, `cv_front`, `cv_rear` and
`waitingCount` untouched, so the Waiter Registry is the same list as before. -/
theorem tryDequeue_nonempty (out : Nat) (m : Mem) (a x : Nat) (cells : List (Nat × Nat))
    (hs : ItemStore m ((a, x) :: cells)) :
    ∃ m2, tryDequeue out m = some (true, x, m2) ∧ ItemStore m2 cells ∧
      size m2 = decr (size m) ∧ visited m2 = incr (visited m) ∧
      (0 < size m → size m < SIZE_MOD → size m2 + 1 = size m) ∧
      (visited m + 1 < SIZE_MOD → visited m2 = visited m + 1) ∧
      m2.cvs = m.cvs ∧ m2.queue.cv_front = m.queue.cv_front ∧
      m2.queue.cv_rear = m.queue.cv_rear ∧ waiting m2 = waiting m ∧
      (∀ ws, Registry m2 ws ↔ Registry m ws) := by
  obtain ⟨m2, h2, hs2, hc2, hq2⟩ := tryDequeue_take out m a x cells hs
  have hsz : size m2 = decr (size m) := by unfold size; rw [hq2]
  have hv : visited m2 = incr (visited m) := by unfold visited; rw [hq2]
  have hcf : m2.queue.cv_front = m.queue.cv_front := by rw [hq2]
  have hcr : m2.queue.cv_rear = m.queue.cv_rear := by rw [hq2]
  refine ⟨m2, h2, hs2, hsz, hv, ?_, ?_, hc2, hcf, hcr, ?_, ?_⟩
  · intro h0 h1
    rw [hsz]
    exact decr_exact h0 h1
  · intro h1
    rw [hv]
    exact incr_exact h1
  · unfold waiting
    rw [hq2]
  · intro ws
    unfold Registry
    rw [hc2, hcf, hcr]

/-- An instance of C7 on `Mem.sample` (items `7`, `8`). -/
theorem tryDequeue_nonempty_witness :
    ItemStore Mem.sample [(1, 7), (2, 8)] ∧
    ∃ m2, tryDequeue 0 Mem.sample = some (true, 7, m2) ∧ ItemStore m2 [(2, 8)] ∧
      size m2 = decr (size Mem.sample) ∧ visited m2 = incr (visited Mem.sample) ∧
      (0 < size Mem.sample → size Mem.sample < SIZE_MOD → size m2 + 1 = size Mem.sample) ∧
      (visited Mem.sample + 1 < SIZE_MOD → visited m2 = visited Mem.sample + 1) ∧
      m2.cvs = Mem.sample.cvs ∧ m2.queue.cv_front = Mem.sample.queue.cv_front ∧
      m2.queue.cv_rear = Mem.sample.queue.cv_rear ∧ waiting m2 = waiting Mem.sample ∧
      (∀ ws, Registry m2 ws ↔ Registry Mem.sample ws) :=
  ⟨by decide, tryDequeue_nonempty 0 Mem.sample 1 7 [(2, 8)] (by decide)⟩

/-- C9 (effect of enqueue on the Item Store). In a state whose Item Store is
`cells` and whose Waiter Registry is well formed, `enqueue(item)` run by an
idle thread `t` is defined (it does not fail), leaves every program counter as
it was (the caller is not parked), yields the Item Store `cells` followed by
one new cell holding `item`, applies `++` to `size` (an increase by exactly
one unless the `size_t` wraps) and leaves `visitedCount` unchanged. -/
theorem enqueue_appends (spurious : Bool) (s : Sys) (t item : Nat)
    (cells : List (Nat × Nat)) (ws : List Nat)
    (hpc : s.pc t = Pc.idle) (hs : ItemStore s.mem cells) (hr : Registry s.mem ws) :
    ∃ m2 w, enqueue item s.mem = some (m2, w) ∧
      step spurious s (Action.enqueue t item) =
        some { mem := m2, pc := s.pc, log := s.log ++ [Event.enqueued t item w] } ∧
      ItemStore m2 (cells ++ [(s.mem.fresh, item)]) ∧
      (cells ++ [(s.mem.fresh, item)]).map Prod.snd = cells.map Prod.snd ++ [item] ∧
      size m2 = incr (size s.mem) ∧
      (size s.mem + 1 < SIZE_MOD → size m2 = size s.mem + 1) ∧
      visited m2 = visited s.mem := by
  obtain ⟨m2, h2, hs2, _, hsz, hv, _, _, _⟩ := enqueue_spec item s.mem cells ws hs hr
  refine ⟨m2, _, h2, ?_, hs2, by simp, hsz, ?_, hv⟩
  · simp only [step, hpc, h2]
  · intro h1
    show m2.queue.size = _
    rw [hsz]
    exact incr_exact h1

/-- An instance of C9 on `Sys.sample` (items `7`, `8`, then `9` appended). -/
theorem enqueue_appends_witness :
    Sys.sample.pc 0 = Pc.idle ∧ ItemStore Sys.sample.mem [(1, 7), (2, 8)] ∧
    Registry Sys.sample.mem [3] ∧
    ∃ m2 w, enqueue 9 Sys.sample.mem = some (m2, w) ∧
      step false Sys.sample (Action.enqueue 0 9) =
        some { mem := m2, pc := Sys.sample.pc,
               log := Sys.sample.log ++ [Event.enqueued 0 9 w] } ∧
      ItemStore m2 ([(1, 7), (2, 8)] ++ [(Sys.sample.mem.fresh, 9)]) ∧
      ([(1, 7), (2, 8)] ++ [(Sys.sample.mem.fresh, 9)]).map Prod.snd =
        [(1, 7), (2, 8)].map Prod.snd ++ [9] ∧
      size m2 = incr (size Sys.sample.mem) ∧
      (size Sys.sample.mem + 1 < SIZE_MOD → size m2 = size Sys.sample.mem + 1) ∧
      visited m2 = visited Sys.sample.mem :=
  ⟨by decide, by decide, by decide,
   enqueue_appends false Sys.sample 0 9 [(1, 7), (2, 8)] [3] (by decide) (by decide) (by decide)⟩

/-- C5 (targeted single wake-up). In a state with well-formed lists, one
`enqueue` run by an idle thread reports the node it signalled: for the registry
`w :: rest` that node is `w`, the registry becomes `rest` in the same order, `w`
is signalled and no other node changes its signalled bit; for the empty registry
the reported node is `NULL`, the registry stays empty and no signalled bit
changes. Every thread that was parked on an unsignalled node other than the
head is still unable to leave `cnd_wait` after the call. -/
theorem enqueue_wakes_front (s : Sys) (t item : Nat) (cells : List (Nat × Nat))
    (ws : List Nat)
    (hpc : s.pc t = Pc.idle) (hs : ItemStore s.mem cells) (hr : Registry s.mem ws) :
    ∃ m2 woke s2, enqueue item s.mem = some (m2, woke) ∧
      step false s (Action.enqueue t item) = some s2 ∧
      s2 = { mem := m2, pc := s.pc, log := s.log ++ [Event.enqueued t item woke] } ∧
      (ws = [] → woke = NULL ∧ Registry m2 [] ∧ ∀ a, signalled m2 a = signalled s.mem a) ∧
      (∀ w rest, ws = w :: rest →
        woke = w ∧ Registry m2 rest ∧ signalled m2 w = true ∧
        ∀ a, a ≠ w → signalled m2 a = signalled s.mem a) ∧
      (∀ u cv, s.pc u = Pc.waiting cv → signalled s.mem cv = false → cv ≠ woke →
        step false s2 (Action.resume u) = none) := by
  obtain ⟨m2, h2, _, hr2, _, _, _, hsig, _⟩ := enqueue_spec item s.mem cells ws hs hr
  refine ⟨m2, ws.headD NULL, _, h2, ?_, rfl, ?_, ?_, ?_⟩
  · simp only [step, hpc, h2]
  · intro hw
    subst hw
    refine ⟨rfl, hr2, fun a => ?_⟩
    rw [hsig a]
    simp
  · intro w rest hw
    subst hw
    refine ⟨rfl, hr2, ?_, fun a ha => ?_⟩
    · rw [hsig w]
      simp
    · rw [hsig a]
      have : w ≠ a := fun he => ha he.symm
      simp [this]
  · intro u cv hu hcv hne
    have hsig2 : signalled m2 cv = false := by
      rw [hsig cv, hcv]
      cases ws with
      | nil => simp
      | cons w rest =>
        have : w ≠ cv := fun he => hne he.symm
        simp [this]
    simp only [step, hu, hsig2, Bool.or_self, Bool.false_eq_true, if_false]

/-- Scenario 4 as an instance of C5: threads `1` and `2` park in this order;
one `enqueue` then signals the node of thread `1` only and the node of thread
`2` stays in the registry. -/
theorem enqueue_wakes_front_witness :
    (after [Action.dequeue 1, Action.dequeue 2]).pc 0 = Pc.idle ∧
    ItemStore (after [Action.dequeue 1, Action.dequeue 2]).mem [] ∧
    Registry (after [Action.dequeue 1, Action.dequeue 2]).mem [1, 2] ∧
    (after [Action.dequeue 1, Action.dequeue 2]).pc 1 = Pc.waiting 1 ∧
    (after [Action.dequeue 1, Action.dequeue 2]).pc 2 = Pc.waiting 2 ∧
    ∃ m2 woke s2, enqueue 9 (after [Action.dequeue 1, Action.dequeue 2]).mem = some (m2, woke) ∧
      step false (after [Action.dequeue 1, Action.dequeue 2]) (Action.enqueue 0 9) = some s2 ∧
      woke = 1 ∧ Registry m2 [2] ∧ signalled m2 1 = true ∧ signalled m2 2 = false ∧
      step false s2 (Action.resume 2) = none := by
  obtain ⟨m2, woke, s2, h1, h2, _, _, h4, h5⟩ :=
    enqueue_wakes_front (after [Action.dequeue 1, Action.dequeue 2]) 0 9 [] [1, 2]
      (by decide) (by decide) (by decide)
  obtain ⟨hw, hr, hs1, hrest⟩ := h4 1 [2] rfl
  refine ⟨by decide, by decide, by decide, by decide, by decide, m2, woke, s2, h1, h2, hw, hr,
    hs1, ?_, ?_⟩
  · rw [hrest 2 (by decide)]
    decide
  · exact h5 2 2 (by decide) (by decide) (by rw [hw]; decide)

/-- C10 (payloads are transported verbatim). On a memory with an empty Item
Store and a well-formed registry, `enqueue(p)` is defined for every payload `p`,
the null reference included, and on the memory it produces `tryDequeue`
returns `true` with `*item == p` and `dequeue` returns `p` without parking. -/
theorem payload_verbatim (p out : Nat) (m : Mem) (ws : List Nat)
    (hs : ItemStore m []) (hr : Registry m ws) :
    ∃ m1 w, enqueue p m = some (m1, w) ∧
      (∃ m2, tryDequeue out m1 = some (true, p, m2)) ∧
      (∃ m2, dequeue m1 = some (m2, DequeueStep.returned p)) := by
  obtain ⟨m1, h1, hs1, _⟩ := enqueue_spec p m [] ws hs hr
  simp only [List.nil_append] at hs1
  obtain ⟨m2, h2, _⟩ := tryDequeue_take out m1 _ _ _ hs1
  obtain ⟨m3, h3, _⟩ := dequeue_loop_take m1 _ _ _ hs1
  exact ⟨m1, _, h1, ⟨m2, h2⟩, ⟨m3, h3⟩⟩

/-- An instance of C10 with the payload `NULL`: the removal succeeds and
yields `NULL`, where the previous value of `*item` was `5`. -/
theorem payload_verbatim_witness :
    ItemStore (initQueue Mem.boot) [] ∧ Registry (initQueue Mem.boot) [] ∧
    ∃ m1 w, enqueue NULL (initQueue Mem.boot) = some (m1, w) ∧
      (∃ m2, tryDequeue 5 m1 = some (true, NULL, m2)) ∧
      (∃ m2, dequeue m1 = some (m2, DequeueStep.returned NULL)) :=
  ⟨by decide, by decide, payload_verbatim NULL 5 (initQueue Mem.boot) [] (by decide) (by decide)⟩

/-! ## The item-side invariant -/

theorem enqueuedItems_append (l1 l2 : List Event) :
    enqueuedItems (l1 ++ l2) = enqueuedItems l1 ++ enqueuedItems l2 := by
  induction l1 with
  | nil => rfl
  | cons e l ih => cases e <;> simp [enqueuedItems, ih]

theorem removedItems_append (l1 l2 : List Event) :
    removedItems (l1 ++ l2) = removedItems l1 ++ removedItems l2 := by
  induction l1 with
  | nil => rfl
  | cons e l ih => cases e <;> simp [removedItems, ih]

theorem returnedTo_append (t : Nat) (l1 l2 : List Event) :
    returnedTo t (l1 ++ l2) = returnedTo t l1 ++ returnedTo t l2 := by
  induction l1 with
  | nil => rfl
  | cons e l ih =>
    cases e with
    | returned u item =>
      simp only [returnedTo, List.cons_append]
      split <;> simp [ih]
    | _ => simpa [returnedTo] using ih

theorem run_append (sp : Bool) (s : Sys) (as bs : List Action) :
    run sp s (as ++ bs) = (run sp s as).bind (fun s1 => run sp s1 bs) := by
  induction as generalizing s with
  | nil => rfl
  | cons a rest ih =>
    simp only [List.cons_append, run]
    cases step sp s a with
    | none => rfl
    | some s1 => exact ih s1

/-- What `remove_front` does to the counters, whatever the shape of the
memory. -/
theorem remove_front_frame {m m2 : Mem} {x : Nat} (h : remove_front m = some (m2, x)) :
    m2.cvs = m.cvs ∧
    m2.queue = { m.queue with front := m2.queue.front, rear := m2.queue.rear,
                              size := decr m.queue.size,
                              visitedCount := incr m.queue.visitedCount } := by
  unfold remove_front at h
  split at h
  · cases h
  · simp only [Option.some.injEq, Prod.mk.injEq] at h
    obtain ⟨h1, _⟩ := h
    subst h1
    exact ⟨rfl, rfl⟩

theorem start_itemInv (m : Mem) : ItemInv (start m) :=
  ⟨[], ⟨rfl, rfl, fun _ hc => by cases hc⟩, rfl, rfl, rfl⟩

/-- A locked stretch of `dequeue` keeps the item-side invariant. -/
theorem loop_itemInv (s : Sys) (m0 : Mem) (t : Nat) (pre : List Event)
    (res : Mem × DequeueStep) (cells : List (Nat × Nat))
    (hs : ItemStore m0 cells)
    (hlog : removedItems s.log ++ cells.map Prod.snd = enqueuedItems s.log)
    (hsz : m0.queue.size = cells.length % SIZE_MOD)
    (hv : m0.queue.visitedCount = (removedItems s.log).length % SIZE_MOD)
    (hpre1 : removedItems pre = []) (hpre2 : enqueuedItems pre = [])
    (h : dequeue_loop m0 = some res) : ItemInv (afterDequeue s t pre res) := by
  obtain ⟨m2, r⟩ := res
  cases cells with
  | nil =>
    obtain ⟨hr, hs2, hsz2, hv2, _⟩ := dequeue_loop_empty hs h
    subst hr
    refine ⟨[], hs2, ?_, ?_, ?_⟩
    · simp only [afterDequeue, removedItems_append, enqueuedItems_append, hpre1, hpre2,
        removedItems, enqueuedItems, List.append_nil, List.map_nil]
      simpa using hlog
    · show m2.queue.size = _
      rw [hsz2, hsz]
    · show m2.queue.visitedCount = _
      simp only [afterDequeue, removedItems_append, hpre1, removedItems, List.append_nil]
      rw [hv2, hv]
  | cons c rest =>
    obtain ⟨a, x⟩ := c
    obtain ⟨m3, h3, hs3, _, hq3⟩ := dequeue_loop_take m0 a x rest hs
    rw [h3] at h
    simp only [Option.some.injEq, Prod.mk.injEq] at h
    obtain ⟨hm, hr⟩ := h
    subst hm
    subst hr
    refine ⟨rest, hs3, ?_, ?_, ?_⟩
    · simp only [afterDequeue, removedItems_append, enqueuedItems_append, hpre1, hpre2,
        removedItems, enqueuedItems, List.append_nil, List.nil_append]
      simpa using hlog
    · show m3.queue.size = _
      rw [hq3]
      show decr m0.queue.size = _
      rw [hsz]
      exact decr_succ_mod _
    · show m3.queue.visitedCount = _
      simp only [afterDequeue, removedItems_append, hpre1, removedItems, List.append_nil,
        List.nil_append, List.length_append, List.length_singleton]
      rw [hq3]
      show incr m0.queue.visitedCount = _
      rw [hv]
      exact incr_mod _

/-- Every atomic step keeps the item-side invariant, with or without spurious
wake-ups. -/
theorem step_itemInv {sp : Bool} {s s2 : Sys} {a : Action} (hinv : ItemInv s)
    (h : step sp s a = some s2) : ItemInv s2 := by
  obtain ⟨cells, hs, hlog, hsz, hv⟩ := hinv
  cases a with
  | enqueue t item =>
    cases hpc : s.pc t with
    | waiting cv => simp [step, hpc] at h
    | idle =>
      cases he : enqueue item s.mem with
      | none => simp [step, hpc, he] at h
      | some r =>
        obtain ⟨m2, w⟩ := r
        simp only [step, hpc, he, Option.some.injEq] at h
        subst h
        obtain ⟨hs2, hsz2, hv2, _⟩ := enqueue_items hs he
        refine ⟨_, hs2, ?_, ?_, ?_⟩
        · simp only [removedItems_append, enqueuedItems_append, removedItems, enqueuedItems,
            List.append_nil, List.map_append, List.map_cons, List.map_nil]
          rw [← List.append_assoc, hlog]
        · show m2.queue.size = _
          rw [hsz2, hsz, List.length_append, List.length_singleton]
          exact incr_mod _
        · show m2.queue.visitedCount = _
          simp only [removedItems_append, removedItems, List.append_nil]
          rw [hv2, hv]
  | tryDequeue t out =>
    cases hpc : s.pc t with
    | waiting cv => simp [step, hpc] at h
    | idle =>
      cases cells with
      | nil =>
        have hf : s.mem.queue.front = NULL := (ItemStore.front_null_iff hs).mpr rfl
        simp only [step, hpc, tryDequeue_null out s.mem hf, Option.some.injEq] at h
        subst h
        refine ⟨[], hs, ?_, hsz, ?_⟩
        · simp only [removedItems_append, enqueuedItems_append, removedItems, enqueuedItems,
            List.append_nil]
          exact hlog
        · simp only [removedItems_append, removedItems, List.append_nil]
          exact hv
      | cons c rest =>
        obtain ⟨a, x⟩ := c
        obtain ⟨m3, h3, hs3, _, hq3⟩ := tryDequeue_take out s.mem a x rest hs
        simp only [step, hpc, h3, Option.some.injEq] at h
        subst h
        refine ⟨rest, hs3, ?_, ?_, ?_⟩
        · simp only [removedItems_append, enqueuedItems_append, removedItems, enqueuedItems,
            List.append_nil]
          simpa using hlog
        · show m3.queue.size = _
          rw [hq3]
          show decr s.mem.queue.size = _
          rw [hsz]
          exact decr_succ_mod _
        · show m3.queue.visitedCount = _
          simp only [removedItems_append, removedItems, List.length_append,
            List.length_singleton]
          rw [hq3]
          show incr s.mem.queue.visitedCount = _
          rw [hv]
          exact incr_mod _
  | dequeue t =>
    cases hpc : s.pc t with
    | waiting cv => simp [step, hpc] at h
    | idle =>
      cases hd : dequeue s.mem with
      | none => simp [step, hpc, hd] at h
      | some r =>
        simp only [step, hpc, hd, Option.some.injEq] at h
        subst h
        exact loop_itemInv s s.mem t [] r cells hs hlog hsz hv rfl rfl hd
  | resume t =>
    cases hpc : s.pc t with
    | idle => simp [step, hpc] at h
    | waiting cv =>
      simp only [step, hpc] at h
      split at h
      · cases hd : dequeue_resume cv s.mem with
        | none => simp [hd] at h
        | some r =>
          simp only [hd, Option.some.injEq] at h
          subst h
          unfold dequeue_resume at hd
          cases hw : dequeue_wakeup cv s.mem with
          | none => simp [hw] at hd
          | some m1 =>
            simp only [hw] at hd
            obtain ⟨hn, _, _, hq⟩ := dequeue_wakeup_frame hw
            have hs1 : ItemStore m1 cells := by
              refine ItemStore.transfer hs hn ?_ ?_ <;> rw [hq]
            refine loop_itemInv s m1 t [Event.resumed t cv] r cells hs1 hlog ?_ ?_ rfl rfl hd
            · rw [hq]; exact hsz
            · rw [hq]; exact hv
      · cases h

theorem run_itemInv {sp : Bool} {acts : List Action} {s s2 : Sys} (hinv : ItemInv s)
    (h : run sp s acts = some s2) : ItemInv s2 := by
  induction acts generalizing s with
  | nil =>
    simp only [run, Option.some.injEq] at h
    subst h
    exact hinv
  | cons a rest ih =>
    simp only [run] at h
    cases hst : step sp s a with
    | none => simp [hst] at h
    | some s1 =>
      simp only [hst] at h
      exact ih (step_itemInv hinv hst) h

/-! ## Counters along single steps -/

theorem enqueue_link_frame {m m1 : Mem} {item : Nat} (h : enqueue_link item m = some m1) :
    m1.cvs = m.cvs ∧
    m1.queue = { m.queue with front := m1.queue.front, rear := m1.queue.rear } := by
  unfold enqueue_link at h
  dsimp only at h
  split at h
  · simp only [Option.some.injEq] at h
    subst h
    exact ⟨rfl, rfl⟩
  · split at h
    · cases h
    · simp only [Option.some.injEq] at h
      subst h
      exact ⟨rfl, rfl⟩

/-- The counters after `enqueue`, whatever the shape of the memory. -/
theorem enqueue_frame {m m2 : Mem} {item w : Nat} (h : enqueue item m = some (m2, w)) :
    m2.queue.size = incr m.queue.size ∧
    m2.queue.visitedCount = m.queue.visitedCount ∧
    m2.queue.waitingCount = m.queue.waitingCount := by
  unfold enqueue at h
  cases hl : enqueue_link item m with
  | none => simp [hl] at h
  | some m1 =>
    simp only [hl] at h
    obtain ⟨_, hq1⟩ := enqueue_link_frame hl
    obtain ⟨_, hq⟩ := enqueue_wake_frame h
    refine ⟨?_, ?_, ?_⟩
    · rw [hq]
      show incr m1.queue.size = _
      rw [hq1]
    · rw [hq]
      show m1.queue.visitedCount = _
      rw [hq1]
    · rw [hq]
      show m1.queue.waitingCount = _
      rw [hq1]

/-- A locked stretch of `dequeue` either parks and keeps `visitedCount`, or
returns one payload and increments `visitedCount`. -/
theorem dequeue_loop_visited {m m2 : Mem} {r : DequeueStep} (h : dequeue_loop m = some (m2, r)) :
    ((∃ cv, r = DequeueStep.parked cv) ∧ m2.queue.visitedCount = m.queue.visitedCount) ∨
    ((∃ x, r = DequeueStep.returned x) ∧ m2.queue.visitedCount = incr m.queue.visitedCount) := by
  unfold dequeue_loop at h
  split at h
  · cases hreg : dequeue_register m with
    | none => simp [hreg] at h
    | some res =>
      obtain ⟨m1, cv⟩ := res
      simp only [hreg, Option.some.injEq, Prod.mk.injEq] at h
      obtain ⟨hm, hr⟩ := h
      subst hm
      obtain ⟨_, _, hq⟩ := dequeue_register_frame hreg
      exact Or.inl ⟨⟨cv, hr.symm⟩, by rw [hq]⟩
  · cases hrem : remove_front m with
    | none => simp [hrem] at h
    | some res =>
      obtain ⟨m1, x⟩ := res
      simp only [hrem, Option.some.injEq, Prod.mk.injEq] at h
      obtain ⟨hm, hr⟩ := h
      subst hm
      obtain ⟨_, hq⟩ := remove_front_frame hrem
      exact Or.inr ⟨⟨x, hr.symm⟩, by rw [hq]⟩

/-- The events of one atomic step contain at most one removal; `visitedCount`
is incremented when there is one and unchanged otherwise. -/
theorem step_visited {sp : Bool} {s s2 : Sys} {a : Action} (h : step sp s a = some s2) :
    ∃ evs, s2.log = s.log ++ evs ∧
      ((removedItems evs = [] ∧ visited s2.mem = visited s.mem) ∨
       (∃ x, removedItems evs = [x] ∧ visited s2.mem = incr (visited s.mem))) := by
  have key : ∀ (m0 : Mem) (t : Nat) (pre : List Event) (res : Mem × DequeueStep),
      removedItems pre = [] → m0.queue.visitedCount = s.mem.queue.visitedCount →
      dequeue_loop m0 = some res →
      ∃ evs, (afterDequeue s t pre res).log = s.log ++ evs ∧
        ((removedItems evs = [] ∧ visited (afterDequeue s t pre res).mem = visited s.mem) ∨
         (∃ x, removedItems evs = [x] ∧
            visited (afterDequeue s t pre res).mem = incr (visited s.mem))) := by
    intro m0 t pre res hpre hv0 hl
    obtain ⟨m2, r⟩ := res
    rcases dequeue_loop_visited hl with ⟨⟨cv, hr⟩, hv⟩ | ⟨⟨x, hr⟩, hv⟩
    · subst hr
      refine ⟨pre ++ [Event.parked t cv], rfl, Or.inl ⟨?_, ?_⟩⟩
      · simp [removedItems_append, hpre, removedItems]
      · show m2.queue.visitedCount = _
        rw [hv, hv0]
        rfl
    · subst hr
      refine ⟨pre ++ [Event.returned t x], rfl, Or.inr ⟨x, ?_, ?_⟩⟩
      · simp [removedItems_append, hpre, removedItems]
      · show m2.queue.visitedCount = _
        rw [hv, hv0]
        rfl
  cases a with
  | enqueue t item =>
    cases hpc : s.pc t with
    | waiting cv => simp [step, hpc] at h
    | idle =>
      cases he : enqueue item s.mem with
      | none => simp [step, hpc, he] at h
      | some r =>
        obtain ⟨m2, w⟩ := r
        simp only [step, hpc, he, Option.some.injEq] at h
        subst h
        exact ⟨_, rfl, Or.inl ⟨rfl, (enqueue_frame he).2.1⟩⟩
  | tryDequeue t out =>
    cases hpc : s.pc t with
    | waiting cv => simp [step, hpc] at h
    | idle =>
      by_cases hf : s.mem.queue.front = NULL
      · simp only [step, hpc, tryDequeue_null out s.mem hf, Option.some.injEq] at h
        subst h
        exact ⟨_, rfl, Or.inl ⟨rfl, rfl⟩⟩
      · cases hrem : remove_front s.mem with
        | none => simp [step, hpc, tryDequeue, hf, hrem] at h
        | some res =>
          obtain ⟨m1, x⟩ := res
          simp only [step, hpc, tryDequeue, hf, if_false, hrem, Option.some.injEq] at h
          subst h
          obtain ⟨_, hq⟩ := remove_front_frame hrem
          refine ⟨_, rfl, Or.inr ⟨x, rfl, ?_⟩⟩
          show m1.queue.visitedCount = _
          rw [hq]
          rfl
  | dequeue t =>
    cases hpc : s.pc t with
    | waiting cv => simp [step, hpc] at h
    | idle =>
      cases hd : dequeue s.mem with
      | none => simp [step, hpc, hd] at h
      | some r =>
        simp only [step, hpc, hd, Option.some.injEq] at h
        subst h
        exact key s.mem t [] r rfl rfl hd
  | resume t =>
    cases hpc : s.pc t with
    | idle => simp [step, hpc] at h
    | waiting cv =>
      simp only [step, hpc] at h
      split at h
      · cases hd : dequeue_resume cv s.mem with
        | none => simp [hd] at h
        | some r =>
          simp only [hd, Option.some.injEq] at h
          subst h
          unfold dequeue_resume at hd
          cases hw : dequeue_wakeup cv s.mem with
          | none => simp [hw] at hd
          | some m1 =>
            simp only [hw] at hd
            obtain ⟨_, _, _, hq⟩ := dequeue_wakeup_frame hw
            exact key m1 t [Event.resumed t cv] r rfl (by rw [hq]) hd
      · cases h

theorem run_after {acts : List Action} (h : (run false (start Mem.boot) acts).isSome = true) :
    run false (start Mem.boot) acts = some (after acts) := by
  unfold after
  cases hr : run false (start Mem.boot) acts with
  | none => rw [hr] at h; cases h
  | some s => rfl

/-! ## Histories -/

/-- C2 (global FIFO, no loss, no duplication). After any schedule of atomic
steps run from the `initQueue` state (with or without spurious wake-ups), the
payloads handed out so far, in the order of the removals, followed by the
payloads of the Item Store from front to rear, are exactly the payloads
enqueued so far in enqueue order. The Item Store of the state is unique, and
position by position: the `i`-th enqueued payload is the `i`-th payload
handed out when at least `i + 1` removals have happened, and otherwise it is
still stored, at position `i` minus the number of removals. -/
theorem global_fifo (sp : Bool) (m : Mem) (acts : List Action) (s : Sys)
    (h : run sp (start m) acts = some s) :
    ∃ cells, ItemStore s.mem cells ∧ (∀ c2, ItemStore s.mem c2 → c2 = cells) ∧
      removedItems s.log ++ cells.map Prod.snd = enqueuedItems s.log ∧
      (removedItems s.log).length + cells.length = (enqueuedItems s.log).length ∧
      ∀ i, (i < (removedItems s.log).length →
              (enqueuedItems s.log)[i]? = (removedItems s.log)[i]?) ∧
           ((removedItems s.log).length ≤ i →
              (enqueuedItems s.log)[i]? =
                (cells.map Prod.snd)[i - (removedItems s.log).length]?) := by
  obtain ⟨cells, hs, hlog, _, _⟩ := run_itemInv (start_itemInv m) h
  refine ⟨cells, hs, fun c2 h2 => ItemStore.unique h2 hs, hlog, ?_, fun i => ⟨?_, ?_⟩⟩
  · rw [← hlog, List.length_append, List.length_map]
  · intro hi
    rw [← hlog, List.getElem?_append_left hi]
  · intro hi
    rw [← hlog, List.getElem?_append_right hi]

/-- An instance of C2: one consumer parks, two payloads arrive, the consumer
and a `tryDequeue` of another thread take them in enqueue order and a third
payload stays stored. -/
theorem global_fifo_witness :
    run false (start Mem.boot)
      [Action.dequeue 1, Action.enqueue 0 10, Action.enqueue 0 20, Action.resume 1,
       Action.enqueue 0 30, Action.tryDequeue 2 0] =
      some (after [Action.dequeue 1, Action.enqueue 0 10, Action.enqueue 0 20, Action.resume 1,
       Action.enqueue 0 30, Action.tryDequeue 2 0]) ∧
    removedItems (after [Action.dequeue 1, Action.enqueue 0 10, Action.enqueue 0 20,
       Action.resume 1, Action.enqueue 0 30, Action.tryDequeue 2 0]).log = [10, 20] ∧
    ∃ cells, ItemStore (after [Action.dequeue 1, Action.enqueue 0 10, Action.enqueue 0 20,
       Action.resume 1, Action.enqueue 0 30, Action.tryDequeue 2 0]).mem cells ∧
      removedItems (after [Action.dequeue 1, Action.enqueue 0 10, Action.enqueue 0 20,
       Action.resume 1, Action.enqueue 0 30, Action.tryDequeue 2 0]).log ++ cells.map Prod.snd =
      enqueuedItems (after [Action.dequeue 1, Action.enqueue 0 10, Action.enqueue 0 20,
       Action.resume 1, Action.enqueue 0 30, Action.tryDequeue 2 0]).log := by
  have hrun := @run_after [Action.dequeue 1, Action.enqueue 0 10, Action.enqueue 0 20,
       Action.resume 1, Action.enqueue 0 30, Action.tryDequeue 2 0] (by decide)
  obtain ⟨cells, hs, _, hlog, _⟩ := global_fifo false Mem.boot _ _ hrun
  exact ⟨hrun, by decide, cells, hs, hlog⟩

/-- C6 (counter consistency). In every state reached from the `initQueue`
state by atomic steps, `visited()` is the number of successful removals so far
and `size()` is the number of enqueues minus the number of removals, both as
`size_t` values (reduced modulo `2 ^ 64`), hence exactly as long as fewer than
`2 ^ 64` enqueues have happened. Every further step contains at most one
removal; it applies `++` to `visitedCount` when it contains one (a `dequeue`
return or a successful `tryDequeue`) and leaves `visitedCount` unchanged
otherwise (an enqueue, a failed `tryDequeue`, a consumer parking or resuming
to park again), so `visitedCount` does not decrease while the number of
removals is below `2 ^ 64`. -/
theorem counters_consistent (sp : Bool) (m : Mem) (acts : List Action) (s : Sys)
    (h : run sp (start m) acts = some s) :
    visited s.mem = (removedItems s.log).length % SIZE_MOD ∧
    (removedItems s.log).length ≤ (enqueuedItems s.log).length ∧
    size s.mem = ((enqueuedItems s.log).length - (removedItems s.log).length) % SIZE_MOD ∧
    ((enqueuedItems s.log).length < SIZE_MOD →
      visited s.mem = (removedItems s.log).length ∧
      size s.mem = (enqueuedItems s.log).length - visited s.mem) ∧
    ∀ a s2, step sp s a = some s2 →
      ∃ evs, s2.log = s.log ++ evs ∧
        ((removedItems evs = [] ∧ visited s2.mem = visited s.mem) ∨
         (∃ x, removedItems evs = [x] ∧ visited s2.mem = incr (visited s.mem))) ∧
        ((removedItems s2.log).length < SIZE_MOD → visited s.mem ≤ visited s2.mem) := by
  obtain ⟨cells, hs, hlog, hsz, hv⟩ := run_itemInv (start_itemInv m) h
  have hlen : (removedItems s.log).length + cells.length = (enqueuedItems s.log).length := by
    rw [← hlog, List.length_append, List.length_map]
  have hcl : cells.length = (enqueuedItems s.log).length - (removedItems s.log).length := by
    omega
  refine ⟨hv, by omega, ?_, ?_, ?_⟩
  · show s.mem.queue.size = _
    rw [hsz, hcl]
  · intro hlt
    have hv2 : visited s.mem = (removedItems s.log).length := by
      show s.mem.queue.visitedCount = _
      rw [hv]
      exact Nat.mod_eq_of_lt (by omega)
    refine ⟨hv2, ?_⟩
    show s.mem.queue.size = _
    rw [hsz, hv2, ← hcl]
    exact Nat.mod_eq_of_lt (by omega)
  · intro a s2 hst
    obtain ⟨evs, hevs, hcase⟩ := step_visited hst
    refine ⟨evs, hevs, hcase, ?_⟩
    intro hlt
    obtain ⟨_, _, _, _, hv2⟩ := step_itemInv ⟨cells, hs, hlog, hsz, hv⟩ hst
    have hle : (removedItems s.log).length ≤ (removedItems s2.log).length := by
      rw [hevs, removedItems_append, List.length_append]
      omega
    show s.mem.queue.visitedCount ≤ s2.mem.queue.visitedCount
    rw [hv, hv2, Nat.mod_eq_of_lt hlt, Nat.mod_eq_of_lt (by omega)]
    exact hle

/-- An instance of C6: after three enqueues and two removals, `visited()` is
`2` and `size()` is `1`. -/
theorem counters_consistent_witness :
    run false (start Mem.boot)
      [Action.dequeue 1, Action.enqueue 0 10, Action.enqueue 0 20, Action.resume 1,
       Action.enqueue 0 30, Action.tryDequeue 2 0] =
      some (after [Action.dequeue 1, Action.enqueue 0 10, Action.enqueue 0 20, Action.resume 1,
       Action.enqueue 0 30, Action.tryDequeue 2 0]) ∧
    visited (after [Action.dequeue 1, Action.enqueue 0 10, Action.enqueue 0 20, Action.resume 1,
       Action.enqueue 0 30, Action.tryDequeue 2 0]).mem = 2 ∧
    size (after [Action.dequeue 1, Action.enqueue 0 10, Action.enqueue 0 20, Action.resume 1,
       Action.enqueue 0 30, Action.tryDequeue 2 0]).mem = 3 - 2 := by
  have hrun := @run_after [Action.dequeue 1, Action.enqueue 0 10, Action.enqueue 0 20,
       Action.resume 1, Action.enqueue 0 30, Action.tryDequeue 2 0] (by decide)
  obtain ⟨_, _, _, hex, _⟩ := counters_consistent false Mem.boot _ _ hrun
  have hen : enqueuedItems (after [Action.dequeue 1, Action.enqueue 0 10, Action.enqueue 0 20,
       Action.resume 1, Action.enqueue 0 30, Action.tryDequeue 2 0]).log = [10, 20, 30] := by
    decide
  have hre : removedItems (after [Action.dequeue 1, Action.enqueue 0 10, Action.enqueue 0 20,
       Action.resume 1, Action.enqueue 0 30, Action.tryDequeue 2 0]).log = [10, 20] := by
    decide
  rw [hen, hre] at hex
  obtain ⟨h1, h2⟩ := hex (by decide)
  refine ⟨hrun, h1, ?_⟩
  rw [h2, h1]
  rfl

/-! ## Sequential use -/

/-- A run of enqueues by an idle thread while nobody waits: all of them are
defined, none signals anybody, and the payloads are appended in order. -/
theorem run_enqueues (sp : Bool) (t : Nat) (es : List Nat) (s : Sys)
    (cells : List (Nat × Nat)) (hpc : s.pc t = Pc.idle) (hs : ItemStore s.mem cells)
    (hr : Registry s.mem []) :
    ∃ s2 cells2, run sp s (es.map (Action.enqueue t)) = some s2 ∧
      s2.pc = s.pc ∧
      s2.log = s.log ++ es.map (fun e => Event.enqueued t e NULL) ∧
      ItemStore s2.mem cells2 ∧ cells2.map Prod.snd = cells.map Prod.snd ++ es ∧
      Registry s2.mem [] := by
  induction es generalizing s cells with
  | nil => exact ⟨s, cells, rfl, rfl, by simp, hs, by simp, hr⟩
  | cons e rest ih =>
    obtain ⟨m2, h2, hs2, hr2, _⟩ := enqueue_spec e s.mem cells [] hs hr
    have hst : step sp s (Action.enqueue t e) =
        some { mem := m2, pc := s.pc, log := s.log ++ [Event.enqueued t e NULL] } := by
      simp only [step, hpc, h2]
      rfl
    obtain ⟨s3, cells3, hrun, hpc3, hlog3, hs3, hc3, hr3⟩ :=
      ih { mem := m2, pc := s.pc, log := s.log ++ [Event.enqueued t e NULL] } _ hpc hs2 hr2
    refine ⟨s3, cells3, ?_, hpc3, ?_, hs3, ?_, hr3⟩
    · simp only [List.map_cons, run, hst]
      exact hrun
    · rw [hlog3]
      simp
    · rw [hc3]
      simp

/-- As many `dequeue` calls as there are stored items, made by one idle
thread: every call returns at once, in the order of the Item Store. -/
theorem run_dequeues (sp : Bool) (c : Nat) (cells : List (Nat × Nat)) (s : Sys)
    (hpc : s.pc c = Pc.idle) (hs : ItemStore s.mem cells) :
    ∃ s2, run sp s (List.replicate cells.length (Action.dequeue c)) = some s2 ∧
      s2.pc c = Pc.idle ∧
      s2.log = s.log ++ cells.map (fun x => Event.returned c x.2) ∧
      ItemStore s2.mem [] := by
  induction cells generalizing s with
  | nil => exact ⟨s, rfl, hpc, by simp, hs⟩
  | cons x rest ih =>
    obtain ⟨a, v⟩ := x
    obtain ⟨m2, h2, hs2, _, _⟩ := dequeue_loop_take s.mem a v rest hs
    have hst : step sp s (Action.dequeue c) =
        some { mem := m2, pc := setPc s.pc c Pc.idle,
               log := s.log ++ ([] ++ [Event.returned c v]) } := by
      simp only [step, hpc, dequeue, h2]
      rfl
    obtain ⟨s3, hrun, hpc3, hlog3, hs3⟩ :=
      ih { mem := m2, pc := setPc s.pc c Pc.idle,
           log := s.log ++ ([] ++ [Event.returned c v]) } (by simp [setPc]) hs2
    refine ⟨s3, ?_, hpc3, ?_, hs3⟩
    · simp only [List.length_cons, List.replicate_succ, run, hst]
      exact hrun
    · rw [hlog3]
      simp

theorem enqueuedItems_enqueued (t : Nat) (es : List Nat) :
    enqueuedItems (es.map (fun e => Event.enqueued t e NULL)) = es := by
  induction es with
  | nil => rfl
  | cons e rest ih => simp [enqueuedItems, ih]

theorem removedItems_enqueued (t : Nat) (es : List Nat) :
    removedItems (es.map (fun e => Event.enqueued t e NULL)) = [] := by
  induction es with
  | nil => rfl
  | cons e rest ih => simp [removedItems, ih]

theorem returnedTo_enqueued (c t : Nat) (es : List Nat) :
    returnedTo c (es.map (fun e => Event.enqueued t e NULL)) = [] := by
  induction es with
  | nil => rfl
  | cons e rest ih => simp [returnedTo, ih]

theorem removedItems_returned (c : Nat) (es : List Nat) :
    removedItems (es.map (fun e => Event.returned c e)) = es := by
  induction es with
  | nil => rfl
  | cons e rest ih => simp [removedItems, ih]

theorem returnedTo_returned (c : Nat) (es : List Nat) :
    returnedTo c (es.map (fun e => Event.returned c e)) = es := by
  induction es with
  | nil => rfl
  | cons e rest ih => simp [returnedTo, ih]

/-- C1 (item FIFO). From the `initQueue` state, for every list of payloads
`es`: the schedule that runs `enqueue(e)` for each `e` of `es` in order (thread
`p`) and then `es.length` calls of `dequeue` by the single thread `c` can be
run to its end; its history consists of the enqueues (none of which signals
anybody) followed by one return per call, so no call parks and the calls
return the payloads of `es` in order; afterwards the Item Store is empty,
`size()` is `0`, the consumer is outside `dequeue`, and `visited()` is
`es.length` as a `size_t` (exactly `es.length` below `2 ^ 64`). -/
theorem item_fifo (sp : Bool) (m : Mem) (p c : Nat) (es : List Nat) :
    ∃ s, run sp (start m)
        (es.map (Action.enqueue p) ++ List.replicate es.length (Action.dequeue c)) = some s ∧
      s.log = es.map (fun e => Event.enqueued p e NULL) ++
              es.map (fun e => Event.returned c e) ∧
      returnedTo c s.log = es ∧
      s.pc c = Pc.idle ∧
      ItemStore s.mem [] ∧ size s.mem = 0 ∧
      visited s.mem = es.length % SIZE_MOD ∧
      (es.length < SIZE_MOD → visited s.mem = es.length) := by
  obtain ⟨s1, cells1, hrun1, hpc1, hlog1, hs1, hc1, _⟩ :=
    run_enqueues sp p es (start m) [] rfl ⟨rfl, rfl, fun _ hc => by cases hc⟩ ⟨rfl, rfl⟩
  have hlen : cells1.length = es.length := by
    have := congrArg List.length hc1
    simpa using this
  obtain ⟨s2, hrun2, hpc2, hlog2, hs2⟩ :=
    run_dequeues sp c cells1 s1 (by rw [hpc1]; rfl) hs1
  have hrun : run sp (start m)
      (es.map (Action.enqueue p) ++ List.replicate es.length (Action.dequeue c)) = some s2 := by
    rw [run_append, hrun1, ← hlen]
    exact hrun2
  have hlog : s2.log = es.map (fun e => Event.enqueued p e NULL) ++
      es.map (fun e => Event.returned c e) := by
    rw [hlog2, hlog1]
    have : cells1.map (fun x => Event.returned c x.2) =
        (cells1.map Prod.snd).map (fun e => Event.returned c e) := by
      rw [List.map_map]
      rfl
    rw [this, hc1]
    simp [start]
  obtain ⟨cells, hsi, _, hsz, hv⟩ := run_itemInv (start_itemInv m) hrun
  have hce : cells = [] := ItemStore.unique hsi hs2
  subst hce
  have hrem : removedItems s2.log = es := by
    rw [hlog, removedItems_append, removedItems_enqueued, removedItems_returned]
    rfl
  have hvis : visited s2.mem = es.length % SIZE_MOD := by
    show s2.mem.queue.visitedCount = _
    rw [hv, hrem]
  refine ⟨s2, hrun, hlog, ?_, hpc2, hs2, ?_, hvis, ?_⟩
  · rw [hlog, returnedTo_append, returnedTo_enqueued, returnedTo_returned]
    rfl
  · show s2.mem.queue.size = 0
    rw [hsz]
    rfl
  · intro hlt
    rw [hvis]
    exact Nat.mod_eq_of_lt hlt

/-- Scenario 1 as an instance of C1: payloads `10` and `20` enqueued by
thread `0`, then two `dequeue` calls by thread `1`. -/
theorem item_fifo_witness :
    ∃ s, run false (start Mem.boot)
        [Action.enqueue 0 10, Action.enqueue 0 20, Action.dequeue 1, Action.dequeue 1] =
        some s ∧
      s.log = [Event.enqueued 0 10 NULL, Event.enqueued 0 20 NULL,
               Event.returned 1 10, Event.returned 1 20] ∧
      returnedTo 1 s.log = [10, 20] ∧ size s.mem = 0 ∧ visited s.mem = 2 := by
  obtain ⟨s, h1, h2, h3, _, _, h5, _, h7⟩ := item_fifo false Mem.boot 0 1 [10, 20]
  exact ⟨s, h1, h2, h3, h5, h7 (by decide)⟩

/-! ## Atomic steps on well-formed states -/

/-- The continuation of `dequeue` after `cnd_wait` when an item is stored: the
caller's node is freed, `waitingCount` is decremented and the front payload
is returned. -/
theorem dequeue_resume_take (m : Mem) (cv a x : Nat) (cells : List (Nat × Nat))
    (hlive : (Heap.read m.cvs cv).isSome = true) (hs : ItemStore m ((a, x) :: cells)) :
    ∃ m2, dequeue_resume cv m = some (m2, DequeueStep.returned x) ∧ ItemStore m2 cells ∧
      m2.queue.size = decr m.queue.size ∧
      m2.queue.visitedCount = incr m.queue.visitedCount ∧
      m2.queue.waitingCount = decr m.queue.waitingCount ∧
      (∀ ws, cv ∉ ws → Registry m ws → Registry m2 ws) ∧
      (∀ b, b ≠ cv → signalled m2 b = signalled m b) := by
  obtain ⟨c, hc⟩ := Option.isSome_iff_exists.mp hlive
  have hw0 : ∃ m1, dequeue_wakeup cv m = some m1 := by
    unfold dequeue_wakeup
    rw [hc]
    exact ⟨_, rfl⟩
  obtain ⟨m1, hw⟩ := hw0
  obtain ⟨hn, hcvs, _, hq⟩ := dequeue_wakeup_frame hw
  have hs1 : ItemStore m1 ((a, x) :: cells) :=
    ItemStore.transfer hs hn (by rw [hq]) (by rw [hq])
  obtain ⟨m2, h2, hs2, hc2, hq2⟩ := dequeue_loop_take m1 a x cells hs1
  refine ⟨m2, ?_, hs2, ?_, ?_, ?_, ?_, ?_⟩
  · unfold dequeue_resume
    rw [hw]
    exact h2
  · rw [hq2]
    show decr m1.queue.size = _
    rw [hq]
  · rw [hq2]
    show incr m1.queue.visitedCount = _
    rw [hq]
  · rw [hq2]
    show m1.queue.waitingCount = _
    rw [hq]
  · intro ws hnot hr
    have hr1 := dequeue_wakeup_spec hw hr hnot
    refine Registry.carry hr1 hc2 ?_ ?_ <;> rw [hq2]
  · intro b hb
    unfold signalled
    rw [hc2, hcvs, Heap.read_free, if_neg hb]

/-- An idle thread calls `dequeue` while no item is stored: it parks on a
fresh node at the rear of the registry. -/
theorem sys_park (sp : Bool) (s : Sys) (t : Nat) (ws : List Nat)
    (hpc : s.pc t = Pc.idle) (hs : ItemStore s.mem []) (hr : Registry s.mem ws) :
    ∃ s2, step sp s (Action.dequeue t) = some s2 ∧
      s2.pc = setPc s.pc t (Pc.waiting s.mem.fresh) ∧
      s2.log = s.log ++ [Event.parked t s.mem.fresh] ∧
      ItemStore s2.mem [] ∧ Registry s2.mem (ws ++ [s.mem.fresh]) ∧ s.mem.fresh ∉ ws ∧
      s2.mem.queue.size = s.mem.queue.size ∧
      s2.mem.queue.visitedCount = s.mem.queue.visitedCount ∧
      s2.mem.queue.waitingCount = incr s.mem.queue.waitingCount ∧
      (∀ a, signalled s2.mem a = signalled s.mem a) ∧
      signalled s2.mem s.mem.fresh = false := by
  obtain ⟨m2, h2, hs2, hr2, hnot, hsz, hv, hw, hsig, _⟩ := dequeue_loop_park s.mem ws hs hr
  refine ⟨{ mem := m2, pc := setPc s.pc t (Pc.waiting s.mem.fresh),
            log := s.log ++ ([] ++ [Event.parked t s.mem.fresh]) }, ?_, rfl, rfl, hs2, hr2,
          hnot, hsz, hv, hw, hsig, ?_⟩
  · simp only [step, hpc, dequeue, h2]
    rfl
  · show signalled m2 _ = false
    rw [hsig, signalled_fresh]

/-- An idle thread runs `enqueue` on a well-formed state. -/
theorem sys_enqueue (sp : Bool) (s : Sys) (t x : Nat) (cells : List (Nat × Nat))
    (ws : List Nat)
    (hpc : s.pc t = Pc.idle) (hs : ItemStore s.mem cells) (hr : Registry s.mem ws) :
    ∃ s2, step sp s (Action.enqueue t x) = some s2 ∧
      s2.pc = s.pc ∧
      s2.log = s.log ++ [Event.enqueued t x (ws.headD NULL)] ∧
      ItemStore s2.mem (cells ++ [(s.mem.fresh, x)]) ∧ Registry s2.mem ws.tail ∧
      s2.mem.queue.size = incr s.mem.queue.size ∧
      s2.mem.queue.visitedCount = s.mem.queue.visitedCount ∧
      s2.mem.queue.waitingCount = s.mem.queue.waitingCount ∧
      (∀ a, signalled s2.mem a = (signalled s.mem a || decide (a ∈ ws.head?))) := by
  obtain ⟨m2, h2, hs2, hr2, hsz, hv, hw, hsig, _⟩ := enqueue_spec x s.mem cells ws hs hr
  refine ⟨{ mem := m2, pc := s.pc, log := s.log ++ [Event.enqueued t x (ws.headD NULL)] },
          ?_, rfl, rfl, hs2, hr2, hsz, hv, hw, hsig⟩
  simp only [step, hpc, h2]

/-- A signalled waiter leaves `cnd_wait` while an item is stored: its call
returns the front payload. -/
theorem sys_resume_take (s : Sys) (t cv a x : Nat) (cells : List (Nat × Nat))
    (hpc : s.pc t = Pc.waiting cv) (hsig : signalled s.mem cv = true)
    (hs : ItemStore s.mem ((a, x) :: cells)) :
    ∃ s2, step false s (Action.resume t) = some s2 ∧
      s2.pc = setPc s.pc t Pc.idle ∧
      s2.log = s.log ++ [Event.resumed t cv, Event.returned t x] ∧
      ItemStore s2.mem cells ∧
      s2.mem.queue.size = decr s.mem.queue.size ∧
      s2.mem.queue.visitedCount = incr s.mem.queue.visitedCount ∧
      s2.mem.queue.waitingCount = decr s.mem.queue.waitingCount ∧
      (∀ ws, cv ∉ ws → Registry s.mem ws → Registry s2.mem ws) ∧
      (∀ b, b ≠ cv → signalled s2.mem b = signalled s.mem b) := by
  obtain ⟨m2, h2, hs2, hsz, hv, hw, hreg, hsg⟩ :=
    dequeue_resume_take s.mem cv a x cells (signalled_live hsig) hs
  refine ⟨{ mem := m2, pc := setPc s.pc t Pc.idle,
            log := s.log ++ ([Event.resumed t cv] ++ [Event.returned t x]) },
          ?_, rfl, rfl, hs2, hsz, hv, hw, hreg, hsg⟩
  simp only [step, hpc, hsig, Bool.or_true, Bool.false_or, if_true, h2]
  rfl

/-! ## The waiter-side invariant and absence of undefined behaviour -/

theorem start_regInv (m : Mem) : RegInv (start m) :=
  ⟨[], ⟨rfl, rfl⟩, fun _ hw => by cases hw⟩

/-- A locked stretch of `dequeue` keeps the registry well formed and
unsignalled; it is defined as soon as both lists are well formed. -/
theorem dequeue_loop_regInv {m : Mem} {ws : List Nat} {cells : List (Nat × Nat)}
    (hs : ItemStore m cells) (hr : Registry m ws) (hu : ∀ w ∈ ws, signalled m w = false) :
    ∃ m2 r, dequeue_loop m = some (m2, r) ∧
      ∃ ws2, Registry m2 ws2 ∧ ∀ w ∈ ws2, signalled m2 w = false := by
  cases cells with
  | nil =>
    obtain ⟨m2, h2, _, hr2, _, _, _, _, hsig, _⟩ := dequeue_loop_park m ws hs hr
    refine ⟨m2, _, h2, ws ++ [m.fresh], hr2, fun w hw => ?_⟩
    rw [hsig]
    rcases List.mem_append.mp hw with h1 | h1
    · exact hu w h1
    · rw [List.mem_singleton.mp h1]
      exact signalled_fresh m
  | cons c rest =>
    obtain ⟨a, x⟩ := c
    obtain ⟨m2, h2, _, hc2, hq2⟩ := dequeue_loop_take m a x rest hs
    refine ⟨m2, _, h2, ws, Registry.carry hr hc2 (by rw [hq2]) (by rw [hq2]), fun w hw => ?_⟩
    unfold signalled
    rw [hc2]
    exact hu w hw

/-- The code after `cnd_wait`, run by a waiter whose node has been signalled,
is defined and keeps the registry well formed and unsignalled. -/
theorem dequeue_wakeup_regInv {m : Mem} {ws : List Nat} {cv : Nat}
    (hr : Registry m ws) (hu : ∀ w ∈ ws, signalled m w = false)
    (hsig : signalled m cv = true) :
    ∃ m1, dequeue_wakeup cv m = some m1 ∧ Registry m1 ws ∧
      ∀ w ∈ ws, signalled m1 w = false := by
  obtain ⟨c, hc⟩ := Option.isSome_iff_exists.mp (signalled_live hsig)
  have hw0 : ∃ m1, dequeue_wakeup cv m = some m1 := by
    unfold dequeue_wakeup
    rw [hc]
    exact ⟨_, rfl⟩
  obtain ⟨m1, hw⟩ := hw0
  have hnot : cv ∉ ws := fun hm => by
    have := hu cv hm
    rw [hsig] at this
    cases this
  obtain ⟨_, hcvs, _, _⟩ := dequeue_wakeup_frame hw
  refine ⟨m1, hw, dequeue_wakeup_spec hw hr hnot, fun w hm => ?_⟩
  have hwc : w ≠ cv := fun he => hnot (he ▸ hm)
  have := hu w hm
  unfold signalled at this ⊢
  rw [hcvs, Heap.read_free, if_neg hwc]
  exact this

/-- In a state that satisfies both invariants, every enabled step is defined:
the code does not run into undefined behaviour. -/
theorem step_defined {s : Sys} (hi : ItemInv s) (hr : RegInv s) :
    (∀ t item, s.pc t = Pc.idle → (step false s (Action.enqueue t item)).isSome = true) ∧
    (∀ t out, s.pc t = Pc.idle → (step false s (Action.tryDequeue t out)).isSome = true) ∧
    (∀ t, s.pc t = Pc.idle → (step false s (Action.dequeue t)).isSome = true) ∧
    (∀ t cv, s.pc t = Pc.waiting cv → signalled s.mem cv = true →
      (step false s (Action.resume t)).isSome = true) := by
  obtain ⟨cells, hs, _, _, _⟩ := hi
  obtain ⟨ws, hreg, hu⟩ := hr
  refine ⟨?_, ?_, ?_, ?_⟩
  · intro t item hpc
    obtain ⟨s2, h2, _⟩ := sys_enqueue false s t item cells ws hpc hs hreg
    rw [h2]
    rfl
  · intro t out hpc
    cases cells with
    | nil =>
      have hf : s.mem.queue.front = NULL := (ItemStore.front_null_iff hs).mpr rfl
      simp only [step, hpc, tryDequeue_null out s.mem hf]
      rfl
    | cons c rest =>
      obtain ⟨a, x⟩ := c
      obtain ⟨m2, h2, _⟩ := tryDequeue_take out s.mem a x rest hs
      simp only [step, hpc, h2]
      rfl
  · intro t hpc
    obtain ⟨m2, r, h2, _⟩ := dequeue_loop_regInv hs hreg hu
    simp only [step, hpc, dequeue, h2]
    rfl
  · intro t cv hpc hsig
    obtain ⟨m1, hw, hr1, hu1⟩ := dequeue_wakeup_regInv hreg hu hsig
    obtain ⟨hn, _, _, hq⟩ := dequeue_wakeup_frame hw
    have hs1 : ItemStore m1 cells := ItemStore.transfer hs hn (by rw [hq]) (by rw [hq])
    obtain ⟨m2, r, h2, _⟩ := dequeue_loop_regInv hs1 hr1 hu1
    have hd : dequeue_resume cv s.mem = some (m2, r) := by
      unfold dequeue_resume
      rw [hw]
      exact h2
    simp only [step, hpc, hsig, Bool.or_true, Bool.false_or, if_true, hd]
    rfl

/-- Without spurious wake-ups every atomic step keeps the waiter-side
invariant. -/
theorem step_regInv {s s2 : Sys} {a : Action} (hi : ItemInv s) (hr : RegInv s)
    (h : step false s a = some s2) : RegInv s2 := by
  obtain ⟨cells, hs, _, _, _⟩ := hi
  obtain ⟨ws, hreg, hu⟩ := hr
  cases a with
  | enqueue t item =>
    cases hpc : s.pc t with
    | waiting cv => simp [step, hpc] at h
    | idle =>
      obtain ⟨s3, h3, _, _, _, hr3, _, _, _, hsig⟩ :=
        sys_enqueue false s t item cells ws hpc hs hreg
      rw [h3] at h
      simp only [Option.some.injEq] at h
      subst h
      have hnd := Chain.nodup hreg.1
      refine ⟨ws.tail, hr3, fun w hw => ?_⟩
      rw [hsig w, hu w (List.mem_of_mem_tail hw)]
      cases ws with
      | nil => simp
      | cons w0 rest =>
        have hne : w0 ≠ w := fun he => (List.nodup_cons.mp hnd).1 (he ▸ hw)
        simp [hne]
  | tryDequeue t out =>
    cases hpc : s.pc t with
    | waiting cv => simp [step, hpc] at h
    | idle =>
      cases cells with
      | nil =>
        have hf : s.mem.queue.front = NULL := (ItemStore.front_null_iff hs).mpr rfl
        simp only [step, hpc, tryDequeue_null out s.mem hf, Option.some.injEq] at h
        subst h
        exact ⟨ws, hreg, hu⟩
      | cons c rest =>
        obtain ⟨a, x⟩ := c
        obtain ⟨m3, h3, _, hc3, hq3⟩ := tryDequeue_take out s.mem a x rest hs
        simp only [step, hpc, h3, Option.some.injEq] at h
        subst h
        refine ⟨ws, Registry.carry hreg hc3 (by rw [hq3]) (by rw [hq3]), fun w hw => ?_⟩
        show signalled m3 w = false
        unfold signalled
        rw [hc3]
        exact hu w hw
  | dequeue t =>
    cases hpc : s.pc t with
    | waiting cv => simp [step, hpc] at h
    | idle =>
      obtain ⟨m2, r, h2, hinv⟩ := dequeue_loop_regInv hs hreg hu
      simp only [step, hpc, dequeue, h2, Option.some.injEq] at h
      subst h
      cases r <;> exact hinv
  | resume t =>
    cases hpc : s.pc t with
    | idle => simp [step, hpc] at h
    | waiting cv =>
      cases hsig : signalled s.mem cv with
      | false => simp [step, hpc, hsig] at h
      | true =>
        obtain ⟨m1, hw, hr1, hu1⟩ := dequeue_wakeup_regInv hreg hu hsig
        obtain ⟨hn, _, _, hq⟩ := dequeue_wakeup_frame hw
        have hs1 : ItemStore m1 cells := ItemStore.transfer hs hn (by rw [hq]) (by rw [hq])
        obtain ⟨m2, r, h2, hinv⟩ := dequeue_loop_regInv hs1 hr1 hu1
        have hd : dequeue_resume cv s.mem = some (m2, r) := by
          unfold dequeue_resume
          rw [hw]
          exact h2
        simp only [step, hpc, hsig, Bool.or_true, Bool.false_or, if_true, hd,
          Option.some.injEq] at h
        subst h
        cases r <;> exact hinv

/-- Without spurious wake-ups both invariants hold in every state reached from
the `initQueue` state. -/
theorem run_invariants {acts : List Action} {s s2 : Sys} (hi : ItemInv s) (hr : RegInv s)
    (h : run false s acts = some s2) : ItemInv s2 ∧ RegInv s2 := by
  induction acts generalizing s with
  | nil =>
    simp only [run, Option.some.injEq] at h
    subst h
    exact ⟨hi, hr⟩
  | cons a rest ih =>
    simp only [run] at h
    cases hst : step false s a with
    | none => simp [hst] at h
    | some s1 =>
      simp only [hst] at h
      exact ih (step_itemInv hi hst) (step_regInv hi hr hst) h

/-- Without spurious wake-ups, in every state reached from the `initQueue`
state both lists are well formed and every enabled step is defined. -/
theorem reachable_defined (m : Mem) (acts : List Action) (s : Sys)
    (h : run false (start m) acts = some s) :
    (∃ cells ws, ItemStore s.mem cells ∧ Registry s.mem ws) ∧
    (∀ t item, s.pc t = Pc.idle → (step false s (Action.enqueue t item)).isSome = true) ∧
    (∀ t out, s.pc t = Pc.idle → (step false s (Action.tryDequeue t out)).isSome = true) ∧
    (∀ t, s.pc t = Pc.idle → (step false s (Action.dequeue t)).isSome = true) ∧
    (∀ t cv, s.pc t = Pc.waiting cv → signalled s.mem cv = true →
      (step false s (Action.resume t)).isSome = true) := by
  obtain ⟨hi, hr⟩ := run_invariants (start_itemInv m) (start_regInv m) h
  obtain ⟨cells, hs, _⟩ := hi
  obtain ⟨ws, hreg, _⟩ := hr
  exact ⟨⟨cells, ws, hs, hreg⟩, step_defined ⟨cells, hs, by assumption⟩ ⟨ws, hreg, by assumption⟩⟩

/-! ## Scenarios with parked consumers -/

/-- C8 (park-and-wake cycle, Scenario 2). From the `initQueue` state, when
thread `t` calls `dequeue` it parks on a fresh node `cv`, `waiting()` is `1`
and `t` cannot leave `cnd_wait` on its own; an `enqueue(x)` by another thread
`u` signals `cv`; when `t` then resumes, its `dequeue` call returns `x`, and
afterwards `waiting()` is `0`, `size()` is `0` and `visited()` is `1`. -/
theorem park_and_wake (m : Mem) (t u x : Nat) (htu : u ≠ t) :
    ∃ s1 s2 s3 cv,
      step false (start m) (Action.dequeue t) = some s1 ∧
      s1.pc t = Pc.waiting cv ∧ s1.log = [Event.parked t cv] ∧ waiting s1.mem = 1 ∧
      step false s1 (Action.resume t) = none ∧
      step false s1 (Action.enqueue u x) = some s2 ∧
      s2.log = [Event.parked t cv, Event.enqueued u x cv] ∧
      step false s2 (Action.resume t) = some s3 ∧
      s3.log = [Event.parked t cv, Event.enqueued u x cv, Event.resumed t cv,
                Event.returned t x] ∧
      returnedTo t s3.log = [x] ∧ s3.pc t = Pc.idle ∧
      waiting s3.mem = 0 ∧ size s3.mem = 0 ∧ visited s3.mem = 1 := by
  have hs0 : ItemStore (start m).mem [] := ⟨rfl, rfl, fun _ hc => by cases hc⟩
  have hr0 : Registry (start m).mem [] := ⟨rfl, rfl⟩
  obtain ⟨s1, hst1, hpc1, hlog1, hs1, hr1, _, hsz1, hv1, hw1, _, hsg1⟩ :=
    sys_park false (start m) t [] rfl hs0 hr0
  have hpt1 : s1.pc t = Pc.waiting (start m).mem.fresh := by
    rw [hpc1]
    simp [setPc]
  have hpu1 : s1.pc u = Pc.idle := by
    rw [hpc1]
    simp [setPc, htu, start]
  obtain ⟨s2, hst2, hpc2, hlog2, hs2, _, hsz2, hv2, hw2, hsg2⟩ :=
    sys_enqueue false s1 u x [] [(start m).mem.fresh] hpu1 hs1 hr1
  have hsig2 : signalled s2.mem (start m).mem.fresh = true := by
    rw [hsg2]
    simp
  obtain ⟨s3, hst3, hpc3, hlog3, _, hsz3, hv3, hw3, _, _⟩ :=
    sys_resume_take s2 t (start m).mem.fresh _ x [] (by rw [hpc2]; exact hpt1) hsig2 hs2
  refine ⟨s1, s2, s3, (start m).mem.fresh, hst1, hpt1, ?_, ?_, ?_, hst2, ?_, hst3, ?_, ?_, ?_,
    ?_, ?_, ?_⟩
  · rw [hlog1]
    rfl
  · show s1.mem.queue.waitingCount = 1
    rw [hw1]
    rfl
  · simp only [step, hpt1, hsg1, Bool.or_self, Bool.false_eq_true, if_false]
  · rw [hlog2, hlog1]
    rfl
  · rw [hlog3, hlog2, hlog1]
    rfl
  · rw [hlog3, hlog2, hlog1]
    simp [start, returnedTo]
  · rw [hpc3]
    simp [setPc]
  · show s3.mem.queue.waitingCount = 0
    rw [hw3, hw2, hw1, decr_incr]
    exact Nat.zero_mod _
  · show s3.mem.queue.size = 0
    rw [hsz3, hsz2, hsz1, decr_incr]
    exact Nat.zero_mod _
  · show s3.mem.queue.visitedCount = 1
    rw [hv3, hv2, hv1]
    rfl

/-- Scenario 2 as an instance of C8: consumer thread `1`, producer thread `0`,
payload `42`. -/
theorem park_and_wake_witness :
    (0 : Nat) ≠ 1 ∧
    ∃ s1 s2 s3 cv,
      step false (start Mem.boot) (Action.dequeue 1) = some s1 ∧
      s1.pc 1 = Pc.waiting cv ∧ s1.log = [Event.parked 1 cv] ∧ waiting s1.mem = 1 ∧
      step false s1 (Action.resume 1) = none ∧
      step false s1 (Action.enqueue 0 42) = some s2 ∧
      s2.log = [Event.parked 1 cv, Event.enqueued 0 42 cv] ∧
      step false s2 (Action.resume 1) = some s3 ∧
      s3.log = [Event.parked 1 cv, Event.enqueued 0 42 cv, Event.resumed 1 cv,
                Event.returned 1 42] ∧
      returnedTo 1 s3.log = [42] ∧ s3.pc 1 = Pc.idle ∧
      waiting s3.mem = 0 ∧ size s3.mem = 0 ∧ visited s3.mem = 1 :=
  ⟨by decide, park_and_wake Mem.boot 1 0 42 (by decide)⟩

/-- C4, evaluated at a failing schedule. Threads `1` and `2` park in this order
on the empty queue, then `10` and `20` are enqueued. The code keeps the waiter
nodes in a list of their own in order to serve the sleeping threads in order,
and the signals do go out in that order: `enqueue(10)` signals node `1` of
thread `1` and `enqueue(20)` signals node `2` of thread `2`. But no item is
kept for the thread that was signalled: in the schedule where thread `2`
reacquires the lock first, thread `2` (the later waiter) returns `10` and thread
`1` returns `20`, against the order of the waiters. -/
theorem waiter_fifo_counterexample :
    run false (start Mem.boot)
      [Action.dequeue 1, Action.dequeue 2, Action.enqueue 0 10, Action.enqueue 0 20,
       Action.resume 2, Action.resume 1] =
      some (after [Action.dequeue 1, Action.dequeue 2, Action.enqueue 0 10, Action.enqueue 0 20,
       Action.resume 2, Action.resume 1]) ∧
    (after [Action.dequeue 1, Action.dequeue 2, Action.enqueue 0 10, Action.enqueue 0 20,
       Action.resume 2, Action.resume 1]).log =
      [Event.parked 1 1, Event.parked 2 2, Event.enqueued 0 10 1, Event.enqueued 0 20 2,
       Event.resumed 2 2, Event.returned 2 10, Event.resumed 1 1, Event.returned 1 20] ∧
    returnedTo 1 (after [Action.dequeue 1, Action.dequeue 2, Action.enqueue 0 10,
       Action.enqueue 0 20, Action.resume 2, Action.resume 1]).log = [20] ∧
    returnedTo 2 (after [Action.dequeue 1, Action.dequeue 2, Action.enqueue 0 10,
       Action.enqueue 0 20, Action.resume 2, Action.resume 1]).log = [10] ∧
    returnedTo 1 (after [Action.dequeue 1, Action.dequeue 2, Action.enqueue 0 10,
       Action.enqueue 0 20, Action.resume 2, Action.resume 1]).log ≠ [10] :=
  ⟨run_after (by decide), by decide, by decide, by decide, by decide⟩

/-- The two schedules of two woken consumers, for all threads and payloads.
Consumers `c1` and then `c2` park on the empty queue, then `enqueue(X)` and
`enqueue(Y)` are run by a third thread. The signals are in waiter order:
`enqueue(X)` signals the node of `c1` and `enqueue(Y)` the node of `c2`. The
waiter order is kept only when `c1` reacquires the lock first (`c1` returns `X`
and `c2` returns `Y`); when `c2` reacquires it first, `c2` returns `X` and `c1`
returns `Y`, so the race for the lock undoes the order of the signals. -/
theorem waiter_wakeup_order (m : Mem) (c1 c2 p X Y : Nat)
    (h12 : c1 ≠ c2) (hp1 : p ≠ c1) (hp2 : p ≠ c2) :
    ∃ s4 cv1 cv2,
      run false (start m)
        [Action.dequeue c1, Action.dequeue c2, Action.enqueue p X, Action.enqueue p Y] =
        some s4 ∧
      s4.log = [Event.parked c1 cv1, Event.parked c2 cv2, Event.enqueued p X cv1,
                Event.enqueued p Y cv2] ∧
      cv1 ≠ cv2 ∧
      (∃ s, run false s4 [Action.resume c1, Action.resume c2] = some s ∧
        s.log = s4.log ++ [Event.resumed c1 cv1, Event.returned c1 X,
                           Event.resumed c2 cv2, Event.returned c2 Y] ∧
        returnedTo c1 s.log = [X] ∧ returnedTo c2 s.log = [Y]) ∧
      (∃ s, run false s4 [Action.resume c2, Action.resume c1] = some s ∧
        s.log = s4.log ++ [Event.resumed c2 cv2, Event.returned c2 X,
                           Event.resumed c1 cv1, Event.returned c1 Y] ∧
        returnedTo c2 s.log = [X] ∧ returnedTo c1 s.log = [Y]) := by
  have h21 : c2 ≠ c1 := fun h => h12 h.symm
  have hs0 : ItemStore (start m).mem [] := ⟨rfl, rfl, fun _ hc => by cases hc⟩
  have hr0 : Registry (start m).mem [] := ⟨rfl, rfl⟩
  obtain ⟨s1, hst1, hpc1, hlog1, hs1, hr1, _, _, _, _, _, hsg1⟩ :=
    sys_park false (start m) c1 [] rfl hs0 hr0
  have hq1 : s1.pc c2 = Pc.idle := by
    rw [hpc1]
    simp [setPc, h21, start]
  obtain ⟨s2, hst2, hpc2, hlog2, hs2, hr2, hnot2, _, _, _, hsig2, hsg2⟩ :=
    sys_park false s1 c2 [(start m).mem.fresh] hq1 hs1 hr1
  have hne : (start m).mem.fresh ≠ s1.mem.fresh := by
    intro he
    apply hnot2
    rw [← he]
    exact List.mem_singleton.mpr rfl
  have hpp : s2.pc p = Pc.idle := by
    rw [hpc2, hpc1]
    simp [setPc, hp1, hp2, start]
  have hpa : s2.pc c1 = Pc.waiting (start m).mem.fresh := by
    rw [hpc2, hpc1]
    simp [setPc, h12]
  have hpb : s2.pc c2 = Pc.waiting s1.mem.fresh := by
    rw [hpc2]
    simp [setPc]
  obtain ⟨s3, hst3, hpc3, hlog3, hs3, hr3, _, _, _, hsig3⟩ :=
    sys_enqueue false s2 p X [] [(start m).mem.fresh, s1.mem.fresh] hpp hs2 hr2
  obtain ⟨s4, hst4, hpc4, hlog4, hs4, _, _, _, _, hsig4⟩ :=
    sys_enqueue false s3 p Y _ [s1.mem.fresh] (by rw [hpc3]; exact hpp) hs3 hr3
  have hrun4 : run false (start m)
      [Action.dequeue c1, Action.dequeue c2, Action.enqueue p X, Action.enqueue p Y] =
      some s4 := by
    simp only [run, hst1, hst2, hst3, hst4]
  have hlogs : s4.log = [Event.parked c1 (start m).mem.fresh, Event.parked c2 s1.mem.fresh,
      Event.enqueued p X (start m).mem.fresh, Event.enqueued p Y s1.mem.fresh] := by
    rw [hlog4, hlog3, hlog2, hlog1]
    rfl
  have hsa : signalled s4.mem (start m).mem.fresh = true := by
    rw [hsig4, hsig3]
    simp
  have hsb : signalled s4.mem s1.mem.fresh = true := by
    rw [hsig4]
    simp
  have hp4a : s4.pc c1 = Pc.waiting (start m).mem.fresh := by
    rw [hpc4, hpc3]
    exact hpa
  have hp4b : s4.pc c2 = Pc.waiting s1.mem.fresh := by
    rw [hpc4, hpc3]
    exact hpb
  simp only [List.nil_append, List.cons_append] at hs4
  refine ⟨s4, (start m).mem.fresh, s1.mem.fresh, hrun4, hlogs, hne, ?_, ?_⟩
  · obtain ⟨s5, hst5, hpc5, hlog5, hs5, _, _, _, _, hsg5⟩ :=
      sys_resume_take s4 c1 _ _ X _ hp4a hsa hs4
    have hb5 : s5.pc c2 = Pc.waiting s1.mem.fresh := by
      rw [hpc5]
      simp only [setPc, if_neg h21]
      exact hp4b
    have hsb5 : signalled s5.mem s1.mem.fresh = true := by
      rw [hsg5 _ (fun he => hne he.symm)]
      exact hsb
    obtain ⟨s6, hst6, _, hlog6, _⟩ := sys_resume_take s5 c2 _ _ Y [] hb5 hsb5 hs5
    have hl : s6.log = s4.log ++ [Event.resumed c1 (start m).mem.fresh, Event.returned c1 X,
        Event.resumed c2 s1.mem.fresh, Event.returned c2 Y] := by
      rw [hlog6, hlog5]
      simp
    refine ⟨s6, by simp only [run, hst5, hst6], hl, ?_, ?_⟩
    · rw [hl, hlogs]
      simp [returnedTo, h21]
    · rw [hl, hlogs]
      simp [returnedTo, h12]
  · obtain ⟨s5, hst5, hpc5, hlog5, hs5, _, _, _, _, hsg5⟩ :=
      sys_resume_take s4 c2 _ _ X _ hp4b hsb hs4
    have ha5 : s5.pc c1 = Pc.waiting (start m).mem.fresh := by
      rw [hpc5]
      simp only [setPc, if_neg h12]
      exact hp4a
    have hsa5 : signalled s5.mem (start m).mem.fresh = true := by
      rw [hsg5 _ hne]
      exact hsa
    obtain ⟨s6, hst6, _, hlog6, _⟩ := sys_resume_take s5 c1 _ _ Y [] ha5 hsa5 hs5
    have hl : s6.log = s4.log ++ [Event.resumed c2 s1.mem.fresh, Event.returned c2 X,
        Event.resumed c1 (start m).mem.fresh, Event.returned c1 Y] := by
      rw [hlog6, hlog5]
      simp
    refine ⟨s6, by simp only [run, hst5, hst6], hl, ?_, ?_⟩
    · rw [hl, hlogs]
      simp [returnedTo, h12]
    · rw [hl, hlogs]
      simp [returnedTo, h21]

/-- The two schedules of two woken consumers, for consumers `1` and `2`,
producer `0` and payloads `10`, `20`. -/
theorem waiter_wakeup_order_witness :
    (1 : Nat) ≠ 2 ∧ (0 : Nat) ≠ 1 ∧ (0 : Nat) ≠ 2 ∧
    ∃ s4 cv1 cv2,
      run false (start Mem.boot)
        [Action.dequeue 1, Action.dequeue 2, Action.enqueue 0 10, Action.enqueue 0 20] =
        some s4 ∧
      s4.log = [Event.parked 1 cv1, Event.parked 2 cv2, Event.enqueued 0 10 cv1,
                Event.enqueued 0 20 cv2] ∧
      cv1 ≠ cv2 ∧
      (∃ s, run false s4 [Action.resume 1, Action.resume 2] = some s ∧
        s.log = s4.log ++ [Event.resumed 1 cv1, Event.returned 1 10,
                           Event.resumed 2 cv2, Event.returned 2 20] ∧
        returnedTo 1 s.log = [10] ∧ returnedTo 2 s.log = [20]) ∧
      (∃ s, run false s4 [Action.resume 2, Action.resume 1] = some s ∧
        s.log = s4.log ++ [Event.resumed 2 cv2, Event.returned 2 10,
                           Event.resumed 1 cv1, Event.returned 1 20] ∧
        returnedTo 2 s.log = [10] ∧ returnedTo 1 s.log = [20]) :=
  ⟨by decide, by decide, by decide,
   waiter_wakeup_order Mem.boot 1 2 0 10 20 (by decide) (by decide) (by decide)⟩

/-! ## Initialisation and the two ways of removing -/

/-- C18 (initQueue constructs an empty queue). Whatever the memory was before,
after `initQueue` the four list pointers are `NULL`, so the Item Store and the
Waiter Registry are the empty lists (and no other lists), `size()`,
`waiting()` and `visited()` are `0`, and a `tryDequeue` issued right away
returns `false` and changes nothing. -/
theorem initQueue_empty (m : Mem) (out : Nat) :
    (initQueue m).queue.front = NULL ∧ (initQueue m).queue.rear = NULL ∧
    (initQueue m).queue.cv_front = NULL ∧ (initQueue m).queue.cv_rear = NULL ∧
    ItemStore (initQueue m) [] ∧ Registry (initQueue m) [] ∧
    (∀ cells, ItemStore (initQueue m) cells → cells = []) ∧
    (∀ ws, Registry (initQueue m) ws → ws = []) ∧
    size (initQueue m) = 0 ∧ waiting (initQueue m) = 0 ∧ visited (initQueue m) = 0 ∧
    tryDequeue out (initQueue m) = some (false, out, initQueue m) := by
  have hs : ItemStore (initQueue m) [] := ⟨rfl, rfl, fun _ hc => by cases hc⟩
  have hr : Registry (initQueue m) [] := ⟨rfl, rfl⟩
  refine ⟨rfl, rfl, rfl, rfl, hs, hr, fun cells hc => ItemStore.unique hc hs, ?_, rfl, rfl, rfl,
    tryDequeue_null out _ rfl⟩
  intro ws hw
  exact Chain.det hw.1 hr.1

/-- An instance of C18: `initQueue` run on `Mem.sample`, which holds two items
and a waiter node. -/
theorem initQueue_empty_witness :
    ItemStore Mem.sample [(1, 7), (2, 8)] ∧ Registry Mem.sample [3] ∧
    ItemStore (initQueue Mem.sample) [] ∧ Registry (initQueue Mem.sample) [] ∧
    size (initQueue Mem.sample) = 0 ∧ waiting (initQueue Mem.sample) = 0 ∧
    visited (initQueue Mem.sample) = 0 ∧
    tryDequeue 5 (initQueue Mem.sample) = some (false, 5, initQueue Mem.sample) := by
  obtain ⟨_, _, _, _, h5, h6, _, _, h9, h10, h11, h12⟩ := initQueue_empty Mem.sample 5
  exact ⟨by decide, by decide, h5, h6, h9, h10, h11, h12⟩

/-- C20 (tryDequeue writes `*item` only on success). Whatever the memory and
the prior value `out` of `*item`: when the call returns `false`, `*item` is
still `out` (and for any other prior value it would be that value), the
memory is unchanged and `front` was `NULL`; when it returns `true`, `front` was
not `NULL` and `*item` is the payload of the removed front node, the same for
every prior value, so it has been assigned. -/
theorem tryDequeue_output (out : Nat) (m : Mem) (b : Bool) (o : Nat) (m2 : Mem)
    (h : tryDequeue out m = some (b, o, m2)) :
    (b = false → o = out ∧ m2 = m ∧ m.queue.front = NULL ∧
      ∀ v, tryDequeue v m = some (false, v, m)) ∧
    (b = true → m.queue.front ≠ NULL ∧ remove_front m = some (m2, o) ∧
      ∀ v, tryDequeue v m = some (true, o, m2)) := by
  by_cases hf : m.queue.front = NULL
  · rw [tryDequeue_null out m hf] at h
    simp only [Option.some.injEq, Prod.mk.injEq] at h
    obtain ⟨hb, ho, hm⟩ := h
    subst hb
    subst ho
    subst hm
    exact ⟨fun _ => ⟨rfl, rfl, hf, fun v => tryDequeue_null v m hf⟩, fun hb => by cases hb⟩
  · cases hrem : remove_front m with
    | none => simp [tryDequeue, hf, hrem] at h
    | some res =>
      obtain ⟨m1, x⟩ := res
      simp only [tryDequeue, hf, if_false, hrem, Option.some.injEq, Prod.mk.injEq] at h
      obtain ⟨hb, ho, hm⟩ := h
      subst hb
      subst ho
      subst hm
      refine ⟨fun hb => (by cases hb), fun _ => ⟨hf, rfl, fun v => ?_⟩⟩
      simp only [tryDequeue, hf, if_false, hrem]

/-- Two instances of C20: a failed call on the empty queue leaves the prior
value `5` in `*item`; a successful call on `Mem.sample` overwrites it with the
front payload `7`. -/
theorem tryDequeue_output_witness :
    tryDequeue 5 (initQueue Mem.boot) = some (false, 5, initQueue Mem.boot) ∧
    (∀ v, tryDequeue v (initQueue Mem.boot) = some (false, v, initQueue Mem.boot)) ∧
    ∃ m2, tryDequeue 5 Mem.sample = some (true, 7, m2) ∧
      ∀ v, tryDequeue v Mem.sample = some (true, 7, m2) := by
  have h1 : tryDequeue 5 (initQueue Mem.boot) = some (false, 5, initQueue Mem.boot) := by decide
  obtain ⟨m2, h2, _⟩ := tryDequeue_take 5 Mem.sample 1 7 [(2, 8)] (by decide)
  exact ⟨h1, ((tryDequeue_output 5 _ false 5 _ h1).1 rfl).2.2.2, m2, h2,
    ((tryDequeue_output 5 _ true 7 _ h2).2 rfl).2.2⟩

/-- C15 (dequeue and tryDequeue agree on a non-empty queue). In a state whose
Item Store is the non-empty list `(a, x) :: cells`, a `dequeue` call of an idle
thread does not park and returns `x`, `tryDequeue` returns `true` with
`*item == x`, and both leave one and the same memory `m2` (hence the same Item
Store `cells`, Waiter Registry and counters); as atomic steps both leave every
program counter as it was and differ only in the kind of event recorded. -/
theorem dequeue_tryDequeue_agree (sp : Bool) (s : Sys) (t out a x : Nat)
    (cells : List (Nat × Nat)) (hpc : s.pc t = Pc.idle)
    (hs : ItemStore s.mem ((a, x) :: cells)) :
    ∃ m2, dequeue s.mem = some (m2, DequeueStep.returned x) ∧
      tryDequeue out s.mem = some (true, x, m2) ∧
      remove_front s.mem = some (m2, x) ∧
      ItemStore m2 cells ∧
      step sp s (Action.dequeue t) =
        some { mem := m2, pc := setPc s.pc t Pc.idle,
               log := s.log ++ [Event.returned t x] } ∧
      step sp s (Action.tryDequeue t out) =
        some { mem := m2, pc := s.pc, log := s.log ++ [Event.tryOk t x] } ∧
      setPc s.pc t Pc.idle = s.pc := by
  obtain ⟨m2, h2, hs2, _, _⟩ := remove_front_spec s.mem a x cells hs
  have hf : s.mem.queue.front ≠ NULL := fun h0 => by
    have := (ItemStore.front_null_iff hs).mp h0
    cases this
  have hd : dequeue s.mem = some (m2, DequeueStep.returned x) := by
    unfold dequeue dequeue_loop
    rw [if_neg hf, h2]
  have ht : tryDequeue out s.mem = some (true, x, m2) := by
    unfold tryDequeue
    rw [if_neg hf, h2]
  refine ⟨m2, hd, ht, h2, hs2, ?_, ?_, ?_⟩
  · simp only [step, hpc, hd]
    rfl
  · simp only [step, hpc, ht]
  · funext u
    unfold setPc
    split
    · rename_i hu
      rw [hu, hpc]
    · rfl

/-- An instance of C15 on `Sys.sample` (items `7`, `8`): both calls return `7`
and leave the same memory. -/
theorem dequeue_tryDequeue_agree_witness :
    Sys.sample.pc 0 = Pc.idle ∧ ItemStore Sys.sample.mem [(1, 7), (2, 8)] ∧
    ∃ m2, dequeue Sys.sample.mem = some (m2, DequeueStep.returned 7) ∧
      tryDequeue 0 Sys.sample.mem = some (true, 7, m2) ∧ ItemStore m2 [(2, 8)] := by
  obtain ⟨m2, h1, h2, _, h4, _⟩ :=
    dequeue_tryDequeue_agree false Sys.sample 0 0 1 7 [(2, 8)] (by decide) (by decide)
  exact ⟨by decide, by decide, m2, h1, h2, h4⟩

/-! ## Waiting on the empty queue -/

/-- The continuation of `dequeue` after `cnd_wait` when no item is stored and
the caller's node is live and no longer linked: the node is freed,
`waitingCount` is decremented, and the caller registers again with a node
from a new `malloc`. -/
theorem dequeue_resume_park (m : Mem) (cv : Nat) (ws : List Nat)
    (hlive : (Heap.read m.cvs cv).isSome = true) (hnot : cv ∉ ws)
    (hs : ItemStore m []) (hr : Registry m ws) :
    ∃ m1 m2, dequeue_wakeup cv m = some m1 ∧
      m1.queue.waitingCount = decr m.queue.waitingCount ∧
      Heap.read m1.cvs m1.fresh = none ∧
      dequeue_resume cv m = some (m2, DequeueStep.parked m1.fresh) ∧
      ItemStore m2 [] ∧ Registry m2 (ws ++ [m1.fresh]) ∧
      m2.queue.waitingCount = incr (decr m.queue.waitingCount) ∧
      m2.queue.size = m.queue.size ∧ m2.queue.visitedCount = m.queue.visitedCount := by
  obtain ⟨c, hc⟩ := Option.isSome_iff_exists.mp hlive
  have hw0 : ∃ m1, dequeue_wakeup cv m = some m1 := by
    unfold dequeue_wakeup
    rw [hc]
    exact ⟨_, rfl⟩
  obtain ⟨m1, hw⟩ := hw0
  obtain ⟨hn, _, _, hq⟩ := dequeue_wakeup_frame hw
  have hs1 : ItemStore m1 [] := ItemStore.transfer hs hn (by rw [hq]) (by rw [hq])
  have hr1 : Registry m1 ws := dequeue_wakeup_spec hw hr hnot
  obtain ⟨m2, h2, hs2, hr2, _, hsz, hv, hwc, _, _⟩ := dequeue_loop_park m1 ws hs1 hr1
  refine ⟨m1, m2, hw, by rw [hq], Mem.cvs_fresh m1, ?_, hs2, hr2, ?_, ?_, ?_⟩
  · unfold dequeue_resume
    rw [hw]
    exact h2
  · rw [hwc, hq]
  · rw [hsz, hq]
  · rw [hv, hq]

/-- C16 (dequeue on an empty queue). With an empty Item Store and registry
`ws`, a `dequeue` call of an idle thread `t` returns nothing at that step: `t`
parks on the node at `fresh`, an address that was not live before; the
registry becomes `ws` followed by that node, `++` is applied to `waitingCount`
(an increase by exactly one unless the `size_t` wraps), and the node heap,
`front`, `rear`, `size` and `visitedCount` are unchanged. When `t` later resumes
after its node `cv` has been signalled and detached, the step first frees the
node and applies `--` to `waitingCount`, then re-checks the Item Store: if it is
empty, `t` parks again on a node from a new `malloc` appended at the rear (and
`++` is applied again); otherwise the front payload is removed and returned and
the registry is unchanged. -/
theorem dequeue_empty_parks (sp : Bool) (s : Sys) (t : Nat) (ws : List Nat)
    (hpc : s.pc t = Pc.idle) (hs : ItemStore s.mem []) (hr : Registry s.mem ws) :
    (∃ s2, step sp s (Action.dequeue t) = some s2 ∧
      s2.pc = setPc s.pc t (Pc.waiting s.mem.fresh) ∧
      s2.log = s.log ++ [Event.parked t s.mem.fresh] ∧
      Heap.read s.mem.cvs s.mem.fresh = none ∧ s.mem.fresh ∉ ws ∧
      Registry s2.mem (ws ++ [s.mem.fresh]) ∧ signalled s2.mem s.mem.fresh = false ∧
      waiting s2.mem = incr (waiting s.mem) ∧
      (waiting s.mem + 1 < SIZE_MOD → waiting s2.mem = waiting s.mem + 1) ∧
      ItemStore s2.mem [] ∧ s2.mem.nodes = s.mem.nodes ∧
      s2.mem.queue.front = s.mem.queue.front ∧ s2.mem.queue.rear = s.mem.queue.rear ∧
      size s2.mem = size s.mem ∧ visited s2.mem = visited s.mem) ∧
    (∀ (r : Sys) (cv : Nat) (cells3 : List (Nat × Nat)) (ws3 : List Nat),
      r.pc t = Pc.waiting cv → signalled r.mem cv = true → cv ∉ ws3 →
      ItemStore r.mem cells3 → Registry r.mem ws3 →
      ∃ m1 r2, dequeue_wakeup cv r.mem = some m1 ∧
        waiting m1 = decr (waiting r.mem) ∧ Heap.read m1.cvs cv = none ∧
        step false r (Action.resume t) = some r2 ∧
        (cells3 = [] →
          r2.pc = setPc r.pc t (Pc.waiting m1.fresh) ∧
          r2.log = r.log ++ [Event.resumed t cv, Event.parked t m1.fresh] ∧
          Heap.read m1.cvs m1.fresh = none ∧
          Registry r2.mem (ws3 ++ [m1.fresh]) ∧ ItemStore r2.mem [] ∧
          waiting r2.mem = incr (decr (waiting r.mem))) ∧
        (∀ a x rest, cells3 = (a, x) :: rest →
          r2.pc = setPc r.pc t Pc.idle ∧
          r2.log = r.log ++ [Event.resumed t cv, Event.returned t x] ∧
          ItemStore r2.mem rest ∧ Registry r2.mem ws3 ∧
          waiting r2.mem = decr (waiting r.mem))) := by
  constructor
  · obtain ⟨s2, h2, hpc2, hlog2, hs2, hr2, hnot, hsz, hv, hw, _, hsg⟩ :=
      sys_park sp s t ws hpc hs hr
    have hf : s.mem.queue.front = NULL := (ItemStore.front_null_iff hs).mpr rfl
    have hframe : s2.mem.nodes = s.mem.nodes ∧ s2.mem.queue.front = s.mem.queue.front ∧
        s2.mem.queue.rear = s.mem.queue.rear := by
      cases hreg : dequeue_register s.mem with
      | none => simp [step, hpc, dequeue, dequeue_loop, hf, hreg] at h2
      | some res =>
        obtain ⟨m2, cv⟩ := res
        simp only [step, hpc, dequeue, dequeue_loop, hf, if_true, hreg, Option.some.injEq] at h2
        subst h2
        obtain ⟨_, hn, hq⟩ := dequeue_register_frame hreg
        refine ⟨hn, ?_, ?_⟩
        · show m2.queue.front = _
          rw [hq]
        · show m2.queue.rear = _
          rw [hq]
    refine ⟨s2, h2, hpc2, hlog2, Mem.cvs_fresh _, hnot, hr2, hsg, hw, ?_, hs2, hframe.1,
      hframe.2.1, hframe.2.2, hsz, hv⟩
    intro hlt
    show s2.mem.queue.waitingCount = _
    rw [hw]
    exact incr_exact hlt
  · intro r cv cells3 ws3 hpr hsig hnot hs3 hr3
    have hlive := signalled_live hsig
    obtain ⟨c, hc⟩ := Option.isSome_iff_exists.mp hlive
    have hw0 : ∃ m1, dequeue_wakeup cv r.mem = some m1 := by
      unfold dequeue_wakeup
      rw [hc]
      exact ⟨_, rfl⟩
    obtain ⟨m1, hw⟩ := hw0
    obtain ⟨_, hcvs, _, hq⟩ := dequeue_wakeup_frame hw
    have hdead : Heap.read m1.cvs cv = none := by
      rw [hcvs, Heap.read_free, if_pos rfl]
    have hwc1 : waiting m1 = decr (waiting r.mem) := by
      unfold waiting
      rw [hq]
    cases cells3 with
    | nil =>
      obtain ⟨m1b, m2, hwb, _, hfr, hres, hs2, hr2, hwc, _, _⟩ :=
        dequeue_resume_park r.mem cv ws3 hlive hnot hs3 hr3
      rw [hw] at hwb
      simp only [Option.some.injEq] at hwb
      subst hwb
      refine ⟨m1, { mem := m2, pc := setPc r.pc t (Pc.waiting m1.fresh),
                    log := r.log ++ ([Event.resumed t cv] ++ [Event.parked t m1.fresh]) },
        hw, hwc1, hdead, ?_, ?_, ?_⟩
      · simp only [step, hpr, hsig, Bool.or_true, Bool.false_or, if_true, hres]
        rfl
      · intro _
        exact ⟨rfl, rfl, hfr, hr2, hs2, hwc⟩
      · intro a x rest he
        cases he
    | cons c3 rest3 =>
      obtain ⟨a3, x3⟩ := c3
      obtain ⟨m2, hres, hs2, _, _, hwc, hreg, _⟩ :=
        dequeue_resume_take r.mem cv a3 x3 rest3 hlive hs3
      refine ⟨m1, { mem := m2, pc := setPc r.pc t Pc.idle,
                    log := r.log ++ ([Event.resumed t cv] ++ [Event.returned t x3]) },
        hw, hwc1, hdead, ?_, ?_, ?_⟩
      · simp only [step, hpr, hsig, Bool.or_true, Bool.false_or, if_true, hres]
        rfl
      · intro he
        cases he
      · intro a x rest he
        simp only [List.cons.injEq, Prod.mk.injEq] at he
        obtain ⟨⟨_, hx⟩, hrest⟩ := he
        subst hx
        subst hrest
        exact ⟨rfl, rfl, hs2, hreg ws3 hnot hr3, hwc⟩

/-- An instance of C16: thread `1` is parked on node `1`; thread `2` calls
`dequeue` on the empty queue and parks on a new node behind it. After two
enqueues have signalled both nodes and thread `1` has taken the first payload,
the resumption of thread `2` returns the second payload. -/
theorem dequeue_empty_parks_witness :
    (after [Action.dequeue 1]).pc 2 = Pc.idle ∧
    ItemStore (after [Action.dequeue 1]).mem [] ∧
    Registry (after [Action.dequeue 1]).mem [1] ∧
    (∃ s2, step false (after [Action.dequeue 1]) (Action.dequeue 2) = some s2 ∧
      s2.log = (after [Action.dequeue 1]).log ++ [Event.parked 2 2] ∧
      Registry s2.mem [1, 2] ∧ waiting s2.mem = 2 ∧ size s2.mem = 0) ∧
    (∃ r2, step false
        (after [Action.dequeue 1, Action.dequeue 2, Action.enqueue 0 10, Action.enqueue 0 20,
                Action.resume 1]) (Action.resume 2) = some r2 ∧
      r2.pc 2 = Pc.idle ∧
      r2.log = (after [Action.dequeue 1, Action.dequeue 2, Action.enqueue 0 10,
                Action.enqueue 0 20, Action.resume 1]).log ++
               [Event.resumed 2 2, Event.returned 2 20]) := by
  obtain ⟨⟨s2, h1, _, hlog, _, _, hreg, _, hw, _, _, _, _, _, hsz, _⟩, hres⟩ :=
    dequeue_empty_parks false (after [Action.dequeue 1]) 2 [1]
      (by decide) (by decide) (by decide)
  obtain ⟨m1, r2, _, _, _, hst, _, htake⟩ :=
    hres (after [Action.dequeue 1, Action.dequeue 2, Action.enqueue 0 10, Action.enqueue 0 20,
                Action.resume 1]) 2 [(4, 20)] [] (by decide) (by decide) (by decide)
      (by decide) (by decide)
  obtain ⟨hpc2, hlog2, _⟩ := htake 4 20 [] rfl
  refine ⟨by decide, by decide, by decide, ⟨s2, h1, hlog, hreg, ?_, ?_⟩, r2, hst, ?_, hlog2⟩
  · rw [hw]
    decide
  · rw [hsz]
    decide
  · rw [hpc2]
    simp [setPc]

/-! ## Destruction -/

theorem Heap.length_free_lt {α : Type} (h : Heap α) (a : Nat) (v : α)
    (hr : Heap.read h a = some v) : (Heap.free h a).length < h.length := by
  induction h with
  | nil => cases hr
  | cons e h ih =>
    obtain ⟨k, w⟩ := e
    unfold Heap.free at ih ⊢
    by_cases hk : k = a
    · have hle := List.length_filter_le (fun e : Nat × α => decide (e.1 ≠ a)) h
      simp only [ne_eq] at hle
      simp only [List.filter, ne_eq, hk, not_true_eq_false, decide_False, List.length_cons]
      omega
    · have hr2 : Heap.read h a = some v := by
        simp only [Heap.read] at hr
        rw [if_neg (fun he => hk he.symm)] at hr
        exact hr
      have := ih hr2
      simp only [ne_eq] at this
      simp only [List.filter, ne_eq, hk, not_false_eq_true, decide_True, List.length_cons]
      omega

/-- Distinct live addresses are at most as many as the bindings of the heap. -/
theorem Heap.live_length_le {α : Type} (as : List Nat) (h : Heap α) (hnd : as.Nodup)
    (hlive : ∀ a ∈ as, (Heap.read h a).isSome = true) : as.length ≤ h.length := by
  induction as generalizing h with
  | nil => exact Nat.zero_le _
  | cons a rest ih =>
    obtain ⟨v, hv⟩ := Option.isSome_iff_exists.mp (hlive a (List.mem_cons_self _ _))
    have hlt := Heap.length_free_lt h a v hv
    have hnd2 := List.nodup_cons.mp hnd
    have := ih (Heap.free h a) hnd2.2 (fun b hb => by
      have hba : b ≠ a := fun he => hnd2.1 (he ▸ hb)
      rw [Heap.read_free, if_neg hba]
      exact hlive b (List.mem_cons_of_mem _ hb))
    simp only [List.length_cons]
    omega

/-- More iterations than the heap has bindings change nothing: the bound used
by `destroyQueue` never cuts a loop short. -/
theorem free_all_fuel {α : Type} (next : α → Nat) (fuel : Nat) (h : Heap α) (p : Nat)
    (hle : h.length ≤ fuel) : free_all next (fuel + 1) h p = free_all next fuel h p := by
  induction fuel generalizing h p with
  | zero =>
    have hnil : h = [] := List.eq_nil_of_length_eq_zero (Nat.le_zero.mp hle)
    subst hnil
    simp only [free_all, Heap.read]
  | succ f ih =>
    rw [free_all]
    conv => rhs; rw [free_all]
    by_cases hp : p = NULL
    · rw [if_pos hp, if_pos hp]
    · rw [if_neg hp, if_neg hp]
      cases hr : Heap.read h p with
      | none => rfl
      | some node =>
        have hlt := Heap.length_free_lt h p node hr
        exact ih (Heap.free h p) (next node) (by omega)

/-- Running the loop on a well-formed chain frees exactly the nodes of the
chain. -/
theorem free_all_chain {α : Type} (next : α → Nat) (as : List Nat) (fuel : Nat) (h : Heap α)
    (p : Nat) (hch : Chain (fun a => (Heap.read h a).map next) p as)
    (hfuel : as.length ≤ fuel) :
    ∃ h2, free_all next fuel h p = some h2 ∧
      ∀ b, Heap.read h2 b = if b ∈ as then none else Heap.read h b := by
  induction as generalizing fuel h p with
  | nil =>
    have hp : p = NULL := hch
    refine ⟨h, ?_, fun b => by simp⟩
    cases fuel with
    | zero => simp only [free_all, hp, if_true]
    | succ f => simp only [free_all, hp, if_true]
  | cons a rest ih =>
    have hnd := Chain.nodup hch
    rw [Chain.cons_iff] at hch
    obtain ⟨hpa, ha0, hlive, hrest⟩ := hch
    cases fuel with
    | zero => simp at hfuel
    | succ f =>
      cases hr : Heap.read h a with
      | none => simp [hr] at hlive
      | some node =>
        simp only [hr, Option.map_some', Option.getD_some] at hrest
        have hnot : a ∉ rest := (List.nodup_cons.mp hnd).1
        have hch2 : Chain (fun b => (Heap.read (Heap.free h a) b).map next) (next node) rest := by
          refine Chain.agree (fun b hb => ?_) hrest
          have hba : b ≠ a := fun he => hnot (he ▸ hb)
          simp only [Heap.read_free, if_neg hba]
        obtain ⟨h2, hrun, hread⟩ := ih f (Heap.free h a) (next node) hch2
          (by simp only [List.length_cons] at hfuel; omega)
        refine ⟨h2, ?_, fun b => ?_⟩
        · rw [free_all, hpa, if_neg ha0, hr]
          exact hrun
        · rw [hread b, Heap.read_free]
          by_cases hba : b = a
          · simp [hba]
          · simp [hba]

/-- The function `destroyQueue` on a memory whose two lists are well formed:
it is defined, every linked node of either list is freed and no other node is,
and all four list pointers and `size` are reset. -/
theorem destroyQueue_spec (m : Mem) (cells : List (Nat × Nat)) (ws : List Nat)
    (hs : ItemStore m cells) (hr : Registry m ws) :
    ∃ m2, destroyQueue m = some m2 ∧
      m2.queue = { m.queue with front := NULL, rear := NULL, size := 0,
                                cv_front := NULL, cv_rear := NULL } ∧
      (∀ b, Heap.read m2.nodes b =
        if b ∈ cells.map Prod.fst then none else Heap.read m.nodes b) ∧
      (∀ b, Heap.read m2.cvs b = if b ∈ ws then none else Heap.read m.cvs b) := by
  have hl1 : (cells.map Prod.fst).length ≤ m.nodes.length :=
    Heap.live_length_le _ _ (Chain.nodup hs.1) (fun a ha => by
      have := Chain.live hs.1 a ha
      rwa [itemNext_isSome] at this)
  have hl2 : ws.length ≤ m.cvs.length :=
    Heap.live_length_le _ _ (Chain.nodup hr.1) (fun a ha => by
      have := Chain.live hr.1 a ha
      rwa [cvNext_isSome] at this)
  obtain ⟨n2, hn2, hread1⟩ := free_all_chain (fun n : QueueNode => n.next) _ m.nodes.length
    m.nodes m.queue.front hs.1 hl1
  obtain ⟨c2, hc2, hread2⟩ := free_all_chain (fun c : ConditionVariables => c.next) _
    m.cvs.length m.cvs m.queue.cv_front hr.1 hl2
  unfold destroyQueue
  rw [hn2, hc2]
  exact ⟨_, rfl, rfl, hread1, hread2⟩

/-- C17 (destroyQueue drains both lists). On every memory whose Item Store
is `cells` and whose Waiter Registry is `ws`, whatever their lengths,
`destroyQueue` is defined; afterwards `front`, `rear`, `cv_front` and `cv_rear`
are `NULL`, `size` is `0`, both lists are empty, every node that was linked in
either list has been freed and no other node has, and `visitedCount` and
`waitingCount` are what they were. -/
theorem destroyQueue_drains (m : Mem) (cells : List (Nat × Nat)) (ws : List Nat)
    (hs : ItemStore m cells) (hr : Registry m ws) :
    ∃ m2, destroyQueue m = some m2 ∧
      m2.queue.front = NULL ∧ m2.queue.rear = NULL ∧ size m2 = 0 ∧
      m2.queue.cv_front = NULL ∧ m2.queue.cv_rear = NULL ∧
      ItemStore m2 [] ∧ Registry m2 [] ∧
      (∀ c ∈ cells, Heap.read m2.nodes c.1 = none) ∧
      (∀ w ∈ ws, Heap.read m2.cvs w = none) ∧
      (∀ b, b ∉ cells.map Prod.fst → Heap.read m2.nodes b = Heap.read m.nodes b) ∧
      (∀ b, b ∉ ws → Heap.read m2.cvs b = Heap.read m.cvs b) ∧
      visited m2 = visited m ∧ waiting m2 = waiting m := by
  obtain ⟨m2, h2, hq, hn, hc⟩ := destroyQueue_spec m cells ws hs hr
  have hf : m2.queue.front = NULL := by rw [hq]
  have hre : m2.queue.rear = NULL := by rw [hq]
  have hcf : m2.queue.cv_front = NULL := by rw [hq]
  have hcr : m2.queue.cv_rear = NULL := by rw [hq]
  refine ⟨m2, h2, hf, hre, ?_, hcf, hcr, ⟨hf, hre, fun _ hc => by cases hc⟩, ⟨hcf, hcr⟩,
    ?_, ?_, ?_, ?_, ?_, ?_⟩
  · unfold size
    rw [hq]
  · intro c hcm
    rw [hn, if_pos (List.mem_map_of_mem Prod.fst hcm)]
  · intro w hw
    rw [hc, if_pos hw]
  · intro b hb
    rw [hn, if_neg hb]
  · intro b hb
    rw [hc, if_neg hb]
  · unfold visited
    rw [hq]
  · unfold waiting
    rw [hq]

/-- An instance of C17 on `Mem.sample` (two items, one waiter node). -/
theorem destroyQueue_drains_witness :
    ItemStore Mem.sample [(1, 7), (2, 8)] ∧ Registry Mem.sample [3] ∧
    ∃ m2, destroyQueue Mem.sample = some m2 ∧
      m2.queue.front = NULL ∧ m2.queue.rear = NULL ∧ size m2 = 0 ∧
      m2.queue.cv_front = NULL ∧ m2.queue.cv_rear = NULL ∧
      Heap.read m2.nodes 1 = none ∧ Heap.read m2.nodes 2 = none ∧
      Heap.read m2.cvs 3 = none := by
  obtain ⟨m2, h1, h2, h3, h4, h5, h6, _, _, h9, h10, _⟩ :=
    destroyQueue_drains Mem.sample [(1, 7), (2, 8)] [3] (by decide) (by decide)
  exact ⟨by decide, by decide, m2, h1, h2, h3, h4, h5, h6, h9 (1, 7) (by decide),
    h9 (2, 8) (by decide), h10 3 (by decide)⟩

/-! ## The representation invariant of the Item Store -/

theorem repInv_enqueue {m m2 : Mem} {item w : Nat} (hi : RepInv m)
    (h : enqueue item m = some (m2, w)) : RepInv m2 := by
  obtain ⟨cells, hs, hsz⟩ := hi
  obtain ⟨hs2, hsz2, _, _⟩ := enqueue_items hs h
  refine ⟨_, hs2, ?_⟩
  rw [hsz2, hsz, List.length_append, List.length_singleton]
  exact incr_mod _

theorem repInv_tryDequeue {m m2 : Mem} {out o : Nat} {b : Bool} (hi : RepInv m)
    (h : tryDequeue out m = some (b, o, m2)) : RepInv m2 := by
  obtain ⟨cells, hs, hsz⟩ := hi
  cases cells with
  | nil =>
    have hf : m.queue.front = NULL := (ItemStore.front_null_iff hs).mpr rfl
    rw [tryDequeue_null out m hf] at h
    simp only [Option.some.injEq, Prod.mk.injEq] at h
    obtain ⟨_, _, hm⟩ := h
    subst hm
    exact ⟨[], hs, hsz⟩
  | cons c rest =>
    obtain ⟨a, x⟩ := c
    obtain ⟨m3, h3, hs3, _, hq3⟩ := tryDequeue_take out m a x rest hs
    rw [h3] at h
    simp only [Option.some.injEq, Prod.mk.injEq] at h
    obtain ⟨_, _, hm⟩ := h
    subst hm
    refine ⟨rest, hs3, ?_⟩
    rw [hq3]
    show decr m.queue.size = _
    rw [hsz]
    exact decr_succ_mod _

theorem repInv_loop {m m2 : Mem} {r : DequeueStep} (hi : RepInv m)
    (h : dequeue_loop m = some (m2, r)) : RepInv m2 := by
  obtain ⟨cells, hs, hsz⟩ := hi
  cases cells with
  | nil =>
    obtain ⟨_, hs2, hsz2, _, _⟩ := dequeue_loop_empty hs h
    exact ⟨[], hs2, by rw [hsz2, hsz]⟩
  | cons c rest =>
    obtain ⟨a, x⟩ := c
    obtain ⟨m3, h3, hs3, _, hq3⟩ := dequeue_loop_take m a x rest hs
    rw [h3] at h
    simp only [Option.some.injEq, Prod.mk.injEq] at h
    obtain ⟨hm, _⟩ := h
    subst hm
    refine ⟨rest, hs3, ?_⟩
    rw [hq3]
    show decr m.queue.size = _
    rw [hsz]
    exact decr_succ_mod _

theorem repInv_resume {m m2 : Mem} {cv : Nat} {r : DequeueStep} (hi : RepInv m)
    (h : dequeue_resume cv m = some (m2, r)) : RepInv m2 := by
  obtain ⟨cells, hs, hsz⟩ := hi
  unfold dequeue_resume at h
  cases hw : dequeue_wakeup cv m with
  | none => simp [hw] at h
  | some m1 =>
    simp only [hw] at h
    obtain ⟨hn, _, _, hq⟩ := dequeue_wakeup_frame hw
    have hs1 : ItemStore m1 cells := ItemStore.transfer hs hn (by rw [hq]) (by rw [hq])
    exact repInv_loop ⟨cells, hs1, by rw [hq]; exact hsz⟩ h

/-- After `destroyQueue` the invariant holds, whatever the memory was. -/
theorem repInv_destroy {m m2 : Mem} (h : destroyQueue m = some m2) : RepInv m2 := by
  unfold destroyQueue at h
  split at h
  · cases h
  · split at h
    · cases h
    · simp only [Option.some.injEq] at h
      subst h
      exact ⟨[], ⟨rfl, rfl, fun _ hc => by cases hc⟩, rfl⟩

/-- Every atomic step keeps the representation invariant, with or without
spurious wake-ups. -/
theorem step_repInv {sp : Bool} {s s2 : Sys} {a : Action} (hi : RepInv s.mem)
    (h : step sp s a = some s2) : RepInv s2.mem := by
  cases a with
  | enqueue t item =>
    cases hpc : s.pc t with
    | waiting cv => simp [step, hpc] at h
    | idle =>
      cases he : enqueue item s.mem with
      | none => simp [step, hpc, he] at h
      | some r =>
        obtain ⟨m2, w⟩ := r
        simp only [step, hpc, he, Option.some.injEq] at h
        subst h
        exact repInv_enqueue hi he
  | tryDequeue t out =>
    cases hpc : s.pc t with
    | waiting cv => simp [step, hpc] at h
    | idle =>
      cases ht : tryDequeue out s.mem with
      | none => simp [step, hpc, ht] at h
      | some r =>
        obtain ⟨b, o, m2⟩ := r
        have hm2 := repInv_tryDequeue hi ht
        cases b with
        | true =>
          simp only [step, hpc, ht, Option.some.injEq] at h
          subst h
          exact hm2
        | false =>
          simp only [step, hpc, ht, Option.some.injEq] at h
          subst h
          exact hm2
  | dequeue t =>
    cases hpc : s.pc t with
    | waiting cv => simp [step, hpc] at h
    | idle =>
      cases hd : dequeue s.mem with
      | none => simp [step, hpc, hd] at h
      | some r =>
        obtain ⟨m2, res⟩ := r
        simp only [step, hpc, hd, Option.some.injEq] at h
        subst h
        have := repInv_loop hi hd
        cases res <;> exact this
  | resume t =>
    cases hpc : s.pc t with
    | idle => simp [step, hpc] at h
    | waiting cv =>
      simp only [step, hpc] at h
      split at h
      · cases hd : dequeue_resume cv s.mem with
        | none => simp [hd] at h
        | some r =>
          obtain ⟨m2, res⟩ := r
          simp only [hd, Option.some.injEq] at h
          subst h
          have := repInv_resume hi hd
          cases res <;> exact this
      · cases h

/-- Every atomic step and every call of `destroyQueue` keeps the
representation invariant. -/
theorem stepCall_repInv {sp : Bool} {g g2 : Guarded} {c : Call} (hi : RepInv g.sys.mem)
    (h : stepCall sp g c = some g2) : RepInv g2.sys.mem := by
  cases hl : g.lockLive with
  | false => cases c <;> simp [stepCall, hl] at h
  | true =>
    cases c with
    | destroy t =>
      cases hpc : g.sys.pc t with
      | waiting cv => simp [stepCall, hl, hpc] at h
      | idle =>
        cases hd : destroyQueue g.sys.mem with
        | none => simp [stepCall, hl, hpc, hd] at h
        | some m =>
          simp only [stepCall, hl, hpc, hd, if_true, Option.some.injEq] at h
          subst h
          exact repInv_destroy hd
    | op a =>
      cases hst : step sp g.sys a with
      | none => simp [stepCall, hl, hst] at h
      | some s1 =>
        simp only [stepCall, hl, hst, if_true, Option.some.injEq] at h
        subst h
        exact step_repInv hi hst

/-- After `destroyQueue` has destroyed the mutex, no call is defined. -/
theorem stepCall_destroyed (sp : Bool) (g : Guarded) (c : Call) (hl : g.lockLive = false) :
    stepCall sp g c = none := by
  cases c <;> simp [stepCall, hl]

/-- A call of `destroyQueue` is the only call that ends the life of the mutex,
and it leaves the queue empty. -/
theorem stepCall_lock {sp : Bool} {g g2 : Guarded} {c : Call}
    (h : stepCall sp g c = some g2) :
    g.lockLive = true ∧
    (g2.lockLive = false → (∃ t, c = Call.destroy t) ∧ g2.sys.mem.queue.front = NULL ∧
      g2.sys.mem.queue.rear = NULL ∧ g2.sys.mem.queue.size = 0) := by
  cases hl : g.lockLive with
  | false => rw [stepCall_destroyed sp g c hl] at h; cases h
  | true =>
    refine ⟨rfl, ?_⟩
    cases c with
    | op a =>
      cases hst : step sp g.sys a with
      | none => simp [stepCall, hl, hst] at h
      | some s1 =>
        simp only [stepCall, hl, hst, if_true, Option.some.injEq] at h
        subst h
        intro hf
        cases hf
    | destroy t =>
      cases hpc : g.sys.pc t with
      | waiting cv => simp [stepCall, hl, hpc] at h
      | idle =>
        cases hd : destroyQueue g.sys.mem with
        | none => simp [stepCall, hl, hpc, hd] at h
        | some m =>
          simp only [stepCall, hl, hpc, hd, if_true, Option.some.injEq] at h
          subst h
          intro _
          refine ⟨⟨t, rfl⟩, ?_⟩
          unfold destroyQueue at hd
          split at hd
          · cases hd
          · split at hd
            · cases hd
            · simp only [Option.some.injEq] at hd
              subst hd
              exact ⟨rfl, rfl, rfl⟩

theorem runCalls_repInv {sp : Bool} {calls : List Call} {g g2 : Guarded}
    (hi : RepInv g.sys.mem) (h : runCalls sp g calls = some g2) : RepInv g2.sys.mem := by
  induction calls generalizing g with
  | nil =>
    simp only [runCalls, Option.some.injEq] at h
    subst h
    exact hi
  | cons c rest ih =>
    simp only [runCalls] at h
    cases hst : stepCall sp g c with
    | none => simp [hst] at h
    | some g1 =>
      simp only [hst] at h
      exact ih (stepCall_repInv hi hst) h

/-- In a run of calls a destroyed mutex means that the last call was
`destroyQueue`: the queue is empty. -/
theorem runCalls_lock {sp : Bool} {calls : List Call} {g g2 : Guarded}
    (hl : g.lockLive = true) (h : runCalls sp g calls = some g2) :
    g2.lockLive = false →
      (∃ t pre, calls = pre ++ [Call.destroy t]) ∧ g2.sys.mem.queue.front = NULL ∧
      g2.sys.mem.queue.rear = NULL ∧ g2.sys.mem.queue.size = 0 := by
  induction calls generalizing g with
  | nil =>
    simp only [runCalls, Option.some.injEq] at h
    subst h
    intro hf
    rw [hl] at hf
    cases hf
  | cons c rest ih =>
    simp only [runCalls] at h
    cases hst : stepCall sp g c with
    | none => simp [hst] at h
    | some g1 =>
      simp only [hst] at h
      intro hf
      cases hl1 : g1.lockLive with
      | true =>
        obtain ⟨⟨t, pre, hp⟩, hrest⟩ := ih hl1 h hf
        exact ⟨⟨t, c :: pre, by rw [hp]; rfl⟩, hrest⟩
      | false =>
        cases rest with
        | nil =>
          simp only [runCalls, Option.some.injEq] at h
          subst h
          obtain ⟨⟨t, hc⟩, hq⟩ := (stepCall_lock hst).2 hl1
          exact ⟨⟨t, [], by rw [hc]; rfl⟩, hq⟩
        | cons c2 rest2 =>
          simp only [runCalls, stepCall_destroyed sp g1 c2 hl1] at h
          cases h

theorem runCalls_after {calls : List Call}
    (h : (runCalls false (startCalls Mem.boot) calls).isSome = true) :
    runCalls false (startCalls Mem.boot) calls = some (afterCalls calls) := by
  unfold afterCalls
  cases hr : runCalls false (startCalls Mem.boot) calls with
  | none => rw [hr] at h; cases h
  | some s => rfl

/-- C13 (representation invariant of the Item Store). In every state reached
from the `initQueue` state by atomic steps of `enqueue`, `dequeue`,
`tryDequeue` and by a call of `destroyQueue` (which destroys the mutex, so that
it can only be the last call of a run: after it no call is defined), the nodes
linked from `front` form a list `cells` ending in `rear`; `front == NULL`,
`rear == NULL` and `cells` being empty are equivalent and imply `size == 0`;
`size` is the length of `cells` as a `size_t`, hence exactly the length, and `0`
only for the empty list, as long as fewer than `2 ^ 64` nodes are linked. After
`destroyQueue` the list is empty. Each of the operations preserves the
invariant `RepInv`, from any memory that satisfies it. -/
theorem item_store_invariant (sp : Bool) (m0 : Mem) (calls : List Call) (g : Guarded)
    (h : runCalls sp (startCalls m0) calls = some g) :
    (∃ cells, ItemStore g.sys.mem cells ∧
      size g.sys.mem = cells.length % SIZE_MOD ∧
      (g.sys.mem.queue.front = NULL ↔ g.sys.mem.queue.rear = NULL) ∧
      (g.sys.mem.queue.front = NULL ↔ cells = []) ∧
      (g.sys.mem.queue.front = NULL → size g.sys.mem = 0) ∧
      (cells.length < SIZE_MOD →
        size g.sys.mem = cells.length ∧
        (size g.sys.mem = 0 ↔ g.sys.mem.queue.front = NULL)) ∧
      (g.lockLive = false →
        (∃ t pre, calls = pre ++ [Call.destroy t]) ∧ cells = [] ∧ size g.sys.mem = 0 ∧
        ∀ c, stepCall sp g c = none)) ∧
    (∀ m, RepInv m →
      (∀ item m2 w, enqueue item m = some (m2, w) → RepInv m2) ∧
      (∀ m2 r, dequeue m = some (m2, r) → RepInv m2) ∧
      (∀ cv m2 r, dequeue_resume cv m = some (m2, r) → RepInv m2) ∧
      (∀ out b o m2, tryDequeue out m = some (b, o, m2) → RepInv m2) ∧
      (∀ m2, destroyQueue m = some m2 → RepInv m2)) := by
  constructor
  · have h0 : RepInv (startCalls m0).sys.mem :=
      ⟨[], ⟨rfl, rfl, fun _ hc => by cases hc⟩, rfl⟩
    obtain ⟨cells, hs, hsz⟩ := runCalls_repInv h0 h
    have hfn := ItemStore.front_null_iff hs
    have hrn : g.sys.mem.queue.rear = NULL ↔ cells = [] := by
      rw [hs.2.1, rearOf_eq_null_iff hs.1]
      simp
    refine ⟨cells, hs, hsz, hfn.trans hrn.symm, hfn, ?_, ?_, ?_⟩
    · intro hf
      show g.sys.mem.queue.size = 0
      rw [hsz, hfn.mp hf]
      rfl
    · intro hlt
      have hex : size g.sys.mem = cells.length := by
        show g.sys.mem.queue.size = _
        rw [hsz]
        exact Nat.mod_eq_of_lt hlt
      refine ⟨hex, ?_⟩
      rw [hex, hfn]
      exact List.length_eq_zero
    · intro hl
      obtain ⟨hlast, hf, _, hz⟩ := runCalls_lock (g := startCalls m0) rfl h hl
      exact ⟨hlast, hfn.mp hf, hz, fun c => stepCall_destroyed sp g c hl⟩
  · intro m hi
    exact ⟨fun _ _ _ he => repInv_enqueue hi he, fun _ _ hd => repInv_loop hi hd,
      fun _ _ _ hd => repInv_resume hi hd, fun _ _ _ _ ht => repInv_tryDequeue hi ht,
      fun _ hd => repInv_destroy hd⟩

/-- An instance of C13: three enqueues and one removal leave two linked nodes
and `size() == 2`; `destroyQueue` then leaves the empty list and `size() == 0`,
and a further `enqueue` after it is not a run. -/
theorem item_store_invariant_witness :
    runCalls false (startCalls Mem.boot)
      [Call.op (Action.enqueue 0 10), Call.op (Action.enqueue 0 20),
       Call.op (Action.tryDequeue 1 0), Call.op (Action.enqueue 0 30), Call.destroy 0] =
      some (afterCalls [Call.op (Action.enqueue 0 10), Call.op (Action.enqueue 0 20),
       Call.op (Action.tryDequeue 1 0), Call.op (Action.enqueue 0 30), Call.destroy 0]) ∧
    ItemStore (afterCalls [Call.op (Action.enqueue 0 10), Call.op (Action.enqueue 0 20),
       Call.op (Action.tryDequeue 1 0), Call.op (Action.enqueue 0 30)]).sys.mem
      [(2, 20), (3, 30)] ∧
    size (afterCalls [Call.op (Action.enqueue 0 10), Call.op (Action.enqueue 0 20),
       Call.op (Action.tryDequeue 1 0), Call.op (Action.enqueue 0 30)]).sys.mem = 2 ∧
    (∃ cells, ItemStore (afterCalls [Call.op (Action.enqueue 0 10),
       Call.op (Action.enqueue 0 20), Call.op (Action.tryDequeue 1 0),
       Call.op (Action.enqueue 0 30), Call.destroy 0]).sys.mem cells ∧
      cells = [] ∧
      size (afterCalls [Call.op (Action.enqueue 0 10), Call.op (Action.enqueue 0 20),
       Call.op (Action.tryDequeue 1 0), Call.op (Action.enqueue 0 30),
       Call.destroy 0]).sys.mem = 0) ∧
    runCalls false (startCalls Mem.boot)
      [Call.op (Action.enqueue 0 10), Call.op (Action.enqueue 0 20),
       Call.op (Action.tryDequeue 1 0), Call.op (Action.enqueue 0 30), Call.destroy 0,
       Call.op (Action.enqueue 0 40)] = none := by
  have hrun := @runCalls_after [Call.op (Action.enqueue 0 10), Call.op (Action.enqueue 0 20),
       Call.op (Action.tryDequeue 1 0), Call.op (Action.enqueue 0 30), Call.destroy 0]
    (by decide)
  obtain ⟨⟨cells, hs, _, _, _, _, _, hdead⟩, _⟩ :=
    item_store_invariant false Mem.boot _ _ hrun
  obtain ⟨_, hc, hz, _⟩ := hdead (by decide)
  exact ⟨hrun, by decide, by decide, ⟨cells, hs, hc, hz⟩, rfl⟩

/-! ## The blocked consumers and the registry -/

theorem unsignalled_congr {m m2 : Mem} {B : List (Nat × Nat)}
    (h : ∀ b ∈ B, signalled m2 b.2 = signalled m b.2) : unsignalled m2 B = unsignalled m B := by
  unfold unsignalled
  exact congrArg (List.map Prod.snd) (List.filter_congr (fun b hb => by rw [h b hb]))

theorem mem_unsignalled {m : Mem} {B : List (Nat × Nat)} {w : Nat} :
    w ∈ unsignalled m B ↔ ∃ t, (t, w) ∈ B ∧ signalled m w = false := by
  unfold unsignalled
  simp only [List.mem_map, List.mem_filter, Bool.not_eq_true', Prod.exists, exists_and_right,
    exists_eq_right]

/-- Signalling the head of the unsignalled nodes leaves the tail. -/
theorem unsignalled_tail {m m2 : Mem} {B : List (Nat × Nat)}
    (hnd : (unsignalled m B).Nodup)
    (hsig : ∀ a, signalled m2 a = (signalled m a || decide (a ∈ (unsignalled m B).head?))) :
    unsignalled m2 B = (unsignalled m B).tail := by
  cases hws : unsignalled m B with
  | nil =>
    rw [hws] at hsig
    have := @unsignalled_congr m m2 B (fun b _ => by rw [hsig]; simp)
    rw [this, hws]
    rfl
  | cons w rest =>
    rw [hws] at hsig hnd
    have hnot : w ∉ rest := (List.nodup_cons.mp hnd).1
    have h1 : unsignalled m2 B =
        (unsignalled m B).filter (fun a => decide (a ≠ w)) := by
      unfold unsignalled
      rw [List.filter_map, List.filter_filter]
      congr 1
      apply List.filter_congr
      intro b _
      rw [hsig b.2]
      by_cases hb : b.2 = w
      · simp [hb]
      · have : w ≠ b.2 := fun he => hb he.symm
        simp [hb, this]
    rw [h1, hws]
    simp only [List.filter, ne_eq, not_true_eq_false, decide_False, List.tail_cons]
    apply List.filter_eq_self.mpr
    intro a ha
    have : a ≠ w := fun he => hnot (he ▸ ha)
    simp [this]

/-- Every node of a blocked consumer is live. -/
theorem MemWait.nodes_live {m : Mem} {B : List (Nat × Nat)} (h : MemWait m B) :
    ∀ b ∈ B, (Heap.read m.cvs b.2).isSome = true := by
  intro b hb
  cases hsg : signalled m b.2 with
  | true => exact signalled_live hsg
  | false =>
    have hm : b.2 ∈ unsignalled m B := mem_unsignalled.mpr ⟨b.1, hb, hsg⟩
    have := Chain.live h.2.2.1.1 _ hm
    rwa [cvNext_isSome] at this

/-- The wake-up part of `enqueue` keeps the invariant for the same blocked
consumers. -/
theorem memWait_enqueue {m m2 : Mem} {B : List (Nat × Nat)} {cells : List (Nat × Nat)}
    {item w : Nat} (hw : MemWait m B) (hs : ItemStore m cells)
    (h : enqueue item m = some (m2, w)) :
    MemWait m2 B ∧ unsignalled m2 B = (unsignalled m B).tail ∧
    w = (unsignalled m B).headD NULL := by
  obtain ⟨hf, hsn, hreg, hwc⟩ := hw
  obtain ⟨m3, h3, _, hr3, _, _, hwc3, hsig, _⟩ :=
    enqueue_spec item m cells (unsignalled m B) hs hreg
  rw [h3] at h
  simp only [Option.some.injEq, Prod.mk.injEq] at h
  obtain ⟨hm, hww⟩ := h
  subst hm
  have ht := unsignalled_tail (Chain.nodup hreg.1) hsig
  refine ⟨⟨hf, hsn, ?_, by rw [hwc3, hwc]⟩, ht, hww.symm⟩
  rw [ht]
  exact hr3

/-- Code that leaves the waiter list, the waiter heap and `waitingCount` alone
keeps the invariant. -/
theorem memWait_frame {m m2 : Mem} {B : List (Nat × Nat)} (hw : MemWait m B)
    (hc : m2.cvs = m.cvs) (hf : m2.queue.cv_front = m.queue.cv_front)
    (hr : m2.queue.cv_rear = m.queue.cv_rear)
    (hwc : m2.queue.waitingCount = m.queue.waitingCount) :
    MemWait m2 B ∧ unsignalled m2 B = unsignalled m B := by
  obtain ⟨h1, h2, h3, h4⟩ := hw
  have hu : unsignalled m2 B = unsignalled m B :=
    unsignalled_congr (fun b _ => by unfold signalled; rw [hc])
  refine ⟨⟨h1, h2, ?_, by rw [hwc, h4]⟩, hu⟩
  rw [hu]
  exact Registry.carry h3 hc hf hr

theorem length_filter_fst {B : List (Nat × Nat)} {t cv : Nat} (hnd : (B.map Prod.fst).Nodup)
    (hmem : (t, cv) ∈ B) :
    (B.filter (fun b => decide (b.1 ≠ t))).length + 1 = B.length := by
  induction B with
  | nil => cases hmem
  | cons b rest ih =>
    simp only [List.map_cons, List.nodup_cons] at hnd
    by_cases hb : b.1 = t
    · have hrest : rest.filter (fun b => decide (b.1 ≠ t)) = rest := by
        apply List.filter_eq_self.mpr
        intro c hc
        have : c.1 ≠ t := fun he => hnd.1 (by
          rw [hb, ← he]
          exact List.mem_map_of_mem Prod.fst hc)
        simp [this]
      simp only [List.filter, ne_eq, hb, not_true_eq_false, decide_False, List.length_cons]
      simp only [ne_eq] at hrest
      rw [hrest]
    · have hm2 : (t, cv) ∈ rest := by
        rcases List.mem_cons.mp hmem with he | hm
        · exact absurd (by rw [← he]) hb
        · exact hm
      have := ih hnd.2 hm2
      simp only [ne_eq] at this
      simp only [List.filter, ne_eq, hb, not_false_eq_true, decide_True, List.length_cons]
      omega

/-- The code after `cnd_wait`, run by the blocked consumer `t` whose node has
been signalled, keeps the invariant for the other blocked consumers. -/
theorem memWait_wakeup {m m1 : Mem} {B : List (Nat × Nat)} {t cv : Nat} (hw : MemWait m B)
    (hmem : (t, cv) ∈ B) (hsig : signalled m cv = true)
    (h : dequeue_wakeup cv m = some m1) :
    MemWait m1 (B.filter (fun b => decide (b.1 ≠ t))) ∧
    unsignalled m1 (B.filter (fun b => decide (b.1 ≠ t))) = unsignalled m B ∧
    t ∉ (B.filter (fun b => decide (b.1 ≠ t))).map Prod.fst := by
  obtain ⟨hf, hsn, hreg, hwc⟩ := hw
  obtain ⟨_, hcvs, _, hq⟩ := dequeue_wakeup_frame h
  have hsub := List.filter_sublist (p := fun b : Nat × Nat => decide (b.1 ≠ t)) B
  have hnot : cv ∉ unsignalled m B := fun hm => by
    obtain ⟨_, _, hu⟩ := mem_unsignalled.mp hm
    rw [hsig] at hu
    cases hu
  have hu : unsignalled m1 (B.filter (fun b => decide (b.1 ≠ t))) = unsignalled m B := by
    unfold unsignalled
    rw [List.filter_filter]
    congr 1
    apply List.filter_congr
    intro b hb
    by_cases hbt : b.1 = t
    · have hbe : b = (t, cv) := List.inj_on_of_nodup_map hf hb hmem hbt
      have hs2 : signalled m b.2 = true := by rw [hbe]; exact hsig
      have hs1 : signalled m1 b.2 = false := by
        unfold signalled
        rw [hcvs, Heap.read_free, hbe, if_pos rfl]
      simp [hs2, hs1, hbt]
    · have hbc : b.2 ≠ cv := fun he => hbt (by
        have := List.inj_on_of_nodup_map hsn hb hmem he
        rw [this])
      have hs1 : signalled m1 b.2 = signalled m b.2 := by
        unfold signalled
        rw [hcvs, Heap.read_free, if_neg hbc]
      simp [hbt, hs1]
  refine ⟨⟨(hsub.map Prod.fst).nodup hf, (hsub.map Prod.snd).nodup hsn, ?_, ?_⟩, hu, ?_⟩
  · rw [hu]
    exact dequeue_wakeup_spec h hreg hnot
  · rw [hq]
    show decr m.queue.waitingCount = _
    have hl := length_filter_fst hf hmem
    rw [hwc, ← hl]
    exact decr_succ_mod _
  · intro hm
    obtain ⟨b, hb, hbt⟩ := List.mem_map.mp hm
    have := (List.mem_filter.mp hb).2
    simp [hbt] at this

/-- A locked stretch of `dequeue` run by a thread `t` that is not among the
blocked consumers `B`: either `t` takes an item and `B` stays, or `t` parks on a
new node and joins `B` at the end. -/
theorem memWait_loop {m m2 : Mem} {B : List (Nat × Nat)} {cells : List (Nat × Nat)}
    {t : Nat} {r : DequeueStep} (hw : MemWait m B) (hs : ItemStore m cells)
    (ht : t ∉ B.map Prod.fst) (h : dequeue_loop m = some (m2, r)) :
    ((∃ x, r = DequeueStep.returned x) ∧ MemWait m2 B ∧
      unsignalled m2 B = unsignalled m B) ∨
    (r = DequeueStep.parked m.fresh ∧ MemWait m2 (B ++ [(t, m.fresh)]) ∧
      unsignalled m2 (B ++ [(t, m.fresh)]) = unsignalled m B ++ [m.fresh]) := by
  cases cells with
  | cons c rest =>
    obtain ⟨a, x⟩ := c
    obtain ⟨m3, h3, _, hc3, hq3⟩ := dequeue_loop_take m a x rest hs
    rw [h3] at h
    simp only [Option.some.injEq, Prod.mk.injEq] at h
    obtain ⟨hm, hr⟩ := h
    subst hm
    obtain ⟨hw2, hu2⟩ := memWait_frame hw hc3 (by rw [hq3]) (by rw [hq3]) (by rw [hq3])
    exact Or.inl ⟨⟨x, hr.symm⟩, hw2, hu2⟩
  | nil =>
    have hlive := MemWait.nodes_live hw
    obtain ⟨hf, hsn, hreg, hwc⟩ := hw
    obtain ⟨m3, h3, _, hr3, _, _, _, hwc3, hsig, _⟩ :=
      dequeue_loop_park m (unsignalled m B) hs hreg
    rw [h3] at h
    simp only [Option.some.injEq, Prod.mk.injEq] at h
    obtain ⟨hm, hr⟩ := h
    subst hm
    have hfresh : m.fresh ∉ B.map Prod.snd := fun hm => by
      obtain ⟨b, hb, hbe⟩ := List.mem_map.mp hm
      have := hlive b hb
      rw [hbe, Mem.cvs_fresh] at this
      cases this
    have hu : unsignalled m3 (B ++ [(t, m.fresh)]) = unsignalled m B ++ [m.fresh] := by
      have h1 : unsignalled m3 (B ++ [(t, m.fresh)]) = unsignalled m (B ++ [(t, m.fresh)]) :=
        unsignalled_congr (fun b _ => hsig b.2)
      rw [h1]
      unfold unsignalled
      rw [List.filter_append, List.map_append]
      congr 1
      simp [List.filter, signalled_fresh]
    refine Or.inr ⟨hr.symm, ⟨?_, ?_, ?_, ?_⟩, hu⟩
    · rw [List.map_append, List.nodup_append]
      refine ⟨hf, List.nodup_singleton _, ?_⟩
      intro a ha hb
      simp only [List.map_cons, List.map_nil, List.mem_singleton] at hb
      exact ht (hb ▸ ha)
    · rw [List.map_append, List.nodup_append]
      refine ⟨hsn, List.nodup_singleton _, ?_⟩
      intro a ha hb
      simp only [List.map_cons, List.map_nil, List.mem_singleton] at hb
      exact hfresh (hb ▸ ha)
    · rw [hu]
      exact hr3
    · rw [hwc3, hwc, List.length_append, List.length_singleton]
      exact incr_mod _

theorem pc_park {pc : Nat → Pc} {B1 : List (Nat × Nat)} {t c : Nat}
    (hpc : ∀ u cv, u ≠ t → (pc u = Pc.waiting cv ↔ (u, cv) ∈ B1))
    (ht : t ∉ B1.map Prod.fst) :
    ∀ u cv, setPc pc t (Pc.waiting c) u = Pc.waiting cv ↔ (u, cv) ∈ B1 ++ [(t, c)] := by
  intro u cv
  unfold setPc
  by_cases hu : u = t
  · subst hu
    have hno : (u, cv) ∉ B1 := fun hm => ht (List.mem_map_of_mem Prod.fst hm)
    simp only [if_true, Pc.waiting.injEq, List.mem_append, hno, false_or, List.mem_singleton,
      Prod.mk.injEq, true_and]
    exact eq_comm
  · have hne : (u, cv) ≠ (t, c) := fun he => hu (Prod.mk.inj he).1
    simp only [if_neg hu, List.mem_append, List.mem_singleton, hne, or_false]
    exact hpc u cv hu

theorem pc_idle {pc : Nat → Pc} {B1 : List (Nat × Nat)} {t : Nat}
    (hpc : ∀ u cv, u ≠ t → (pc u = Pc.waiting cv ↔ (u, cv) ∈ B1))
    (ht : t ∉ B1.map Prod.fst) :
    ∀ u cv, setPc pc t Pc.idle u = Pc.waiting cv ↔ (u, cv) ∈ B1 := by
  intro u cv
  unfold setPc
  by_cases hu : u = t
  · subst hu
    have hno : (u, cv) ∉ B1 := fun hm => ht (List.mem_map_of_mem Prod.fst hm)
    simp only [if_true, hno, iff_false]
    intro he
    cases he
  · simp only [if_neg hu]
    exact hpc u cv hu

/-- A locked stretch of `dequeue` run by thread `t` keeps the waiter invariant;
the registry stays as it is or grows by the node allocated in this stretch. -/
theorem loop_waitInv (s : Sys) (m1 : Mem) (t : Nat) (pre : List Event)
    (res : Mem × DequeueStep) (B1 : List (Nat × Nat)) (cells : List (Nat × Nat))
    (hpc : ∀ u cv, u ≠ t → (s.pc u = Pc.waiting cv ↔ (u, cv) ∈ B1))
    (ht : t ∉ B1.map Prod.fst) (hw : MemWait m1 B1) (hs : ItemStore m1 cells)
    (h : dequeue_loop m1 = some res) :
    ∃ B2, WaitInv (afterDequeue s t pre res) B2 ∧
      (unsignalled (afterDequeue s t pre res).mem B2 = unsignalled m1 B1 ∨
       unsignalled (afterDequeue s t pre res).mem B2 = unsignalled m1 B1 ++ [m1.fresh]) := by
  obtain ⟨m2, r⟩ := res
  rcases memWait_loop hw hs ht h with ⟨⟨x, hr⟩, hw2, hu2⟩ | ⟨hr, hw2, hu2⟩
  · subst hr
    exact ⟨B1, ⟨pc_idle hpc ht, hw2⟩, Or.inl hu2⟩
  · subst hr
    exact ⟨B1 ++ [(t, m1.fresh)], ⟨pc_park hpc ht, hw2⟩, Or.inr hu2⟩

/-- Without spurious wake-ups every atomic step keeps the waiter invariant.
The registry stays as it is, loses its head (an `enqueue` detached it), or
grows at the rear by a node allocated in this step, whose address was dead
before the step or is the address of the node the resuming thread has just
freed. -/
theorem step_waitInv {s s2 : Sys} {a : Action} {B : List (Nat × Nat)} (hi : ItemInv s)
    (hw : WaitInv s B) (h : step false s a = some s2) :
    ∃ B2, WaitInv s2 B2 ∧
      (unsignalled s2.mem B2 = unsignalled s.mem B ∨
       unsignalled s2.mem B2 = (unsignalled s.mem B).tail ∨
       ∃ w, unsignalled s2.mem B2 = unsignalled s.mem B ++ [w] ∧
         (Heap.read s.mem.cvs w = none ∨
          ∃ t, a = Action.resume t ∧ s.pc t = Pc.waiting w)) := by
  obtain ⟨cells, hs, _, _, _⟩ := hi
  obtain ⟨hpc, hmw⟩ := hw
  have hidle : ∀ t, s.pc t = Pc.idle → t ∉ B.map Prod.fst := by
    intro t ht hm
    obtain ⟨b, hb, hbt⟩ := List.mem_map.mp hm
    have := (hpc b.1 b.2).mpr hb
    rw [hbt, ht] at this
    cases this
  cases a with
  | enqueue t item =>
    cases hpt : s.pc t with
    | waiting cv => simp [step, hpt] at h
    | idle =>
      cases he : enqueue item s.mem with
      | none => simp [step, hpt, he] at h
      | some r =>
        obtain ⟨m2, w⟩ := r
        simp only [step, hpt, he, Option.some.injEq] at h
        subst h
        obtain ⟨hw2, hu2, _⟩ := memWait_enqueue hmw hs he
        exact ⟨B, ⟨hpc, hw2⟩, Or.inr (Or.inl hu2)⟩
  | tryDequeue t out =>
    cases hpt : s.pc t with
    | waiting cv => simp [step, hpt] at h
    | idle =>
      cases cells with
      | nil =>
        have hf : s.mem.queue.front = NULL := (ItemStore.front_null_iff hs).mpr rfl
        simp only [step, hpt, tryDequeue_null out s.mem hf, Option.some.injEq] at h
        subst h
        exact ⟨B, ⟨hpc, hmw⟩, Or.inl rfl⟩
      | cons c rest =>
        obtain ⟨a, x⟩ := c
        obtain ⟨m3, h3, _, hc3, hq3⟩ := tryDequeue_take out s.mem a x rest hs
        simp only [step, hpt, h3, Option.some.injEq] at h
        subst h
        obtain ⟨hw2, hu2⟩ := memWait_frame hmw hc3 (by rw [hq3]) (by rw [hq3]) (by rw [hq3])
        exact ⟨B, ⟨hpc, hw2⟩, Or.inl hu2⟩
  | dequeue t =>
    cases hpt : s.pc t with
    | waiting cv => simp [step, hpt] at h
    | idle =>
      cases hd : dequeue s.mem with
      | none => simp [step, hpt, hd] at h
      | some r =>
        simp only [step, hpt, hd, Option.some.injEq] at h
        subst h
        obtain ⟨B2, hw2, hu2⟩ := loop_waitInv s s.mem t [] r B cells
          (fun u cv _ => hpc u cv) (hidle t hpt) hmw hs hd
        refine ⟨B2, hw2, ?_⟩
        rcases hu2 with hu2 | hu2
        · exact Or.inl hu2
        · exact Or.inr (Or.inr ⟨_, hu2, Or.inl (Mem.cvs_fresh _)⟩)
  | resume t =>
    cases hpt : s.pc t with
    | idle => simp [step, hpt] at h
    | waiting cv =>
      cases hsig : signalled s.mem cv with
      | false => simp [step, hpt, hsig] at h
      | true =>
        cases hd : dequeue_resume cv s.mem with
        | none => simp [step, hpt, hsig, hd] at h
        | some r =>
          simp only [step, hpt, hsig, Bool.or_true, Bool.false_or, if_true, hd,
            Option.some.injEq] at h
          subst h
          unfold dequeue_resume at hd
          cases hwk : dequeue_wakeup cv s.mem with
          | none => simp [hwk] at hd
          | some m1 =>
            simp only [hwk] at hd
            have hmem : (t, cv) ∈ B := (hpc t cv).mp hpt
            obtain ⟨hw1, hu1, ht1⟩ := memWait_wakeup hmw hmem hsig hwk
            obtain ⟨hn, hcvs, _, hq⟩ := dequeue_wakeup_frame hwk
            have hs1 : ItemStore m1 cells :=
              ItemStore.transfer hs hn (by rw [hq]) (by rw [hq])
            have hpc1 : ∀ u c, u ≠ t →
                (s.pc u = Pc.waiting c ↔
                  (u, c) ∈ B.filter (fun b => decide (b.1 ≠ t))) := by
              intro u c hu
              rw [hpc u c, List.mem_filter]
              simp [hu]
            obtain ⟨B2, hw2, hu2⟩ := loop_waitInv s m1 t [Event.resumed t cv] r _ cells
              hpc1 ht1 hw1 hs1 hd
            refine ⟨B2, hw2, ?_⟩
            rw [hu1] at hu2
            rcases hu2 with hu2 | hu2
            · exact Or.inl hu2
            · refine Or.inr (Or.inr ⟨_, hu2, ?_⟩)
              have hfr := Mem.cvs_fresh m1
              rw [hcvs, Heap.read_free] at hfr
              by_cases hc : m1.fresh = cv
              · exact Or.inr ⟨t, rfl, by rw [hc]; exact hpt⟩
              · rw [if_neg hc] at hfr
                exact Or.inl hfr

theorem start_waitInv (m : Mem) : WaitInv (start m) [] := by
  refine ⟨fun t cv => ?_, List.nodup_nil, List.nodup_nil, ⟨rfl, rfl⟩, rfl⟩
  constructor
  · intro h
    cases h
  · intro h
    cases h

/-- Without spurious wake-ups the waiter invariant holds, for a suitable list
of blocked consumers, in every state reached from the `initQueue` state. -/
theorem run_waitInv {acts : List Action} {s s2 : Sys} {B : List (Nat × Nat)}
    (hi : ItemInv s) (hw : WaitInv s B) (h : run false s acts = some s2) :
    ∃ B2, WaitInv s2 B2 := by
  induction acts generalizing s B with
  | nil =>
    simp only [run, Option.some.injEq] at h
    subst h
    exact ⟨B, hw⟩
  | cons a rest ih =>
    simp only [run] at h
    cases hst : step false s a with
    | none => simp [hst] at h
    | some s1 =>
      simp only [hst] at h
      obtain ⟨B1, hw1, _⟩ := step_waitInv hi hw hst
      exact ih (step_itemInv hi hst) hw1 h

/-! ## `waitingCount` -/

/-- A locked stretch of `dequeue` either returns and keeps `waitingCount`, or
parks and increments it. -/
theorem dequeue_loop_waiting {m m2 : Mem} {r : DequeueStep}
    (h : dequeue_loop m = some (m2, r)) :
    ((∃ x, r = DequeueStep.returned x) ∧ m2.queue.waitingCount = m.queue.waitingCount) ∨
    ((∃ cv, r = DequeueStep.parked cv) ∧
      m2.queue.waitingCount = incr m.queue.waitingCount) := by
  unfold dequeue_loop at h
  split at h
  · cases hreg : dequeue_register m with
    | none => simp [hreg] at h
    | some res =>
      obtain ⟨m1, cv⟩ := res
      simp only [hreg, Option.some.injEq, Prod.mk.injEq] at h
      obtain ⟨hm, hr⟩ := h
      subst hm
      obtain ⟨_, _, hq⟩ := dequeue_register_frame hreg
      exact Or.inr ⟨⟨cv, hr.symm⟩, by rw [hq]⟩
  · cases hrem : remove_front m with
    | none => simp [hrem] at h
    | some res =>
      obtain ⟨m1, x⟩ := res
      simp only [hrem, Option.some.injEq, Prod.mk.injEq] at h
      obtain ⟨hm, hr⟩ := h
      subst hm
      obtain ⟨_, hq⟩ := remove_front_frame hrem
      exact Or.inl ⟨⟨x, hr.symm⟩, by rw [hq]⟩

/-- How each kind of atomic step changes `waitingCount`, whatever the state:
`enqueue` and `tryDequeue` never change it, a `dequeue` call keeps it or applies
`++` (when it parks), and a resumption applies `--` and then possibly `++` (when
it parks again). -/
theorem step_waiting {sp : Bool} {s s2 : Sys} (a : Action) (h : step sp s a = some s2) :
    (∀ t item, a = Action.enqueue t item → waiting s2.mem = waiting s.mem) ∧
    (∀ t out, a = Action.tryDequeue t out → waiting s2.mem = waiting s.mem) ∧
    (∀ t, a = Action.dequeue t →
      waiting s2.mem = waiting s.mem ∨ waiting s2.mem = incr (waiting s.mem)) ∧
    (∀ t, a = Action.resume t →
      waiting s2.mem = decr (waiting s.mem) ∨
      waiting s2.mem = incr (decr (waiting s.mem))) := by
  have key : ∀ (m0 : Mem) (t : Nat) (pre : List Event) (res : Mem × DequeueStep),
      dequeue_loop m0 = some res →
      (afterDequeue s t pre res).mem.queue.waitingCount = m0.queue.waitingCount ∨
      (afterDequeue s t pre res).mem.queue.waitingCount = incr m0.queue.waitingCount := by
    intro m0 t pre res hl
    obtain ⟨m2, r⟩ := res
    rcases dequeue_loop_waiting hl with ⟨⟨x, hr⟩, hv⟩ | ⟨⟨cv, hr⟩, hv⟩
    · subst hr
      exact Or.inl hv
    · subst hr
      exact Or.inr hv
  refine ⟨?_, ?_, ?_, ?_⟩
  · intro t item ha
    subst ha
    cases hpc : s.pc t with
    | waiting cv => simp [step, hpc] at h
    | idle =>
      cases he : enqueue item s.mem with
      | none => simp [step, hpc, he] at h
      | some r =>
        obtain ⟨m2, w⟩ := r
        simp only [step, hpc, he, Option.some.injEq] at h
        subst h
        exact (enqueue_frame he).2.2
  · intro t out ha
    subst ha
    cases hpc : s.pc t with
    | waiting cv => simp [step, hpc] at h
    | idle =>
      by_cases hf : s.mem.queue.front = NULL
      · simp only [step, hpc, tryDequeue_null out s.mem hf, Option.some.injEq] at h
        subst h
        rfl
      · cases hrem : remove_front s.mem with
        | none => simp [step, hpc, tryDequeue, hf, hrem] at h
        | some res =>
          obtain ⟨m1, x⟩ := res
          simp only [step, hpc, tryDequeue, hf, if_false, hrem, Option.some.injEq] at h
          subst h
          obtain ⟨_, hq⟩ := remove_front_frame hrem
          show m1.queue.waitingCount = _
          rw [hq]
          rfl
  · intro t ha
    subst ha
    cases hpc : s.pc t with
    | waiting cv => simp [step, hpc] at h
    | idle =>
      cases hd : dequeue s.mem with
      | none => simp [step, hpc, hd] at h
      | some r =>
        simp only [step, hpc, hd, Option.some.injEq] at h
        subst h
        exact key s.mem t [] r hd
  · intro t ha
    subst ha
    cases hpc : s.pc t with
    | idle => simp [step, hpc] at h
    | waiting cv =>
      simp only [step, hpc] at h
      split at h
      · cases hd : dequeue_resume cv s.mem with
        | none => simp [hd] at h
        | some r =>
          simp only [hd, Option.some.injEq] at h
          subst h
          unfold dequeue_resume at hd
          cases hw : dequeue_wakeup cv s.mem with
          | none => simp [hw] at hd
          | some m1 =>
            simp only [hw] at hd
            obtain ⟨_, _, _, hq⟩ := dequeue_wakeup_frame hw
            have hq1 : m1.queue.waitingCount = decr s.mem.queue.waitingCount := by rw [hq]
            rcases key m1 t [Event.resumed t cv] r hd with hk | hk
            · exact Or.inl (hk.trans hq1)
            · exact Or.inr (hk.trans (congrArg incr hq1))
      · cases h

/-- C19 (the actual `waitingCount` invariant). Without spurious wake-ups, in
every state reached from the `initQueue` state there is a list `B` of the
threads blocked in `cnd_wait`, each once and with its node, such that the
Waiter Registry `ws` is the list of the unsignalled nodes of `B`, every signalled
node of `B` (detached by an `enqueue`, its owner not yet resumed) is live and
not linked, and `waitingCount` is the number of linked nodes plus the number of
consumers of `B` with a signalled node, as a `size_t` (exactly, below `2 ^ 64`
blocked threads). As to single steps: `enqueue` and `tryDequeue` never change
`waitingCount`, a `dequeue` call keeps or increments it, and only the
resumption of a consumer applies `--` to it. -/
theorem waiting_count_actual (m : Mem) (acts : List Action) (s : Sys)
    (h : run false (start m) acts = some s) :
    (∃ (B : List (Nat × Nat)) (ws : List Nat), (∀ t cv, s.pc t = Pc.waiting cv ↔ (t, cv) ∈ B) ∧
      (B.map Prod.fst).Nodup ∧ Registry s.mem ws ∧ ws = unsignalled s.mem B ∧
      (∀ b ∈ B, signalled s.mem b.2 = true →
        b.2 ∉ ws ∧ (Heap.read s.mem.cvs b.2).isSome = true) ∧
      waiting s.mem =
        (ws.length + (B.filter (fun b => signalled s.mem b.2)).length) % SIZE_MOD ∧
      (B.length < SIZE_MOD →
        waiting s.mem = ws.length + (B.filter (fun b => signalled s.mem b.2)).length)) ∧
    (∀ t item s2, step false s (Action.enqueue t item) = some s2 →
      waiting s2.mem = waiting s.mem) ∧
    (∀ t out s2, step false s (Action.tryDequeue t out) = some s2 →
      waiting s2.mem = waiting s.mem) ∧
    (∀ t s2, step false s (Action.dequeue t) = some s2 →
      waiting s2.mem = waiting s.mem ∨ waiting s2.mem = incr (waiting s.mem)) ∧
    (∀ t s2, step false s (Action.resume t) = some s2 →
      waiting s2.mem = decr (waiting s.mem) ∨
      waiting s2.mem = incr (decr (waiting s.mem))) := by
  obtain ⟨B, hpc, hmw⟩ := run_waitInv (start_itemInv m) (start_waitInv m) h
  have hlive := MemWait.nodes_live hmw
  obtain ⟨hf, _, hreg, hwc⟩ := hmw
  have hlen : B.length =
      (unsignalled s.mem B).length + (B.filter (fun b => signalled s.mem b.2)).length := by
    have := List.length_eq_length_filter_add (l := B) (fun b => !signalled s.mem b.2)
    simp only [Bool.not_not] at this
    unfold unsignalled
    rw [List.length_map]
    exact this
  refine ⟨⟨B, unsignalled s.mem B, hpc, hf, hreg, rfl, ?_, ?_, ?_⟩, ?_, ?_, ?_, ?_⟩
  · intro b hb hsg
    refine ⟨fun hm => ?_, hlive b hb⟩
    obtain ⟨_, _, hu⟩ := mem_unsignalled.mp hm
    rw [hsg] at hu
    cases hu
  · show s.mem.queue.waitingCount = _
    rw [hwc, hlen]
  · intro hlt
    show s.mem.queue.waitingCount = _
    rw [hwc, ← hlen]
    exact Nat.mod_eq_of_lt hlt
  · intro t item s2 hst
    exact (step_waiting _ hst).1 t item rfl
  · intro t out s2 hst
    exact (step_waiting _ hst).2.1 t out rfl
  · intro t s2 hst
    exact (step_waiting _ hst).2.2.1 t rfl
  · intro t s2 hst
    exact (step_waiting _ hst).2.2.2 t rfl

/-- An instance of C19: threads `1` and `2` are parked and one `enqueue` has
signalled the node of thread `1`; one node is linked, one signalled consumer
has not resumed, and `waiting()` is `2`. -/
theorem waiting_count_actual_witness :
    run false (start Mem.boot) [Action.dequeue 1, Action.dequeue 2, Action.enqueue 0 10] =
      some (after [Action.dequeue 1, Action.dequeue 2, Action.enqueue 0 10]) ∧
    Registry (after [Action.dequeue 1, Action.dequeue 2, Action.enqueue 0 10]).mem [2] ∧
    signalled (after [Action.dequeue 1, Action.dequeue 2, Action.enqueue 0 10]).mem 1 = true ∧
    waiting (after [Action.dequeue 1, Action.dequeue 2, Action.enqueue 0 10]).mem = 1 + 1 ∧
    ∃ (B : List (Nat × Nat)) (ws : List Nat), Registry (after [Action.dequeue 1, Action.dequeue 2, Action.enqueue 0 10]).mem ws ∧
      waiting (after [Action.dequeue 1, Action.dequeue 2, Action.enqueue 0 10]).mem =
        (ws.length + (B.filter (fun b =>
          signalled (after [Action.dequeue 1, Action.dequeue 2,
            Action.enqueue 0 10]).mem b.2)).length) % SIZE_MOD := by
  have hrun := @run_after [Action.dequeue 1, Action.dequeue 2, Action.enqueue 0 10] (by decide)
  obtain ⟨⟨B, ws, _, _, hreg, _, _, hw, _⟩, _⟩ := waiting_count_actual Mem.boot _ _ hrun
  exact ⟨hrun, by decide, by decide, by decide, B, ws, hreg, hw⟩

/-- C14 (waiter node lifecycle). Without spurious wake-ups, in every state
reached from the `initQueue` state, with Waiter Registry `ws`: every linked node
is unsignalled and is the node of exactly one thread, which is blocked in
`cnd_wait` on it; the node of every blocked thread is live; a blocked thread
whose node is unsignalled has that node linked exactly once; a signalled node is
not linked. Every step leaves the registry as it is, takes its head off, or
appends one unsignalled node at the rear, and an appended node comes from a
`malloc` of that step: its address was dead before the step, or it is the
address of the node that the resuming thread itself has just freed. So a node
that has been detached and signalled stays out of the registry until its owner
frees it. -/
theorem waiter_lifecycle (m : Mem) (acts : List Action) (s : Sys)
    (h : run false (start m) acts = some s) :
    ∃ ws, Registry s.mem ws ∧
      (∀ w ∈ ws, ∃ t, s.pc t = Pc.waiting w ∧ signalled s.mem w = false ∧
        ∀ u, s.pc u = Pc.waiting w → u = t) ∧
      (∀ t cv, s.pc t = Pc.waiting cv → (Heap.read s.mem.cvs cv).isSome = true) ∧
      (∀ t cv, s.pc t = Pc.waiting cv → signalled s.mem cv = false → ws.count cv = 1) ∧
      (∀ w, signalled s.mem w = true → w ∉ ws) ∧
      (∀ a s2, step false s a = some s2 →
        ∃ ws2, Registry s2.mem ws2 ∧
          (ws2 = ws ∨ ws2 = ws.tail ∨
           ∃ w, ws2 = ws ++ [w] ∧ signalled s2.mem w = false ∧
             (Heap.read s.mem.cvs w = none ∨
              ∃ t, a = Action.resume t ∧ s.pc t = Pc.waiting w))) := by
  have hi := run_itemInv (start_itemInv m) h
  obtain ⟨B, hw⟩ := run_waitInv (start_itemInv m) (start_waitInv m) h
  have hw0 := hw
  obtain ⟨hpc, hmw⟩ := hw
  have hlive := MemWait.nodes_live hmw
  obtain ⟨_, hsn, hreg, _⟩ := hmw
  refine ⟨unsignalled s.mem B, hreg, ?_, ?_, ?_, ?_, ?_⟩
  · intro w hwm
    obtain ⟨t, hb, hu⟩ := mem_unsignalled.mp hwm
    refine ⟨t, (hpc t w).mpr hb, hu, fun u hpu => ?_⟩
    have hb2 := (hpc u w).mp hpu
    have := List.inj_on_of_nodup_map hsn hb2 hb rfl
    exact (Prod.mk.inj this).1
  · intro t cv hpt
    exact hlive (t, cv) ((hpc t cv).mp hpt)
  · intro t cv hpt hu
    exact List.count_eq_one_of_mem (Chain.nodup hreg.1)
      (mem_unsignalled.mpr ⟨t, (hpc t cv).mp hpt, hu⟩)
  · intro w hsg hm
    obtain ⟨_, _, hu⟩ := mem_unsignalled.mp hm
    rw [hsg] at hu
    cases hu
  · intro a s2 hst
    obtain ⟨B2, hw2, hch⟩ := step_waitInv hi hw0 hst
    refine ⟨unsignalled s2.mem B2, hw2.2.2.2.1, ?_⟩
    rcases hch with hc | hc | ⟨w, hc, hfresh⟩
    · exact Or.inl hc
    · exact Or.inr (Or.inl hc)
    · refine Or.inr (Or.inr ⟨w, hc, ?_, hfresh⟩)
      have hm : w ∈ unsignalled s2.mem B2 := by
        rw [hc]
        exact List.mem_append_right _ (List.mem_singleton.mpr rfl)
      exact (mem_unsignalled.mp hm).choose_spec.2

/-- An instance of C14: with threads `1` and `2` parked and the node of thread
`1` signalled, the registry holds only the node of thread `2`. -/
theorem waiter_lifecycle_witness :
    run false (start Mem.boot) [Action.dequeue 1, Action.dequeue 2, Action.enqueue 0 10] =
      some (after [Action.dequeue 1, Action.dequeue 2, Action.enqueue 0 10]) ∧
    Registry (after [Action.dequeue 1, Action.dequeue 2, Action.enqueue 0 10]).mem [2] ∧
    (∃ t, (after [Action.dequeue 1, Action.dequeue 2, Action.enqueue 0 10]).pc t =
        Pc.waiting 2 ∧
      signalled (after [Action.dequeue 1, Action.dequeue 2, Action.enqueue 0 10]).mem 2 =
        false) ∧
    signalled (after [Action.dequeue 1, Action.dequeue 2, Action.enqueue 0 10]).mem 1 = true := by
  have hrun := @run_after [Action.dequeue 1, Action.dequeue 2, Action.enqueue 0 10] (by decide)
  obtain ⟨ws, hreg, hown, _⟩ := waiter_lifecycle Mem.boot _ _ hrun
  have hws : ws = [2] := Chain.det hreg.1
    (show Registry (after [Action.dequeue 1, Action.dequeue 2, Action.enqueue 0 10]).mem [2]
      by decide).1
  subst hws
  obtain ⟨t, h1, h2, _⟩ := hown 2 (by decide)
  exact ⟨hrun, hreg, ⟨t, h1, h2⟩, by decide⟩

/-! ## Spurious wake-ups -/

/-- C12, evaluated at a failing schedule. Threads `1` and `2` park on the
empty queue and `10` is enqueued, which signals the node of thread `1`; the
node of thread `2` (address `2`) stays linked, and without spurious wake-ups
thread `2` cannot leave `cnd_wait`. When it leaves it spuriously, it frees its
node without unlinking it and returns `10`: in the resulting state thread `2` is
idle, `cv_front` still holds address `2`, which is dead, and no list of live
nodes is linked from `cv_front`. The next `enqueue` then reads the freed node
and the resumption of the signalled thread `1` writes through it: both are
undefined. Already a single consumer that wakes spuriously on the empty queue
writes through its own freed node when it registers again. -/
theorem spurious_wakeup_dangling :
    run true (start Mem.boot)
      [Action.dequeue 1, Action.dequeue 2, Action.enqueue 0 10, Action.resume 2] =
      some Sys.dangling ∧
    step false (after [Action.dequeue 1, Action.dequeue 2, Action.enqueue 0 10])
      (Action.resume 2) = none ∧
    Registry (after [Action.dequeue 1, Action.dequeue 2, Action.enqueue 0 10]).mem [2] ∧
    Sys.dangling.pc 2 = Pc.idle ∧ returnedTo 2 Sys.dangling.log = [10] ∧
    Sys.dangling.pc 1 = Pc.waiting 1 ∧ signalled Sys.dangling.mem 1 = true ∧
    Sys.dangling.mem.queue.cv_front = 2 ∧ Heap.read Sys.dangling.mem.cvs 2 = none ∧
    (∀ ws, ¬ Registry Sys.dangling.mem ws) ∧
    enqueue 20 Sys.dangling.mem = none ∧
    step true Sys.dangling (Action.enqueue 0 20) = none ∧
    step true Sys.dangling (Action.resume 1) = none ∧
    step true (after [Action.dequeue 1]) (Action.resume 1) = none := by
  have hrun : run true (start Mem.boot)
      [Action.dequeue 1, Action.dequeue 2, Action.enqueue 0 10, Action.resume 2] =
      some Sys.dangling := by
    unfold Sys.dangling afterSpurious
    cases hr : run true (start Mem.boot)
        [Action.dequeue 1, Action.dequeue 2, Action.enqueue 0 10, Action.resume 2] with
    | none =>
      have : (run true (start Mem.boot)
        [Action.dequeue 1, Action.dequeue 2, Action.enqueue 0 10, Action.resume 2]).isSome =
          true := by decide
      rw [hr] at this
      cases this
    | some s => rfl
  refine ⟨hrun, rfl, by decide, by decide, by decide, by decide, by decide, by decide,
    by decide, ?_, by decide, rfl, rfl, rfl⟩
  intro ws hreg
  cases ws with
  | nil => exact absurd hreg.1 (by decide)
  | cons w rest =>
    have hch := hreg.1
    rw [Chain.cons_iff] at hch
    obtain ⟨h1, _, h3, _⟩ := hch
    rw [← h1] at h3
    exact absurd h3 (by decide)

end PQueue
